import Mathlib

/-!
# MiniVSFS: the image formatter (`mkfs_builder.c`) and the file inserter (`mkfs_adder.c`)

A shallow embedding of the two programs.  Memory is byte addressed: a buffer is a
function from byte offsets to byte values, a store is a pointwise update, and a
multi-byte field is little-endian.  Machine integers are naturals reduced modulo
`2 ^ w` wherever the C arithmetic can wrap.
-/

namespace MiniVSFS

/-! ## Constants (`#define`s of both sources) -/

abbrev BS : Nat := 4096
abbrev INODE_SIZE : Nat := 128
abbrev ROOT_INO : Nat := 1
abbrev DIRECT_MAX : Nat := 12
abbrev MODE_FILE : Nat := 0o100000
abbrev MODE_DIR : Nat := 0o040000
abbrev MAGIC : Nat := 0x4D565346
abbrev S_IFREG : Nat := 0o100000

/-! ## Byte-addressed memory -/

/-- A byte buffer: offset to byte value. -/
abbrev Mem := Nat → Nat

/-- A buffer of zero bytes (`calloc`, `= {0}`, `memset(p, 0, n)` of a fresh local). -/
def zeroMem : Mem := fun _ => 0

/-- Store of one `uint8_t`. -/
def wr8 (m : Mem) (a v : Nat) : Mem :=
  fun x => if x = a then v % 256 else m x

/-- Little-endian store of an `n`-byte unsigned field (the value is truncated to `n` bytes). -/
def wrLE (m : Mem) (a n v : Nat) : Mem :=
  fun x => if a ≤ x ∧ x < a + n then (v / 256 ^ (x - a)) % 256 else m x

/-- Little-endian load of an `n`-byte unsigned field. -/
def rdLE (m : Mem) (a : Nat) : Nat → Nat
  | 0 => 0
  | n + 1 => m a + 256 * rdLE m (a + 1) n

/-- The libc `memset(m + a, v, n)`. -/
def memset (m : Mem) (a v n : Nat) : Mem :=
  fun x => if a ≤ x ∧ x < a + n then v else m x

/-- The libc `memcpy(dst + d, src + s, n)` between two distinct buffers. -/
def memcpy (dst : Mem) (d : Nat) (src : Mem) (s n : Nat) : Mem :=
  fun x => if d ≤ x ∧ x < d + n then src (s + (x - d)) else dst x

/-- Copy of the bytes of a list to `m + a` (`fread` into a buffer, `memcpy` from a string). -/
def wrBytes (m : Mem) (a : Nat) (bs : List Nat) : Mem :=
  fun x => if a ≤ x ∧ x < a + bs.length then bs.getD (x - a) 0 else m x

/-- The `n` bytes at `m + a`, as a list. -/
def rdBytes (m : Mem) (a n : Nat) : List Nat :=
  (List.range n).map (fun i => m (a + i))

/-! ## CRC32 (identical in both sources) -/

/-- One entry of the table: eight rounds of the inner loop of `crc32_init`. -/
def crc32_tab_entry (i : Nat) : Nat :=
  Nat.iterate (fun c => if c &&& 1 ≠ 0 then 0xEDB88320 ^^^ (c >>> 1) else c >>> 1) 8 i

/-- The table filled by `crc32_init`. -/
def crc32_init : List Nat := (List.range 256).map crc32_tab_entry

/-- The global `CRC32_TAB` after `crc32_init()`. -/
def CRC32_TAB : List Nat := crc32_init

/-- The register `c` of `crc32` after `n` iterations of its loop over the buffer `p`. -/
def crc32_state (p : Mem) : Nat → Nat
  | 0 => 0xFFFFFFFF
  | n + 1 =>
    let c := crc32_state p n
    CRC32_TAB.getD ((c ^^^ p n) &&& 0xFF) 0 ^^^ (c >>> 8)

/-- The function `crc32(data, n)`. -/
def crc32 (p : Mem) (n : Nat) : Nat := crc32_state p n ^^^ 0xFFFFFFFF

/-! ## Record sealing -/

/-- The builder's `superblock_crc_finalize(&sb)`: `sb` is addressed from offset 0 and
`crc32` reads `BS - 4` bytes starting there, whatever the size of the object. -/
def superblock_crc_finalize (sb : Mem) : Mem :=
  let sb1 := wrLE sb 112 4 0
  let s := crc32 sb1 (BS - 4)
  wrLE sb1 112 4 s

/-- The adder's `superblock_crc_finalize_block(sb)` with `sb` at offset `0` of `img`. -/
def superblock_crc_finalize_block (img : Mem) : Mem :=
  let tmp := wrLE (memcpy (memset zeroMem 0 0 BS) 0 img 0 116) 112 4 0
  let s := crc32 tmp (BS - 4)
  wrLE img 112 4 s

/-- The function `inode_crc_finalize(ino)` with the record at offset `ino` of `m`. -/
def inode_crc_finalize (m : Mem) (ino : Nat) : Mem :=
  let tmp := memset (memcpy zeroMem 0 m ino INODE_SIZE) 120 0 8
  let c := crc32 tmp 120
  wrLE m (ino + 120) 8 c

/-- The accumulator `x` of `dirent_checksum_finalize` after `n` iterations. -/
def xor_bytes (m : Mem) (a : Nat) : Nat → Nat
  | 0 => 0
  | n + 1 => (xor_bytes m a n ^^^ m (a + n)) % 256

/-- The function `dirent_checksum_finalize(de)` with the entry at offset `de` of `m`. -/
def dirent_checksum_finalize (m : Mem) (de : Nat) : Mem :=
  wr8 m (de + 63) (xor_bytes m de 63)

/-! ## The formatter, `mkfs_builder.c` -/

/-- The numeric fields of `options_t` (the image path plays no part in the layout). -/
structure options_t where
  size_kib : Nat
  inodes : Nat
deriving Repr, DecidableEq

/-- The range checks at the end of `parse_cli`. -/
def parse_cli_ok (opts : options_t) : Bool :=
  !(opts.size_kib < 180 || opts.size_kib > 4096 || opts.size_kib % 4 != 0) &&
  !(opts.inodes < 128 || opts.inodes > 512)

/-- An image file: its length and its bytes. -/
structure Image where
  size : Nat
  data : Mem

/-- Layout locals of `build_image`, in `uint64_t` arithmetic. -/
def total_blocks (opts : options_t) : Nat := ((opts.size_kib * 1024) % 2 ^ 64) / BS

def inode_table_blocks (opts : options_t) : Nat :=
  ((opts.inodes * INODE_SIZE + BS - 1) % 2 ^ 64) / BS

def data_region_start (opts : options_t) : Nat := (3 + inode_table_blocks opts) % 2 ^ 64

def data_region_blocks (opts : options_t) : Nat :=
  (total_blocks opts + 2 ^ 64 - data_region_start opts) % 2 ^ 64

/-- The local `sb` of `build_image` after its field assignments and before sealing.
`adj` is the memory that follows the 116-byte object. -/
def sb_fields (opts : options_t) (t_sb : Nat) (adj : Mem) : Mem :=
  let sb : Mem := fun i => if i < 116 then 0 else adj i
  let sb := wrLE sb 0 4 0x4D565346
  let sb := wrLE sb 4 4 1
  let sb := wrLE sb 8 4 BS
  let sb := wrLE sb 12 8 (total_blocks opts)
  let sb := wrLE sb 20 8 opts.inodes
  let sb := wrLE sb 28 8 1
  let sb := wrLE sb 36 8 1
  let sb := wrLE sb 44 8 2
  let sb := wrLE sb 52 8 1
  let sb := wrLE sb 60 8 3
  let sb := wrLE sb 68 8 (inode_table_blocks opts)
  let sb := wrLE sb 76 8 (data_region_start opts)
  let sb := wrLE sb 84 8 (data_region_blocks opts)
  let sb := wrLE sb 92 8 ROOT_INO
  let sb := wrLE sb 100 8 t_sb
  wrLE sb 108 4 0

/-- The local `root` of `build_image` after sealing. -/
def root_inode (opts : options_t) (t_root : Nat) : Mem :=
  let root := zeroMem
  let root := wrLE root 0 2 0o040000
  let root := wrLE root 2 2 2
  let root := wrLE root 4 4 0
  let root := wrLE root 8 4 0
  let root := wrLE root 12 8 BS
  let root := wrLE root 36 8 t_root
  let root := wrLE root 28 8 t_root
  let root := wrLE root 20 8 t_root
  let root := wrLE root 44 4 (data_region_start opts)
  let root := wrLE root 104 4 2
  let root := wrLE root 108 4 0
  let root := wrLE root 112 8 0
  inode_crc_finalize root 0

/-- The locals `dot` (`dots = 1`) and `dotdot` (`dots = 2`) of `build_image` after sealing. -/
def dot_entry (dots : Nat) : Mem :=
  let de := zeroMem
  let de := wrLE de 0 4 1
  let de := wr8 de 4 2
  let de := wrBytes de 5 (List.replicate dots 46 ++ [0])
  dirent_checksum_finalize de 0

/-- The blocks written by `build_image`, in the order of its `fwrite` calls.
`t_sb` and `t_root` are the two results of `time(NULL)`. -/
def build_image_blocks (opts : options_t) (t_sb t_root : Nat) (adj : Mem) : List Mem :=
  let sb := superblock_crc_finalize (sb_fields opts t_sb adj)
  let block0 := memcpy (memset zeroMem 0 0 BS) 0 sb 0 116
  let ibm := wr8 (memset zeroMem 0 0 BS) 0 0x01
  let dbm := wr8 (memset zeroMem 0 0 BS) 0 0x01
  let itab0 := memcpy (memset zeroMem 0 0 BS) 0 (root_inode opts t_root) 0 128
  let rootdir := memcpy (memcpy (memset zeroMem 0 0 BS) 0 (dot_entry 1) 0 64) 64 (dot_entry 2) 0 64
  [block0, ibm, dbm, itab0]
    ++ List.replicate (inode_table_blocks opts - 1) (memset zeroMem 0 0 BS)
    ++ [rootdir]
    ++ List.replicate (data_region_blocks opts - 1) (memset zeroMem 0 0 BS)

/-- The file made of a sequence of `BS`-byte blocks. -/
def image_of_blocks (bl : List Mem) : Image :=
  { size := BS * bl.length
    data := fun a => (bl.getD (a / BS) zeroMem) (a % BS) }

/-- The image file written by `build_image`. -/
def build_image (opts : options_t) (t_sb t_root : Nat) (adj : Mem) : Image :=
  image_of_blocks (build_image_blocks opts t_sb t_root adj)

/-- The formatter's `main`: `parse_cli` then `build_image`; `none` is `exit(1)`. -/
def mkfs_builder (opts : options_t) (t_sb t_root : Nat) (adj : Mem) : Option Image :=
  if parse_cli_ok opts then some (build_image opts t_sb t_root adj) else none

/-! ## The file inserter, `mkfs_adder.c` -/

/-- The ways the inserter ends without writing an output image (all exit with status 2). -/
inductive adder_error
  | ftell
  | invalid_size
  | bad_magic
  | bad_block_size
  | not_regular
  | too_large
  | name_length
  | root_not_dir
  | root_no_data
  | already_exists
  | no_free_inode
  | no_space
  | read_file
  | root_full
deriving Repr, DecidableEq

/-- The source file named by `--file`: the path argument (a C string, without its NUL),
the `st_mode` reported by `stat`, and the bytes of the file (`st_size` is their number). -/
structure source_file where
  path : List Nat
  st_mode : Nat
  content : List Nat

/-- The string that follows the last occurrence of `c` (`strrchr(p, c) + 1`), if any. -/
def strrchr_tail (c : Nat) : List Nat → Option (List Nat)
  | [] => none
  | x :: xs =>
    match strrchr_tail c xs with
    | some r => some r
    | none => if x = c then some xs else none

/-- The function `base_name`: what follows the last `/`, else what follows the last `\`. -/
def base_name (p : List Nat) : List Nat :=
  match strrchr_tail 47 p with
  | some r => r
  | none =>
    match strrchr_tail 92 p with
    | some r => r
    | none => p

/-- The function `get_bit(bm, idx)` for the bitmap at offset `bm` of `m`. -/
def get_bit (m : Mem) (bm idx : Nat) : Nat :=
  (m (bm + (idx >>> 3)) >>> (idx &&& 7)) &&& 1

/-- The function `set_bit(bm, idx)` for the bitmap at offset `bm` of `m`. -/
def set_bit (m : Mem) (bm idx : Nat) : Mem :=
  wr8 m (bm + (idx >>> 3)) (m (bm + (idx >>> 3)) ||| (1 <<< (idx &&& 7)))

/-- Whether `strncmp(a + ao, b + bo, n) == 0`. -/
def strncmp_eq (a : Mem) (ao : Nat) (b : Mem) (bo : Nat) : Nat → Bool
  | 0 => true
  | n + 1 =>
    if a ao ≠ b bo then false
    else if a ao = 0 then true
    else strncmp_eq a (ao + 1) b (bo + 1) n

/-- Offset of the inode bitmap: `sb->inode_bitmap_start*BS`. -/
def inode_bm_off (img : Mem) : Nat := (rdLE img 28 8 * BS) % 2 ^ 64

/-- Offset of the data bitmap: `sb->data_bitmap_start*BS`. -/
def data_bm_off (img : Mem) : Nat := (rdLE img 44 8 * BS) % 2 ^ 64

/-- Offset of the inode table: `sb->inode_table_start*BS`. -/
def inodes_off (img : Mem) : Nat := (rdLE img 60 8 * BS) % 2 ^ 64

/-- Offset of the root inode, `&inodes[ROOT_INO-1]`. -/
def root_off (img : Mem) : Nat := inodes_off img + (ROOT_INO - 1) * INODE_SIZE

/-- Offset of the root directory block: `(uint64_t)root->direct[0]*BS`. -/
def rootblk_off (img : Mem) : Nat := (rdLE img (root_off img + 44) 4 * BS) % 2 ^ 64

/-- The value `fsize = (uint64_t)st.st_size`. -/
def fsize (src : source_file) : Nat := src.content.length % 2 ^ 64

/-- The value `need = (fsize+BS-1)/BS`. -/
def need (src : source_file) : Nat := ((fsize src + BS - 1) % 2 ^ 64) / BS

/-- The buffer `fname[59]`: zeroed, then the base name copied in. -/
def fname (src : source_file) : Mem := wrBytes zeroMem 0 (base_name src.path)

/-- The buffer `exist[59]` for the directory entry at offset `de`. -/
def exist_buf (img : Mem) (de : Nat) : Mem := wr8 (memcpy zeroMem 0 img (de + 5) 58) 58 0

/-- The duplicate-name loop from slot `i` on, with `k` slots left: whether it reaches `die`. -/
def dup_scan (img : Mem) (rootblk : Nat) (fn : Mem) : Nat → Nat → Bool
  | 0, _ => false
  | k + 1, i =>
    let de := rootblk + i * 64
    if rdLE img de 4 = 0 then dup_scan img rootblk fn k (i + 1)
    else if strncmp_eq (exist_buf img de) 0 fn 0 58 then true
    else dup_scan img rootblk fn k (i + 1)

/-- The free-inode loop from index `i` on, with `k` indices left below `sb->inode_count`:
the index at which it breaks. -/
def inode_scan (img : Mem) (bm : Nat) : Nat → Nat → Option Nat
  | 0, _ => none
  | k + 1, i => if get_bit img bm i = 0 then some i else inode_scan img bm k (i + 1)

/-- The conversion `(int)i` of a `uint64_t`. -/
def to_int32 (x : Nat) : Int :=
  if x % 2 ^ 32 < 2 ^ 31 then ((x % 2 ^ 32 : Nat) : Int) else ((x % 2 ^ 32 : Nat) : Int) - 2 ^ 32

/-- The data-block loop from index `i` on: the image and the filled part of `blocks[]`
(its length is `got`) when the loop ends.  The superblock fields are read from the
image at every iteration, as the loop does; the first argument bounds the number of
iterations (an index is a `uint64_t`, so `2 ^ 64` is never reached). -/
def alloc_blocks (bm nd : Nat) : Nat → Nat → Mem → List Nat → Mem × List Nat
  | 0, _, m, blocks => (m, blocks)
  | k + 1, i, m, blocks =>
    if i < rdLE m 84 8 ∧ blocks.length < nd then
      if get_bit m bm i = 0 then
        alloc_blocks bm nd k (i + 1) (set_bit m bm i)
          (blocks ++ [((rdLE m 76 8 + i) % 2 ^ 64) % 2 ^ 32])
      else alloc_blocks bm nd k (i + 1) m blocks
    else (m, blocks)

/-- The copy loop from block `bi` on, with `k` blocks left and the source file read up
to `pos`. -/
def copy_blocks (file : List Nat) (fsz : Nat) (blocks : List Nat) :
    Nat → Nat → Nat → Mem → Except adder_error Mem
  | 0, _, _, m => .ok m
  | k + 1, bi, pos, m =>
    let blk := (blocks.getD bi 0 * BS) % 2 ^ 64
    let m := memset m blk 0 BS
    let toread :=
      if ((bi + 1) * BS) % 2 ^ 64 ≤ fsz then BS else (fsz + 2 ^ 64 - (bi * BS) % 2 ^ 64) % 2 ^ 64
    if toread > 0 then
      let got := min toread (file.length - pos)
      let m := wrBytes m blk ((file.drop pos).take got)
      if got ≠ toread then .error .read_file
      else copy_blocks file fsz blocks k (bi + 1) (pos + got) m
    else copy_blocks file fsz blocks k (bi + 1) pos m

/-- The image after `n` iterations of a loop `for i: ino->direct[i] = val i`. -/
def fill_direct (ino : Nat) (val : Nat → Nat) : Nat → Mem → Mem
  | 0, m => m
  | n + 1, m => wrLE (fill_direct ino val n m) (ino + 44 + 4 * n) 4 (val n)

/-- Lines 207-216: the new inode record at offset `ino`, sealed. -/
def write_inode (m : Mem) (ino fsz now nd : Nat) (blocks : List Nat) : Mem :=
  let m := memset m ino 0 INODE_SIZE
  let m := wrLE m ino 2 MODE_FILE
  let m := wrLE m (ino + 2) 2 1
  let m := wrLE m (ino + 12) 8 fsz
  let m := wrLE m (ino + 36) 8 now
  let m := wrLE m (ino + 28) 8 now
  let m := wrLE m (ino + 20) 8 now
  let m := fill_direct ino (fun _ => 0) DIRECT_MAX m
  let m := fill_direct ino (fun i => blocks.getD i 0) nd m
  inode_crc_finalize m ino

/-- Lines 218-222: the local `de`, sealed. -/
def new_dirent (free_ino : Nat) (base : List Nat) : Mem :=
  let de := memset zeroMem 0 0 64
  let de := wrLE de 0 4 ((free_ino + 1) % 2 ^ 32)
  let de := wr8 de 4 1
  let de := memcpy de 5 (wrBytes zeroMem 0 base) 0 base.length
  dirent_checksum_finalize de 0

/-- The placement loop from slot `i` on, with `k` slots left; `none` when nothing is placed. -/
def place_dirent (rootblk : Nat) (de : Mem) : Nat → Nat → Mem → Option Mem
  | 0, _, _ => none
  | k + 1, i, m =>
    if rdLE m (rootblk + i * 64) 4 = 0 then some (memcpy m (rootblk + i * 64) de 0 64)
    else place_dirent rootblk de k (i + 1) m

/-- Lines 230-235: root inode and superblock updates, each re-sealed. -/
def finish_image (m : Mem) (root now : Nat) : Mem :=
  let m := wrLE m (root + 2) 2 ((rdLE m (root + 2) 2 + 1) % 2 ^ 16)
  let m := wrLE m (root + 28) 8 now
  let m := inode_crc_finalize m root
  let m := wrLE m 100 8 now
  superblock_crc_finalize_block m

/-- Lines 189-196: the data-block loop run on the input image `img`. -/
def alloc_stage (img : Mem) (src : source_file) : Mem × List Nat :=
  alloc_blocks (data_bm_off img) (need src) (2 ^ 64) 0 img []

/-- Lines 189-204: block allocation, the `no space` check, and the copy loop. -/
def copy_stage (img : Mem) (src : source_file) : Except adder_error Mem :=
  if (alloc_stage img src).2.length < need src then .error .no_space
  else
    copy_blocks src.content (fsize src) (alloc_stage img src).2 (need src) 0 0
      (alloc_stage img src).1

/-- Lines 207-217: the new inode record and its bitmap bit; `img` is the input image
(the pointers `inodes` and `inode_bm` were computed from it), `m2` the image so far. -/
def inode_stage (img : Mem) (src : source_file) (now free_ino : Nat) (m2 : Mem) : Mem :=
  set_bit
    (write_inode m2 (inodes_off img + free_ino * INODE_SIZE) (fsize src) now (need src)
      (alloc_stage img src).2)
    (inode_bm_off img) free_ino

/-- The inserter's `main` after argument parsing: the output image, or the error it ends
with.  `inp` is the input image file, `now` the result of `time(NULL)`. -/
def mkfs_adder (inp : Image) (src : source_file) (now : Nat) : Except adder_error Image :=
  if inp.size = 0 then .error .ftell
  else if inp.size % BS ≠ 0 then .error .invalid_size
  else if rdLE inp.data 0 4 ≠ MAGIC then .error .bad_magic
  else if rdLE inp.data 8 4 ≠ BS then .error .bad_block_size
  else if src.st_mode &&& S_IFREG = 0 then .error .not_regular
  else if need src > DIRECT_MAX then .error .too_large
  else if (base_name src.path).length = 0 ∨ (base_name src.path).length > 58 then
    .error .name_length
  else if rdLE inp.data (root_off inp.data) 2 ≠ MODE_DIR then .error .root_not_dir
  else if rdLE inp.data (root_off inp.data + 44) 4 = 0 then .error .root_no_data
  else if dup_scan inp.data (rootblk_off inp.data) (fname src) (BS / 64) 0 then
    .error .already_exists
  else
    match inode_scan inp.data (inode_bm_off inp.data) (rdLE inp.data 20 8) 0 with
    | none => .error .no_free_inode
    | some i =>
      if to_int32 i < 0 then .error .no_free_inode
      else
        match copy_stage inp.data src with
        | .error e => .error e
        | .ok m2 =>
          match place_dirent (rootblk_off inp.data)
              (new_dirent (to_int32 i).toNat (base_name src.path)) (BS / 64) 0
              (inode_stage inp.data src now (to_int32 i).toNat m2) with
          | none => .error .root_full
          | some m5 =>
            .ok { size := inp.size, data := finish_image m5 (root_off inp.data) now }

/-- Bit `idx` of the bitmap at offset `bm`, least-significant bit first within each byte. -/
def bit_set (m : Mem) (bm idx : Nat) : Prop :=
  Nat.testBit (m (bm + idx / 8)) (idx % 8) = true

instance (m : Mem) (bm idx : Nat) : Decidable (bit_set m bm idx) := by
  unfold bit_set; infer_instance

/-! ## Specification-side notions -/

/-- A source file the inserter can be given: the path is a C string (bytes 1..255),
the content is made of bytes, and its length fits the signed 64-bit `st_size`. -/
def valid_source (src : source_file) : Prop :=
  (∀ b ∈ src.path, 0 < b ∧ b < 256) ∧ (∀ b ∈ src.content, b < 256) ∧
  src.content.length < 2 ^ 63

set_option maxRecDepth 100000 in
/-- Images obtained from the formatter by zero or more successful insertions. -/
inductive Reachable : Image → Prop
  | format (o : options_t) (t_sb t_root : Nat) (adj : Mem) (img : Image) :
      mkfs_builder o t_sb t_root adj = some img → Reachable img
  | insert (img : Image) (src : source_file) (now : Nat) (out : Image) :
      Reachable img → valid_source src → mkfs_adder img src now = .ok out → Reachable out

/-- The superblock checksum verifies: the stored field is the CRC of the first 4092
bytes of block 0 with the checksum field taken as zero. -/
def superblock_sealed (m : Mem) : Prop :=
  rdLE m 112 4 = crc32 (fun i => if 112 ≤ i ∧ i < 116 then 0 else m i) 4092

/-- The checksum of the inode record at offset `ino` verifies: the 64-bit field is the
CRC of the record's first 120 bytes. -/
def inode_sealed (m : Mem) (ino : Nat) : Prop :=
  rdLE m (ino + 120) 8 = crc32 (fun i => m (ino + i)) 120

/-- The checksum of the directory entry at offset `de` verifies: byte 63 is the XOR of
bytes 0..62. -/
def dirent_sealed (m : Mem) (de : Nat) : Prop :=
  m (de + 63) = (rdBytes m de 63).foldl (fun x b => x ^^^ b) 0

/-- The name field of the directory entry at offset `de`, read as a NUL-terminated
string of at most 58 bytes. -/
def dirent_name (m : Mem) (de : Nat) : List Nat :=
  (rdBytes m (de + 5) 58).takeWhile (fun b => b != 0)

/-- The layout and sealing facts shared by every image of the format with the
parameters `o`: the superblock describes the formatter's layout, the rest of block 0
is zero, the root inode is a directory whose first block is the first data block, bit 0
of both bitmaps is set, every allocated inode and every used root entry is sealed. -/
structure Formatted (o : options_t) (img : Image) : Prop where
  opts_ok : parse_cli_ok o = true
  size_eq : img.size = BS * total_blocks o
  magic : rdLE img.data 0 4 = MAGIC
  block_size : rdLE img.data 8 4 = BS
  total : rdLE img.data 12 8 = total_blocks o
  inode_count : rdLE img.data 20 8 = o.inodes
  ibm_start : rdLE img.data 28 8 = 1
  dbm_start : rdLE img.data 44 8 = 2
  itab_start : rdLE img.data 60 8 = 3
  dr_start : rdLE img.data 76 8 = data_region_start o
  dr_blocks : rdLE img.data 84 8 = data_region_blocks o
  sb_pad : ∀ a, 116 ≤ a → a < 4096 → img.data a = 0
  root_mode : rdLE img.data 12288 2 = MODE_DIR
  root_direct0 : rdLE img.data (12288 + 44) 4 = data_region_start o
  ibit0 : bit_set img.data 4096 0
  dbit0 : bit_set img.data 8192 0
  inodes_sealed : ∀ i, i < o.inodes → bit_set img.data 4096 i →
    inode_sealed img.data (12288 + 128 * i)
  dirents_sealed : ∀ s, s < 64 → rdLE img.data (4096 * data_region_start o + 64 * s) 4 ≠ 0 →
    dirent_sealed img.data (4096 * data_region_start o + 64 * s)

/-- The effect of one successful insertion on an image of the format: `fi` is the index
of the inode taken, `js` the data-bitmap indices taken (in order), `s` the root slot
used. -/
structure insert_effect (o : options_t) (inp : Image) (src : source_file) (now : Nat)
    (out : Image) (fi : Nat) (js : List Nat) (s : Nat) : Prop where
  fi_lt : fi < o.inodes
  fi_clear : ¬ bit_set inp.data 4096 fi
  fi_least : ∀ j, j < fi → bit_set inp.data 4096 j
  js_sorted : js.Pairwise (fun a b => a < b)
  js_length : js.length = need src
  fi_pos : 1 ≤ fi
  js_clear : ∀ j ∈ js, 1 ≤ j ∧ j < data_region_blocks o ∧ ¬ bit_set inp.data 8192 j
  js_least : ∀ j, j < data_region_blocks o → ¬ bit_set inp.data 8192 j → j ∉ js →
    ∀ j' ∈ js, j' < j
  blocks_eq : (alloc_stage inp.data src).2 = js.map (fun j => data_region_start o + j)
  s_lt : s < 64
  s_free : rdLE inp.data (4096 * data_region_start o + 64 * s) 4 = 0
  s_least : ∀ s', s' < s → rdLE inp.data (4096 * data_region_start o + 64 * s') 4 ≠ 0
  name_new : ∀ s', s' < 64 → rdLE inp.data (4096 * data_region_start o + 64 * s') 4 ≠ 0 →
    dirent_name inp.data (4096 * data_region_start o + 64 * s') ≠ base_name src.path
  size_eq : out.size = inp.size
  inode_bits : ∀ j, j < 32768 → (bit_set out.data 4096 j ↔ (j = fi ∨ bit_set inp.data 4096 j))
  data_bits : ∀ j, j < 32768 → (bit_set out.data 8192 j ↔ (j ∈ js ∨ bit_set inp.data 8192 j))
  inode_rec : ∀ i, i < 128 → out.data (12288 + 128 * fi + i) =
    write_inode zeroMem 0 (fsize src) now (need src)
      (js.map (fun j => data_region_start o + j)) i
  dirent_rec : ∀ i, i < 64 → out.data (4096 * data_region_start o + 64 * s + i) =
    new_dirent fi (base_name src.path) i
  file_data : ∀ k, k < need src → ∀ off, off < 4096 →
    out.data (4096 * (data_region_start o + js.getD k 0) + off) =
      src.content.getD (4096 * k + off) 0
  root_links : rdLE out.data (12288 + 2) 2 = (rdLE inp.data (12288 + 2) 2 + 1) % 2 ^ 16
  root_mtime : rdLE out.data (12288 + 28) 8 = now % 2 ^ 64
  sb_mtime : rdLE out.data 100 8 = now % 2 ^ 64
  root_sealed : inode_sealed out.data 12288
  sb_sealed : superblock_sealed out.data
  frame : ∀ x, ¬(100 ≤ x ∧ x < 108) → ¬(112 ≤ x ∧ x < 116) → x ≠ 4096 + fi / 8 →
    (∀ j ∈ js, x ≠ 8192 + j / 8) →
    ¬(12288 + 2 ≤ x ∧ x < 12288 + 4) → ¬(12288 + 28 ≤ x ∧ x < 12288 + 36) →
    ¬(12288 + 120 ≤ x ∧ x < 12288 + 128) →
    ¬(12288 + 128 * fi ≤ x ∧ x < 12288 + 128 * fi + 128) →
    ¬(4096 * data_region_start o + 64 * s ≤ x ∧ x < 4096 * data_region_start o + 64 * s + 64) →
    (∀ j ∈ js, ¬(4096 * (data_region_start o + j) ≤ x ∧
      x < 4096 * (data_region_start o + j) + 4096)) →
    out.data x = inp.data x

/-! ## Sample inputs -/

/-- A 5000-byte regular file given as `hello.txt`. -/
def hello_src : source_file :=
  { path := [104, 101, 108, 108, 111, 46, 116, 120, 116]
    st_mode := 0o100644
    content := List.replicate 5000 0 }

/-- The image formatted with `--size-kib 180 --inodes 128`. -/
def sample_image : Image := build_image ⟨180, 128⟩ 0 0 zeroMem

/-- One bit of the reflected CRC-32 division: shift right by one, and XOR the polynomial
`0xEDB88320` in when the bit shifted out is 1. -/
def crc32_bit_step (c : Nat) : Nat :=
  if c % 2 = 1 then (c / 2) ^^^ 0xEDB88320 else c / 2

/-- The standard reflected CRC-32 defined bit by bit (polynomial `0xEDB88320`, initial
value `0xFFFFFFFF`, final XOR `0xFFFFFFFF`): each byte is XORed into the low bits of the
register, which then takes eight single-bit steps.  It is the definition the table-driven
`crc32` is compared with. -/
def crc32_bitwise (bs : List Nat) : Nat :=
  bs.foldl (fun c b => Nat.iterate crc32_bit_step 8 (c ^^^ b)) 0xFFFFFFFF ^^^ 0xFFFFFFFF

/-- Direct pointer `k` of the inode record with index `i` (inode number `i + 1`), the
inode table starting at block 3. -/
def direct_ptr (m : Mem) (i k : Nat) : Nat := rdLE m (12288 + 128 * i + 44 + 4 * k) 4

/-- The `size_bytes` field of the inode record with index `i`. -/
def inode_size (m : Mem) (i : Nat) : Nat := rdLE m (12288 + 128 * i + 12) 8

/-- Block ownership in an image with the parameters `o`: every non-zero direct pointer of
an allocated inode names a block of the data region whose data-bitmap bit is set, no
block is named twice, and the non-zero pointers of an inode are its first
`ceil(size_bytes / 4096)` ones. -/
structure Owned (o : options_t) (img : Image) : Prop where
  in_range : ∀ i k, i < o.inodes → bit_set img.data 4096 i → k < 12 →
    direct_ptr img.data i k ≠ 0 →
    data_region_start o ≤ direct_ptr img.data i k ∧
    direct_ptr img.data i k < total_blocks o ∧
    bit_set img.data 8192 (direct_ptr img.data i k - data_region_start o)
  distinct : ∀ i k i' k', i < o.inodes → bit_set img.data 4096 i → k < 12 →
    i' < o.inodes → bit_set img.data 4096 i' → k' < 12 →
    direct_ptr img.data i k ≠ 0 → direct_ptr img.data i k = direct_ptr img.data i' k' →
    i = i' ∧ k = k'
  count : ∀ i k, i < o.inodes → bit_set img.data 4096 i → k < 12 →
    (direct_ptr img.data i k ≠ 0 ↔ 4096 * k < inode_size img.data i)
  size_le : ∀ i, i < o.inodes → bit_set img.data 4096 i → inode_size img.data i ≤ 12 * 4096

/-- Images obtained from the formatter by exactly `k` successful insertions. -/
def ReachedIn : Nat → Image → Prop
  | 0, img => ∃ o t_sb t_root adj, mkfs_builder o t_sb t_root adj = some img
  | k + 1, out => ∃ img src now, ReachedIn k img ∧ valid_source src ∧
      mkfs_adder img src now = .ok out

/-- The indices below `n` whose bit is clear in the bitmap at offset `bm`, in increasing
order. -/
def clear_bits (m : Mem) (bm n : Nat) : List Nat :=
  (List.range n).filter (fun j => decide (¬ bit_set m bm j))

/-- The sample image with every slot of its root directory holding the entry `.`. -/
def crowded_image : Image :=
  { size := sample_image.size
    data := fun a =>
      if 4096 * 7 ≤ a ∧ a < 4096 * 7 + 4096 then dot_entry 1 ((a - 4096 * 7) % 64)
      else sample_image.data a }

/-- The crowded image with bit 0 of its data bitmap cleared: the block of the root
directory is marked free. -/
def crowded_stale_image : Image :=
  { size := crowded_image.size, data := wr8 crowded_image.data 8192 0 }

/-- An image of 65540 blocks whose superblock declares 2^31 + 1 inodes.  The inode bitmap
starts at block 1 and its first 2^28 bytes are 0xFF (bits 0 to 2^31 - 1 set, bit 2^31
clear); the inode table starts at block 65538, the root inode is a directory whose first
direct pointer is block 65539, and every other byte is zero. -/
def huge_image : Image :=
  { size := 4096 * 65540
    data :=
      wrLE (wrLE (wrLE (wrLE (wrLE (wrLE (wrLE
        (fun a => if 4096 ≤ a ∧ a < 4096 + 2 ^ 28 then 255 else 0)
        0 4 MAGIC) 8 4 BS) 20 8 (2 ^ 31 + 1)) 28 8 1) 60 8 65538)
        (4096 * 65538) 2 MODE_DIR) (4096 * 65538 + 44) 4 65539 }

/-- An empty regular file whose name has the maximal length of 58 bytes. -/
def long_name_src : source_file :=
  { path := List.replicate 58 97, st_mode := 0o100644, content := [] }

/-- The sample image with the first direct pointer of its root inode set to 3, the block
of the inode table in which the root inode itself lies. -/
def aliased_image : Image :=
  { size := sample_image.size, data := wrLE sample_image.data (12288 + 44) 4 3 }

/-! # Lemmas and theorems -/

/-! ## Memory lemmas -/

theorem rdLE_congr {m m' : Mem} {a n : Nat}
    (h : ∀ x, a ≤ x → x < a + n → m x = m' x) : rdLE m a n = rdLE m' a n := by
  induction n generalizing a with
  | zero => rfl
  | succ k ih =>
    simp only [rdLE]
    rw [h a (le_refl a) (by omega), ih (fun x h1 h2 => h x (by omega) (by omega))]

theorem rdLE_of_bytes {m : Mem} {a n v : Nat}
    (h : ∀ k, k < n → m (a + k) = (v / 256 ^ k) % 256) : rdLE m a n = v % 256 ^ n := by
  induction n generalizing a v with
  | zero => simp [rdLE, Nat.mod_one]
  | succ k ih =>
    simp only [rdLE]
    have h0 := h 0 (by omega)
    simp only [Nat.add_zero, pow_zero, Nat.div_one] at h0
    have h1 : rdLE m (a + 1) k = (v / 256) % 256 ^ k := by
      apply ih
      intro j hj
      have := h (j + 1) (by omega)
      rw [show a + 1 + j = a + (j + 1) by omega, this, Nat.div_div_eq_div_mul, pow_succ, Nat.mul_comm]
    rw [h0, h1, pow_succ, Nat.mul_comm (256 ^ k) 256, Nat.mod_mul]

theorem rdLE_wrLE_same (m : Mem) (a n v : Nat) : rdLE (wrLE m a n v) a n = v % 256 ^ n := by
  apply rdLE_of_bytes
  intro k hk
  simp [wrLE, hk]

theorem rdLE_wrLE_disj (m : Mem) (a n v b k : Nat) (h : b + k ≤ a ∨ a + n ≤ b) :
    rdLE (wrLE m a n v) b k = rdLE m b k := by
  apply rdLE_congr
  intro x h1 h2
  simp only [wrLE]
  rw [if_neg (by omega)]

theorem rdLE_lt {m : Mem} (hm : ∀ x, m x < 256) (a n : Nat) : rdLE m a n < 256 ^ n := by
  induction n generalizing a with
  | zero => simp [rdLE]
  | succ k ih =>
    simp only [rdLE, pow_succ]
    have := ih (a + 1)
    have := hm a
    omega

theorem crc32_state_congr {p q : Mem} {n : Nat} (h : ∀ x, x < n → p x = q x) :
    crc32_state p n = crc32_state q n := by
  induction n with
  | zero => rfl
  | succ k ih =>
    simp only [crc32_state]
    rw [ih (fun x hx => h x (by omega)), h k (by omega)]

theorem crc32_congr {p q : Mem} {n : Nat} (h : ∀ x, x < n → p x = q x) :
    crc32 p n = crc32 q n := by
  simp only [crc32, crc32_state_congr h]

theorem xor_bytes_congr {m m' : Mem} {a b n : Nat} (h : ∀ k, k < n → m (a + k) = m' (b + k)) :
    xor_bytes m a n = xor_bytes m' b n := by
  induction n with
  | zero => rfl
  | succ k ih =>
    simp only [xor_bytes]
    rw [ih (fun j hj => h j (by omega)), h k (by omega)]

theorem xor_bytes_lt (m : Mem) (a n : Nat) : xor_bytes m a n < 256 := by
  cases n with
  | zero => simp [xor_bytes]
  | succ k => simp only [xor_bytes]; exact Nat.mod_lt _ (by norm_num)

theorem memset_zero_apply (a n x : Nat) : memset zeroMem a 0 n x = 0 := by
  simp [memset, zeroMem]

theorem getD_replicate_zero (k b x : Nat) :
    ((List.replicate k (memset zeroMem 0 0 BS)).getD b zeroMem) x = 0 := by
  by_cases h : b < k
  · simp [List.getD_eq_getElem?_getD, List.getElem?_replicate, h, memset_zero_apply]
  · simp [List.getD_eq_getElem?_getD, List.getElem?_replicate, h, zeroMem]

/-- The layout arithmetic of `build_image` on inputs accepted by `parse_cli`. -/
theorem layout_arith (o : options_t) (h : parse_cli_ok o = true) :
    total_blocks o = o.size_kib / 4 ∧
    inode_table_blocks o = (o.inodes * 128 + 4095) / 4096 ∧
    data_region_start o = 3 + inode_table_blocks o ∧
    data_region_blocks o = total_blocks o - data_region_start o ∧
    4 ≤ inode_table_blocks o ∧ inode_table_blocks o ≤ 16 ∧
    45 ≤ total_blocks o ∧ total_blocks o ≤ 1024 ∧
    data_region_start o + 26 ≤ total_blocks o := by
  simp only [parse_cli_ok, Bool.and_eq_true, Bool.not_eq_true', Bool.or_eq_false_iff,
    decide_eq_false_iff_not, bne_eq_false_iff_eq, not_lt] at h
  obtain ⟨⟨⟨h1, h2⟩, h3⟩, h4, h5⟩ := h
  simp only [total_blocks, inode_table_blocks, data_region_start, data_region_blocks, BS,
    INODE_SIZE]
  have e1 : o.size_kib * 1024 % 2 ^ 64 = o.size_kib * 1024 := Nat.mod_eq_of_lt (by omega)
  have e2 : (o.inodes * 128 + 4096 - 1) % 2 ^ 64 = o.inodes * 128 + 4095 :=
    Nat.mod_eq_of_lt (by omega)
  rw [e1, e2]
  have e3 : (3 + (o.inodes * 128 + 4095) / 4096) % 2 ^ 64 = 3 + (o.inodes * 128 + 4095) / 4096 :=
    Nat.mod_eq_of_lt (by omega)
  rw [e3]
  omega

theorem parse_cli_ok_iff (o : options_t) :
    parse_cli_ok o = true ↔
      (180 ≤ o.size_kib ∧ o.size_kib ≤ 4096 ∧ o.size_kib % 4 = 0) ∧
      (128 ≤ o.inodes ∧ o.inodes ≤ 512) := by
  simp only [parse_cli_ok, Bool.and_eq_true, Bool.not_eq_true', Bool.or_eq_false_iff,
    decide_eq_false_iff_not, bne_eq_false_iff_eq, not_lt]
  tauto

theorem ceil_div_4096 (x : Nat) : ⌈((x : ℕ) : ℚ) / 4096⌉₊ = (x + 4095) / 4096 := by
  apply le_antisymm
  · rw [Nat.ceil_le, div_le_iff₀ (by norm_num)]
    have : x ≤ (x + 4095) / 4096 * 4096 := by omega
    exact_mod_cast this
  · rcases Nat.eq_zero_or_pos ((x + 4095) / 4096) with h0 | hpos
    · omega
    · have h1 : (x + 4095) / 4096 - 1 < ⌈((x : ℕ) : ℚ) / 4096⌉₊ := by
        rw [Nat.lt_ceil, lt_div_iff₀ (by norm_num)]
        have : ((x + 4095) / 4096 - 1) * 4096 < x := by omega
        exact_mod_cast this
      omega

theorem build_image_block0 (o : options_t) (t1 t2 : Nat) (adj : Mem) (a : Nat) (h : a < 4096) :
    (build_image o t1 t2 adj).data a =
      memcpy (memset zeroMem 0 0 BS) 0 (superblock_crc_finalize (sb_fields o t1 adj)) 0 116 a := by
  simp [build_image, image_of_blocks, build_image_blocks, Nat.div_eq_of_lt h, Nat.mod_eq_of_lt h]

theorem build_image_sb_field (o : options_t) (t1 t2 : Nat) (adj : Mem) (off n : Nat)
    (h : off + n ≤ 112) :
    rdLE (build_image o t1 t2 adj).data off n = rdLE (sb_fields o t1 adj) off n := by
  apply rdLE_congr
  intro x h1 h2
  rw [build_image_block0 _ _ _ _ _ (by omega)]
  simp only [memcpy, superblock_crc_finalize, wrLE]
  rw [if_pos (by omega), if_neg (by omega), if_neg (by omega)]
  simp

/-- The superblock fields stored by `build_image`, as read back from the image. -/
theorem build_image_superblock (o : options_t) (t1 t2 : Nat) (adj : Mem)
    (h : parse_cli_ok o = true) :
    rdLE (build_image o t1 t2 adj).data 0 4 = MAGIC ∧
    rdLE (build_image o t1 t2 adj).data 8 4 = BS ∧
    rdLE (build_image o t1 t2 adj).data 12 8 = total_blocks o ∧
    rdLE (build_image o t1 t2 adj).data 20 8 = o.inodes ∧
    rdLE (build_image o t1 t2 adj).data 28 8 = 1 ∧
    rdLE (build_image o t1 t2 adj).data 44 8 = 2 ∧
    rdLE (build_image o t1 t2 adj).data 60 8 = 3 ∧
    rdLE (build_image o t1 t2 adj).data 68 8 = inode_table_blocks o ∧
    rdLE (build_image o t1 t2 adj).data 76 8 = data_region_start o ∧
    rdLE (build_image o t1 t2 adj).data 84 8 = data_region_blocks o := by
  obtain ⟨a1, a2, a3, a4, a5, a6, a7, a8, a9⟩ := layout_arith o h
  have hv := (parse_cli_ok_iff o).1 h
  simp only [build_image_sb_field _ _ _ _ _ _ (show (0:ℕ) + 4 ≤ 112 by norm_num),
    build_image_sb_field _ _ _ _ _ _ (show (8:ℕ) + 4 ≤ 112 by norm_num),
    build_image_sb_field _ _ _ _ _ _ (show (12:ℕ) + 8 ≤ 112 by norm_num),
    build_image_sb_field _ _ _ _ _ _ (show (20:ℕ) + 8 ≤ 112 by norm_num),
    build_image_sb_field _ _ _ _ _ _ (show (28:ℕ) + 8 ≤ 112 by norm_num),
    build_image_sb_field _ _ _ _ _ _ (show (44:ℕ) + 8 ≤ 112 by norm_num),
    build_image_sb_field _ _ _ _ _ _ (show (60:ℕ) + 8 ≤ 112 by norm_num),
    build_image_sb_field _ _ _ _ _ _ (show (68:ℕ) + 8 ≤ 112 by norm_num),
    build_image_sb_field _ _ _ _ _ _ (show (76:ℕ) + 8 ≤ 112 by norm_num),
    build_image_sb_field _ _ _ _ _ _ (show (84:ℕ) + 8 ≤ 112 by norm_num)]
  simp (disch := omega) only [sb_fields, rdLE_wrLE_disj, rdLE_wrLE_same]
  refine ⟨by norm_num, by norm_num, ?_, ?_, by norm_num, by norm_num, by norm_num, ?_, ?_, ?_⟩ <;>
    apply Nat.mod_eq_of_lt <;> norm_num <;> omega

/-- C1: for every size in KiB in [180, 4096] that is a multiple of 4 and every inode
count in [128, 512], the formatter writes an image whose superblock holds
total_blocks = size_kib*1024/4096, bitmap starts 1 and 2, inode table start 3,
inode_table_blocks = ceil(inode_count*128/4096), data_region_start = 3 + inode_table_blocks,
and data_region_start + data_region_blocks = total_blocks. -/
theorem C1_build_image_layout (size_kib inode_count t_sb t_root : Nat) (adj : Mem)
    (hs : 180 ≤ size_kib ∧ size_kib ≤ 4096 ∧ size_kib % 4 = 0)
    (hi : 128 ≤ inode_count ∧ inode_count ≤ 512) :
    ∃ img, mkfs_builder ⟨size_kib, inode_count⟩ t_sb t_root adj = some img ∧
      rdLE img.data 12 8 = size_kib * 1024 / 4096 ∧
      rdLE img.data 28 8 = 1 ∧ rdLE img.data 44 8 = 2 ∧ rdLE img.data 60 8 = 3 ∧
      rdLE img.data 68 8 = ⌈((inode_count * 128 : ℕ) : ℚ) / 4096⌉₊ ∧
      rdLE img.data 76 8 = 3 + rdLE img.data 68 8 ∧
      rdLE img.data 76 8 + rdLE img.data 84 8 = rdLE img.data 12 8 := by
  have hok : parse_cli_ok ⟨size_kib, inode_count⟩ = true := (parse_cli_ok_iff _).2 ⟨hs, hi⟩
  obtain ⟨a1, a2, a3, a4, a5, a6, a7, a8, a9⟩ := layout_arith _ hok
  obtain ⟨b1, b2, b3, b4, b5, b6, b7, b8, b9, b10⟩ :=
    build_image_superblock ⟨size_kib, inode_count⟩ t_sb t_root adj hok
  refine ⟨_, by simp [mkfs_builder, hok], ?_, b5, b6, b7, ?_, ?_, ?_⟩
  · rw [b3, a1]; simp only; omega
  · rw [b8, a2, ceil_div_4096]
  · rw [b9, b8, a3]
  · rw [b9, b10, b3, a4]; omega

/-- C1 at size_kib = 180, inodes = 128: 45 total blocks, 4 inode-table blocks,
38 data-region blocks. -/
theorem C1_build_image_layout_witness :
    (180 ≤ 180 ∧ 180 ≤ 4096 ∧ 180 % 4 = 0) ∧ (128 ≤ 128 ∧ 128 ≤ 512) ∧
    ∃ img, mkfs_builder ⟨180, 128⟩ 0 0 zeroMem = some img ∧
      rdLE img.data 12 8 = 45 ∧ rdLE img.data 68 8 = 4 ∧ rdLE img.data 84 8 = 38 := by
  refine ⟨by decide, by decide, ?_⟩
  obtain ⟨img, h0, h1, _, _, _, h5, h6, h7⟩ :=
    C1_build_image_layout 180 128 0 0 zeroMem (by decide) (by decide)
  have h5' : rdLE img.data 68 8 = 4 := by rw [h5, ceil_div_4096]
  exact ⟨img, h0, by rw [h1], h5', by omega⟩

/-- What a successful run of the inserter went through. -/
theorem mkfs_adder_ok_elim {inp : Image} {src : source_file} {now : Nat} {out : Image}
    (h : mkfs_adder inp src now = .ok out) :
    inp.size ≠ 0 ∧ inp.size % BS = 0 ∧ rdLE inp.data 0 4 = MAGIC ∧ rdLE inp.data 8 4 = BS ∧
    src.st_mode &&& S_IFREG ≠ 0 ∧ need src ≤ DIRECT_MAX ∧
    1 ≤ (base_name src.path).length ∧ (base_name src.path).length ≤ 58 ∧
    rdLE inp.data (root_off inp.data) 2 = MODE_DIR ∧
    rdLE inp.data (root_off inp.data + 44) 4 ≠ 0 ∧
    dup_scan inp.data (rootblk_off inp.data) (fname src) (BS / 64) 0 = false ∧
    ∃ i m2 m5,
      inode_scan inp.data (inode_bm_off inp.data) (rdLE inp.data 20 8) 0 = some i ∧
      0 ≤ to_int32 i ∧
      copy_stage inp.data src = .ok m2 ∧
      place_dirent (rootblk_off inp.data)
        (new_dirent (to_int32 i).toNat (base_name src.path)) (BS / 64) 0
        (inode_stage inp.data src now (to_int32 i).toNat m2) = some m5 ∧
      out = { size := inp.size, data := finish_image m5 (root_off inp.data) now } := by
  rw [mkfs_adder] at h
  by_cases c1 : inp.size = 0
  · rw [if_pos c1] at h; cases h
  rw [if_neg c1] at h
  by_cases c2 : inp.size % BS ≠ 0
  · rw [if_pos c2] at h; cases h
  rw [if_neg c2] at h
  by_cases c3 : rdLE inp.data 0 4 ≠ MAGIC
  · rw [if_pos c3] at h; cases h
  rw [if_neg c3] at h
  by_cases c4 : rdLE inp.data 8 4 ≠ BS
  · rw [if_pos c4] at h; cases h
  rw [if_neg c4] at h
  by_cases c5 : src.st_mode &&& S_IFREG = 0
  · rw [if_pos c5] at h; cases h
  rw [if_neg c5] at h
  by_cases c6 : need src > DIRECT_MAX
  · rw [if_pos c6] at h; cases h
  rw [if_neg c6] at h
  by_cases c7 : (base_name src.path).length = 0 ∨ (base_name src.path).length > 58
  · rw [if_pos c7] at h; cases h
  rw [if_neg c7] at h
  by_cases c8 : rdLE inp.data (root_off inp.data) 2 ≠ MODE_DIR
  · rw [if_pos c8] at h; cases h
  rw [if_neg c8] at h
  by_cases c9 : rdLE inp.data (root_off inp.data + 44) 4 = 0
  · rw [if_pos c9] at h; cases h
  rw [if_neg c9] at h
  by_cases c10 : dup_scan inp.data (rootblk_off inp.data) (fname src) (BS / 64) 0 = true
  · rw [if_pos c10] at h; cases h
  rw [if_neg c10] at h
  cases hi : inode_scan inp.data (inode_bm_off inp.data) (rdLE inp.data 20 8) 0 with
  | none => rw [hi] at h; cases h
  | some i =>
    rw [hi] at h
    dsimp only at h
    by_cases c11 : to_int32 i < 0
    · rw [if_pos c11] at h; cases h
    rw [if_neg c11] at h
    cases hm2 : copy_stage inp.data src with
    | error e => rw [hm2] at h; cases h
    | ok m2 =>
      rw [hm2] at h
      dsimp only at h
      cases hm5 : place_dirent (rootblk_off inp.data)
        (new_dirent (to_int32 i).toNat (base_name src.path)) (BS / 64) 0
        (inode_stage inp.data src now (to_int32 i).toNat m2) with
      | none => rw [hm5] at h; cases h
      | some m5 =>
        rw [hm5] at h
        dsimp only at h
        injection h with h
        refine ⟨c1, by omega, by simpa using c3, by simpa using c4, c5, by omega, by omega, by omega,
          by simpa using c8, c9, by simpa using c10, i, m2, m5, rfl, by omega, rfl, hm5, h.symm⟩

theorem copy_blocks_error {file : List Nat} {fsz : Nat} {blocks : List Nat} {k bi pos : Nat}
    {m : Mem} {e : adder_error}
    (h : copy_blocks file fsz blocks k bi pos m = .error e) : e = .read_file := by
  induction k generalizing bi pos m with
  | zero => simp [copy_blocks] at h
  | succ k ih =>
    rw [copy_blocks] at h
    dsimp only at h
    split_ifs at h
    all_goals first
      | exact ih h
      | (injection h with h; exact h.symm)

theorem copy_stage_error {img : Mem} {src : source_file} {e : adder_error}
    (h : copy_stage img src = .error e) :
    (e = .no_space ∧ (alloc_stage img src).2.length < need src) ∨
    (e = .read_file ∧ need src ≤ (alloc_stage img src).2.length) := by
  rw [copy_stage] at h
  split at h
  · injection h with h; exact Or.inl ⟨h.symm, by assumption⟩
  · exact Or.inr ⟨copy_blocks_error h, by omega⟩

/-- The checks that precede the duplicate-name scan. -/
theorem mkfs_adder_error_elim {inp : Image} {src : source_file} {now : Nat} {e : adder_error}
    (h : mkfs_adder inp src now = .error e) :
    (e = .ftell ∧ inp.size = 0) ∨
    (inp.size ≠ 0 ∧ (
    (e = .invalid_size ∧ inp.size % BS ≠ 0) ∨
    (inp.size % BS = 0 ∧ (
    (e = .bad_magic ∧ rdLE inp.data 0 4 ≠ MAGIC) ∨
    (rdLE inp.data 0 4 = MAGIC ∧ (
    (e = .bad_block_size ∧ rdLE inp.data 8 4 ≠ BS) ∨
    (rdLE inp.data 8 4 = BS ∧ (
    (e = .not_regular ∧ src.st_mode &&& S_IFREG = 0) ∨
    (src.st_mode &&& S_IFREG ≠ 0 ∧ (
    (e = .too_large ∧ need src > DIRECT_MAX) ∨
    (need src ≤ DIRECT_MAX ∧ (
    (e = .name_length ∧
      ((base_name src.path).length = 0 ∨ (base_name src.path).length > 58)) ∨
    ((1 ≤ (base_name src.path).length ∧ (base_name src.path).length ≤ 58) ∧ (
    (e = .root_not_dir ∧ rdLE inp.data (root_off inp.data) 2 ≠ MODE_DIR) ∨
    (rdLE inp.data (root_off inp.data) 2 = MODE_DIR ∧ (
    (e = .root_no_data ∧ rdLE inp.data (root_off inp.data + 44) 4 = 0) ∨
    (rdLE inp.data (root_off inp.data + 44) 4 ≠ 0 ∧ (
    (e = .already_exists ∧
      dup_scan inp.data (rootblk_off inp.data) (fname src) (BS / 64) 0 = true) ∨
    (dup_scan inp.data (rootblk_off inp.data) (fname src) (BS / 64) 0 = false ∧ (
    (e = .no_free_inode ∧
      ∀ i, inode_scan inp.data (inode_bm_off inp.data) (rdLE inp.data 20 8) 0 = some i →
        to_int32 i < 0) ∨
    (∃ i, inode_scan inp.data (inode_bm_off inp.data) (rdLE inp.data 20 8) 0 = some i ∧
        0 ≤ to_int32 i ∧ (
    (e = .no_space ∧ (alloc_stage inp.data src).2.length < need src) ∨
    (e = .read_file ∧ copy_stage inp.data src = .error .read_file) ∨
    (e = .root_full ∧ ∃ m2, copy_stage inp.data src = .ok m2 ∧
      place_dirent (rootblk_off inp.data)
        (new_dirent (to_int32 i).toNat (base_name src.path)) (BS / 64) 0
        (inode_stage inp.data src now (to_int32 i).toNat m2) = none)
    )))))))))))))))))))))) := by
  rw [mkfs_adder] at h
  by_cases c1 : inp.size = 0
  · rw [if_pos c1] at h; injection h with h; exact Or.inl ⟨h.symm, c1⟩
  rw [if_neg c1] at h
  refine Or.inr ⟨c1, ?_⟩
  by_cases c2 : inp.size % BS ≠ 0
  · rw [if_pos c2] at h; injection h with h; exact Or.inl ⟨h.symm, c2⟩
  rw [if_neg c2] at h
  refine Or.inr ⟨not_not.1 c2, ?_⟩
  by_cases c3 : rdLE inp.data 0 4 ≠ MAGIC
  · rw [if_pos c3] at h; injection h with h; exact Or.inl ⟨h.symm, c3⟩
  rw [if_neg c3] at h
  refine Or.inr ⟨not_not.1 c3, ?_⟩
  by_cases c4 : rdLE inp.data 8 4 ≠ BS
  · rw [if_pos c4] at h; injection h with h; exact Or.inl ⟨h.symm, c4⟩
  rw [if_neg c4] at h
  refine Or.inr ⟨not_not.1 c4, ?_⟩
  by_cases c5 : src.st_mode &&& S_IFREG = 0
  · rw [if_pos c5] at h; injection h with h; exact Or.inl ⟨h.symm, c5⟩
  rw [if_neg c5] at h
  refine Or.inr ⟨c5, ?_⟩
  by_cases c6 : need src > DIRECT_MAX
  · rw [if_pos c6] at h; injection h with h; exact Or.inl ⟨h.symm, c6⟩
  rw [if_neg c6] at h
  refine Or.inr ⟨not_lt.1 c6, ?_⟩
  by_cases c7 : (base_name src.path).length = 0 ∨ (base_name src.path).length > 58
  · rw [if_pos c7] at h; injection h with h; exact Or.inl ⟨h.symm, c7⟩
  rw [if_neg c7] at h
  refine Or.inr ⟨by omega, ?_⟩
  by_cases c8 : rdLE inp.data (root_off inp.data) 2 ≠ MODE_DIR
  · rw [if_pos c8] at h; injection h with h; exact Or.inl ⟨h.symm, c8⟩
  rw [if_neg c8] at h
  refine Or.inr ⟨not_not.1 c8, ?_⟩
  by_cases c9 : rdLE inp.data (root_off inp.data + 44) 4 = 0
  · rw [if_pos c9] at h; injection h with h; exact Or.inl ⟨h.symm, c9⟩
  rw [if_neg c9] at h
  refine Or.inr ⟨c9, ?_⟩
  by_cases c10 : dup_scan inp.data (rootblk_off inp.data) (fname src) (BS / 64) 0 = true
  · rw [if_pos c10] at h; injection h with h; exact Or.inl ⟨h.symm, c10⟩
  rw [if_neg c10] at h
  refine Or.inr ⟨by simpa using c10, ?_⟩
  cases hi : inode_scan inp.data (inode_bm_off inp.data) (rdLE inp.data 20 8) 0 with
  | none =>
    rw [hi] at h; injection h with h
    exact Or.inl ⟨h.symm, fun i hi' => by cases hi'⟩
  | some i =>
    rw [hi] at h
    dsimp only at h
    by_cases c11 : to_int32 i < 0
    · rw [if_pos c11] at h; injection h with h
      exact Or.inl ⟨h.symm, fun j hj => by cases hj; exact c11⟩
    rw [if_neg c11] at h
    refine Or.inr ⟨i, rfl, not_lt.1 c11, ?_⟩
    cases hm2 : copy_stage inp.data src with
    | error e' =>
      rw [hm2] at h
      injection h with h
      subst h
      rcases copy_stage_error hm2 with ⟨h1, h2⟩ | ⟨h1, _⟩
      · exact Or.inl ⟨h1, h2⟩
      · subst h1; exact Or.inr (Or.inl ⟨rfl, rfl⟩)
    | ok m2 =>
      rw [hm2] at h
      dsimp only at h
      cases hm5 : place_dirent (rootblk_off inp.data)
        (new_dirent (to_int32 i).toNat (base_name src.path)) (BS / 64) 0
        (inode_stage inp.data src now (to_int32 i).toNat m2) with
      | none =>
        rw [hm5] at h; injection h with h
        exact Or.inr (Or.inr ⟨h.symm, m2, rfl, hm5⟩)
      | some m5 => rw [hm5] at h; cases h

theorem need_eq (src : source_file) (h : src.content.length < 2 ^ 63) :
    need src = (src.content.length + 4095) / 4096 := by
  have e1 : src.content.length % 2 ^ 64 = src.content.length := Nat.mod_eq_of_lt (by omega)
  have e2 : (src.content.length + 4096 - 1) % 2 ^ 64 = src.content.length + 4095 :=
    Nat.mod_eq_of_lt (by omega)
  simp only [need, fsize, BS, e1, e2]

/-- C8: for an input image that passes the size, magic and block-size checks and a
regular source file of S bytes (S below 2^63), the inserter computes
need = ceil(S/4096) and ends with the file-too-large error, without an output image,
exactly when S > 12*4096; a file of exactly 49152 bytes is not rejected for size. -/
theorem C8_too_large_iff (inp : Image) (src : source_file) (now : Nat)
    (hsize : inp.size ≠ 0 ∧ inp.size % BS = 0)
    (hmagic : rdLE inp.data 0 4 = MAGIC) (hbs : rdLE inp.data 8 4 = BS)
    (hreg : src.st_mode &&& S_IFREG ≠ 0) (hS : src.content.length < 2 ^ 63) :
    need src = ⌈((src.content.length : ℕ) : ℚ) / 4096⌉₊ ∧
    (mkfs_adder inp src now = .error .too_large ↔ src.content.length > 12 * 4096) ∧
    (src.content.length = 49152 → mkfs_adder inp src now ≠ .error .too_large) := by
  have hn := need_eq src hS
  have key : mkfs_adder inp src now = .error .too_large ↔ src.content.length > 12 * 4096 := by
    constructor
    · intro h
      have h' := mkfs_adder_error_elim h
      simp only [reduceCtorEq, false_and, false_or, true_and, and_false, or_false, exists_false,
        exists_const] at h'
      have : need src > 12 := by tauto
      rw [hn] at this
      omega
    · intro h
      have h6 : need src > DIRECT_MAX := by
        show need src > 12
        rw [hn]; omega
      rw [mkfs_adder, if_neg hsize.1, if_neg (by simp [hsize.2]), if_neg (by simp [hmagic]),
        if_neg (by simp [hbs]), if_neg hreg, if_pos h6]
  refine ⟨by rw [hn, ceil_div_4096], key, ?_⟩
  intro h49 hcon
  have := key.1 hcon
  omega

theorem C8_too_large_iff_witness :
    ((⟨4096, wrLE (wrLE zeroMem 0 4 MAGIC) 8 4 BS⟩ : Image).size ≠ 0 ∧
      (⟨4096, wrLE (wrLE zeroMem 0 4 MAGIC) 8 4 BS⟩ : Image).size % BS = 0) ∧
    (need ⟨[104], S_IFREG, List.replicate 49153 0⟩ =
        ⌈(((⟨[104], S_IFREG, List.replicate 49153 0⟩ : source_file).content.length : ℕ) : ℚ) / 4096⌉₊ ∧
      (mkfs_adder ⟨4096, wrLE (wrLE zeroMem 0 4 MAGIC) 8 4 BS⟩
          ⟨[104], S_IFREG, List.replicate 49153 0⟩ 0 = .error .too_large ↔
        (⟨[104], S_IFREG, List.replicate 49153 0⟩ : source_file).content.length > 12 * 4096) ∧
      ((⟨[104], S_IFREG, List.replicate 49153 0⟩ : source_file).content.length = 49152 →
        mkfs_adder ⟨4096, wrLE (wrLE zeroMem 0 4 MAGIC) 8 4 BS⟩
          ⟨[104], S_IFREG, List.replicate 49153 0⟩ 0 ≠ .error .too_large)) :=
  ⟨by decide,
    C8_too_large_iff ⟨4096, wrLE (wrLE zeroMem 0 4 MAGIC) 8 4 BS⟩
      ⟨[104], S_IFREG, List.replicate 49153 0⟩ 0 (by decide)
      (by rw [rdLE_wrLE_disj _ _ _ _ _ _ (by omega), rdLE_wrLE_same]; decide)
      (by rw [rdLE_wrLE_same]; decide) (by decide)
      (by show (List.replicate 49153 0).length < 2 ^ 63; rw [List.length_replicate]; norm_num)⟩

theorem get_bit_eq (m : Mem) (bm idx : Nat) :
    get_bit m bm idx = if bit_set m bm idx then 1 else 0 := by
  have e1 : idx >>> 3 = idx / 8 := by rw [Nat.shiftRight_eq_div_pow]
  have e2 : idx &&& 7 = idx % 8 := Nat.and_pow_two_sub_one_eq_mod idx 3
  simp only [get_bit, bit_set, e1, e2, Nat.and_one_is_mod, Nat.shiftRight_eq_div_pow,
    Nat.testBit_to_div_mod, decide_eq_true_eq]
  split <;> omega

theorem get_bit_eq_zero_iff (m : Mem) (bm idx : Nat) :
    get_bit m bm idx = 0 ↔ ¬ bit_set m bm idx := by
  rw [get_bit_eq]; split <;> simp [*]

theorem bit_set_congr {m m' : Mem} {bm idx : Nat} (h : m (bm + idx / 8) = m' (bm + idx / 8)) :
    bit_set m bm idx ↔ bit_set m' bm idx := by
  simp only [bit_set, h]

theorem bit_set_set_bit (m : Mem) (bm i j : Nat) :
    bit_set (set_bit m bm i) bm j ↔ (j = i ∨ bit_set m bm j) := by
  have e1 : i >>> 3 = i / 8 := by rw [Nat.shiftRight_eq_div_pow]
  have e2 : i &&& 7 = i % 8 := Nat.and_pow_two_sub_one_eq_mod i 3
  simp only [bit_set, set_bit, wr8, e1, e2]
  by_cases hb : j / 8 = i / 8
  · rw [if_pos (by omega), hb]
    rw [show (256 : ℕ) = 2 ^ 8 by norm_num, Nat.testBit_mod_two_pow, Nat.testBit_or,
      Nat.one_shiftLeft, Nat.testBit_two_pow]
    have hj : j % 8 < 8 := Nat.mod_lt _ (by norm_num)
    simp only [hj, decide_True, Bool.true_and, Bool.or_eq_true, decide_eq_true_eq]
    constructor
    · rintro (h | h)
      · right; exact h
      · left; omega
    · rintro (h | h)
      · right; omega
      · left; exact h
  · rw [if_neg (by omega)]
    constructor
    · intro h; exact Or.inr h
    · rintro (h | h)
      · exact absurd (by rw [h]) hb
      · exact h

theorem set_bit_frame (m : Mem) (bm i x : Nat) (h : x ≠ bm + i / 8) : set_bit m bm i x = m x := by
  have e1 : i >>> 3 = i / 8 := by rw [Nat.shiftRight_eq_div_pow]
  simp only [set_bit, wr8, e1, if_neg h]

/-- The free-inode loop finds the smallest clear bit below its bound. -/
theorem inode_scan_some_iff (m : Mem) (bm k i0 i : Nat) :
    inode_scan m bm k i0 = some i ↔
      (i0 ≤ i ∧ i < i0 + k ∧ ¬ bit_set m bm i ∧ ∀ j, i0 ≤ j → j < i → bit_set m bm j) := by
  induction k generalizing i0 with
  | zero => simp only [inode_scan]; constructor
            · intro h; cases h
            · rintro ⟨h1, h2, _⟩; omega
  | succ k ih =>
    rw [inode_scan]
    by_cases hb : get_bit m bm i0 = 0
    · rw [if_pos hb]
      have hb' := (get_bit_eq_zero_iff _ _ _).1 hb
      constructor
      · intro h; injection h with h; subst h
        exact ⟨le_refl _, by omega, hb', fun j h1 h2 => by omega⟩
      · rintro ⟨h1, h2, h3, h4⟩
        by_cases he : i = i0
        · rw [he]
        · exact absurd (h4 i0 (le_refl _) (by omega)) hb'
    · rw [if_neg hb, ih]
      have hb' : bit_set m bm i0 := by
        by_contra hc; exact hb ((get_bit_eq_zero_iff _ _ _).2 hc)
      constructor
      · rintro ⟨h1, h2, h3, h4⟩
        refine ⟨by omega, by omega, h3, fun j h5 h6 => ?_⟩
        by_cases he : j = i0
        · rw [he]; exact hb'
        · exact h4 j (by omega) h6
      · rintro ⟨h1, h2, h3, h4⟩
        have hne : i ≠ i0 := fun he => h3 (he ▸ hb')
        exact ⟨by omega, by omega, h3, fun j h5 h6 => h4 j (by omega) h6⟩

theorem inode_scan_none_iff (m : Mem) (bm k i0 : Nat) :
    inode_scan m bm k i0 = none ↔ ∀ j, i0 ≤ j → j < i0 + k → bit_set m bm j := by
  induction k generalizing i0 with
  | zero => simp only [inode_scan, true_iff]; intro j h1 h2; omega
  | succ k ih =>
    rw [inode_scan]
    by_cases hb : get_bit m bm i0 = 0
    · rw [if_pos hb]
      have hb' := (get_bit_eq_zero_iff _ _ _).1 hb
      constructor
      · intro h; cases h
      · intro h; exact absurd (h i0 (le_refl _) (by omega)) hb'
    · rw [if_neg hb, ih]
      have hb' : bit_set m bm i0 := by
        by_contra hc; exact hb ((get_bit_eq_zero_iff _ _ _).2 hc)
      constructor
      · intro h j h1 h2
        by_cases he : j = i0
        · rw [he]; exact hb'
        · exact h j (by omega) (by omega)
      · intro h j h1 h2
        exact h j (by omega) (by omega)

theorem to_int32_of_lt {i : Nat} (h : i < 2 ^ 31) : to_int32 i = (i : Int) := by
  have e : i % 2 ^ 32 = i := Nat.mod_eq_of_lt (by omega)
  simp only [to_int32, e, if_pos h]

theorem memset_zeroMem (a n : Nat) : memset zeroMem a 0 n = zeroMem := by
  funext x; simp [memset, zeroMem]

theorem getD_replicate_zeroMem (k b : Nat) :
    (List.replicate k zeroMem).getD b zeroMem = zeroMem := by
  by_cases h : b < k
  · simp [List.getD_eq_getElem?_getD, List.getElem?_replicate, h]
  · simp [List.getD_eq_getElem?_getD, List.getElem?_replicate, h]

/-- The block written at position `b` by `build_image`. -/
theorem build_image_blocks_getD (o : options_t) (t1 t2 : Nat) (adj : Mem) (b : Nat)
    (hitb : 1 ≤ inode_table_blocks o) :
    (build_image_blocks o t1 t2 adj).getD b zeroMem =
      if b = 0 then memcpy zeroMem 0 (superblock_crc_finalize (sb_fields o t1 adj)) 0 116
      else if b = 1 ∨ b = 2 then wr8 zeroMem 0 1
      else if b = 3 then memcpy zeroMem 0 (root_inode o t2) 0 128
      else if b = 3 + inode_table_blocks o then
        memcpy (memcpy zeroMem 0 (dot_entry 1) 0 64) 64 (dot_entry 2) 0 64
      else zeroMem := by
  simp only [build_image_blocks, memset_zeroMem]
  by_cases h0 : b = 0
  · subst h0; simp
  by_cases h1 : b = 1
  · subst h1; simp
  by_cases h2 : b = 2
  · subst h2; simp
  by_cases h3 : b = 3
  · subst h3; simp
  rw [if_neg h0, if_neg (by omega), if_neg h3]
  have hlen : ([memcpy zeroMem 0 (superblock_crc_finalize (sb_fields o t1 adj)) 0 116,
      wr8 zeroMem 0 1, wr8 zeroMem 0 1, memcpy zeroMem 0 (root_inode o t2) 0 128] ++
      List.replicate (inode_table_blocks o - 1) zeroMem).length = 3 + inode_table_blocks o := by
    simp only [List.length_append, List.length_cons, List.length_nil, List.length_replicate]
    omega
  by_cases h4 : b < 3 + inode_table_blocks o
  · rw [if_neg (by omega), List.append_assoc, List.getD_append _ _ _ _ (by rw [hlen]; exact h4),
      List.getD_append_right _ _ _ _ (by simp; omega), getD_replicate_zeroMem]
  · rw [List.append_assoc, List.getD_append_right _ _ _ _ (by rw [hlen]; omega), hlen]
    by_cases h5 : b = 3 + inode_table_blocks o
    · rw [if_pos h5, h5]; simp
    · rw [if_neg h5, List.getD_append_right _ _ _ _ (by simp; omega), getD_replicate_zeroMem]

theorem build_image_blocks_length (o : options_t) (t1 t2 : Nat) (adj : Mem)
    (h : parse_cli_ok o = true) :
    (build_image_blocks o t1 t2 adj).length = total_blocks o := by
  obtain ⟨a1, a2, a3, a4, a5, a6, a7, a8, a9⟩ := layout_arith o h
  simp only [build_image_blocks, List.length_append, List.length_cons, List.length_nil,
    List.length_replicate]
  omega

/-- Every byte of the image written by `build_image`. -/
theorem build_image_data (o : options_t) (t1 t2 : Nat) (adj : Mem) (a : Nat)
    (h : parse_cli_ok o = true) :
    (build_image o t1 t2 adj).data a =
      if a < 116 then superblock_crc_finalize (sb_fields o t1 adj) a
      else if a = 4096 ∨ a = 8192 then 1
      else if 12288 ≤ a ∧ a < 12288 + 128 then root_inode o t2 (a - 12288)
      else if 4096 * data_region_start o ≤ a ∧ a < 4096 * data_region_start o + 64 then
        dot_entry 1 (a - 4096 * data_region_start o)
      else if 4096 * data_region_start o + 64 ≤ a ∧ a < 4096 * data_region_start o + 128 then
        dot_entry 2 (a - (4096 * data_region_start o + 64))
      else 0 := by
  obtain ⟨a1, a2, a3, a4, a5, a6, a7, a8, a9⟩ := layout_arith o h
  simp only [build_image, image_of_blocks, BS]
  rw [build_image_blocks_getD _ _ _ _ _ (by omega), a3]
  have hdm := Nat.div_add_mod a 4096
  have hml : a % 4096 < 4096 := Nat.mod_lt _ (by norm_num)
  by_cases h0 : a / 4096 = 0
  · rw [if_pos h0]
    simp only [memcpy, zeroMem]
    split_ifs <;> first
      | (exfalso; omega)
      | with_reducible rfl
      | exact congrArg _ (by omega)
  rw [if_neg h0]
  by_cases h12 : a / 4096 = 1 ∨ a / 4096 = 2
  · rw [if_pos h12]
    simp only [wr8, zeroMem]
    split_ifs <;> first
      | (exfalso; omega)
      | with_reducible rfl
      | exact congrArg _ (by omega)
  rw [if_neg h12]
  by_cases h3 : a / 4096 = 3
  · rw [if_pos h3]
    simp only [memcpy, zeroMem]
    split_ifs <;> first
      | (exfalso; omega)
      | with_reducible rfl
      | exact congrArg _ (by omega)
  rw [if_neg h3]
  by_cases h4 : a / 4096 = 3 + inode_table_blocks o
  · rw [if_pos h4]
    simp only [memcpy, zeroMem]
    split_ifs <;> first
      | (exfalso; omega)
      | with_reducible rfl
      | exact congrArg _ (by omega)
  rw [if_neg h4]
  simp only [zeroMem]
  split_ifs <;> first
    | (exfalso; omega)
    | with_reducible rfl
    | exact congrArg _ (by omega)

theorem rdLE_set_bit (m : Mem) (bm i a n : Nat) (h : a + n ≤ bm) :
    rdLE (set_bit m bm i) a n = rdLE m a n := by
  apply rdLE_congr
  intro x h1 h2
  exact set_bit_frame _ _ _ _ (by omega)

/-- The data-block loop: the indices it takes (`js`), in increasing order, are clear bits
of the bitmap below `drb`; exactly their bits get set; nothing else is written. -/
theorem alloc_blocks_spec (bm nd drs drb : Nat) (hbm : 92 ≤ bm) :
    ∀ (k i : Nat) (m : Mem) (blocks : List Nat),
      drb ≤ i + k → rdLE m 84 8 = drb → rdLE m 76 8 = drs →
      ∃ js : List Nat,
        (alloc_blocks bm nd k i m blocks).2 =
          blocks ++ js.map (fun j => (drs + j) % 2 ^ 64 % 2 ^ 32) ∧
        js.Pairwise (fun a b => a < b) ∧
        (∀ j ∈ js, i ≤ j ∧ j < drb ∧ ¬ bit_set m bm j) ∧
        (∀ x, (∀ j ∈ js, x ≠ bm + j / 8) → (alloc_blocks bm nd k i m blocks).1 x = m x) ∧
        (∀ j, bit_set (alloc_blocks bm nd k i m blocks).1 bm j ↔ (j ∈ js ∨ bit_set m bm j)) ∧
        (blocks.length < nd → blocks.length + js.length ≤ nd) ∧
        (nd ≤ blocks.length → js = []) ∧
        (∀ j, i ≤ j → j < drb → ¬ bit_set m bm j → j ∉ js →
          nd ≤ blocks.length + js.length ∧ ∀ j' ∈ js, j' < j) := by
  intro k
  induction k with
  | zero =>
    intro i m blocks hk _ _
    refine ⟨[], by simp [alloc_blocks], List.Pairwise.nil, by simp, by simp [alloc_blocks],
      by simp [alloc_blocks], fun h => by simpa using le_of_lt h, by simp, ?_⟩
    intro j h1 h2; omega
  | succ k ih =>
    intro i m blocks hk h84 h76
    rw [alloc_blocks]
    by_cases hc : i < rdLE m 84 8 ∧ blocks.length < nd
    · rw [if_pos hc]
      by_cases hb : get_bit m bm i = 0
      · rw [if_pos hb]
        have hb' := (get_bit_eq_zero_iff _ _ _).1 hb
        obtain ⟨js, e1, e2, e3, e4, e5, e6, e7, e8⟩ :=
          ih (i + 1) (set_bit m bm i)
            (blocks ++ [((rdLE m 76 8 + i) % 2 ^ 64) % 2 ^ 32]) (by omega)
            (by rw [rdLE_set_bit _ _ _ _ _ (by omega), h84])
            (by rw [rdLE_set_bit _ _ _ _ _ (by omega), h76])
        refine ⟨i :: js, ?_, ?_, ?_, ?_, ?_, ?_, ?_, ?_⟩
        · rw [e1, h76]; simp
        · exact List.Pairwise.cons (fun j hj => by have := (e3 j hj).1; omega) e2
        · intro j hj
          rcases List.mem_cons.1 hj with rfl | hj
          · exact ⟨le_refl _, by omega, hb'⟩
          · obtain ⟨h1, h2, h3⟩ := e3 j hj
            exact ⟨by omega, h2, fun hs => h3 ((bit_set_set_bit _ _ _ _).2 (Or.inr hs))⟩
        · intro x hx
          rw [e4 x (fun j hj => hx j (List.mem_cons_of_mem _ hj))]
          exact set_bit_frame _ _ _ _ (hx i (List.mem_cons_self _ _))
        · intro j
          rw [e5, bit_set_set_bit, List.mem_cons]
          constructor
          · rintro (h | h | h)
            · exact Or.inl (Or.inr h)
            · exact Or.inl (Or.inl h)
            · exact Or.inr h
          · rintro ((h | h) | h)
            · exact Or.inr (Or.inl h)
            · exact Or.inl h
            · exact Or.inr (Or.inr h)
        · intro _
          simp only [List.length_append, List.length_cons, List.length_nil] at e6 e7 ⊢
          by_cases hl : blocks.length + 1 < nd
          · have := e6 (by omega); omega
          · have := e7 (by omega); subst this; simp; omega
        · intro h; omega
        · intro j h1 h2 h3 h4
          have hne : j ≠ i := fun he => h4 (he ▸ List.mem_cons_self _ _)
          have h5 : ¬ bit_set (set_bit m bm i) bm j := by
            rw [bit_set_set_bit]
            rintro (h | h)
            · exact hne h
            · exact h3 h
          obtain ⟨g1, g2⟩ := e8 j (by omega) h2 h5 (fun hj => h4 (List.mem_cons_of_mem _ hj))
          simp only [List.length_append, List.length_cons, List.length_nil] at g1 ⊢
          refine ⟨by omega, fun j' hj' => ?_⟩
          rcases List.mem_cons.1 hj' with rfl | hj'
          · omega
          · exact g2 j' hj'
      · rw [if_neg hb]
        have hb' : bit_set m bm i := by
          by_contra hcc; exact hb ((get_bit_eq_zero_iff _ _ _).2 hcc)
        obtain ⟨js, e1, e2, e3, e4, e5, e6, e7, e8⟩ := ih (i + 1) m blocks (by omega) h84 h76
        refine ⟨js, e1, e2, ?_, e4, e5, e6, e7, ?_⟩
        · intro j hj
          obtain ⟨h1, h2, h3⟩ := e3 j hj
          exact ⟨by omega, h2, h3⟩
        · intro j h1 h2 h3 h4
          have hne : j ≠ i := fun he => h3 (he ▸ hb')
          exact e8 j (by omega) h2 h3 h4
    · rw [if_neg hc]
      refine ⟨[], by simp, List.Pairwise.nil, by simp, by simp, by simp,
        fun h => by simpa using le_of_lt h, by simp, ?_⟩
      intro j h1 h2 _ _
      rw [h84] at hc
      exact ⟨by simp only [List.length_nil]; omega, by simp⟩

theorem getD_take_drop (l : List Nat) (n p off : Nat) :
    (List.take n (List.drop p l)).getD off 0 = if off < n then l.getD (p + off) 0 else 0 := by
  simp only [List.getD_eq_getElem?_getD, List.getElem?_take, List.getElem?_drop]
  split <;> simp

theorem wrBytes_apply (m : Mem) (a : Nat) (bs : List Nat) (x : Nat) :
    wrBytes m a bs x = if a ≤ x ∧ x < a + bs.length then bs.getD (x - a) 0 else m x := rfl

/-- The copy loop: it succeeds, writes only the listed blocks, and leaves in block `j`
the bytes `j*4096 ..` of the file followed by zeros. -/
theorem copy_blocks_spec (file : List Nat) (nd : Nat) (blocks : List Nat)
    (hlen : file.length < 2 ^ 63)
    (hnd : file.length ≤ nd * 4096 ∧ nd * 4096 < file.length + 4096)
    (hblk : ∀ j, j < nd → blocks.getD j 0 < 2 ^ 32) :
    ∀ (k bi pos : Nat) (m : Mem), bi + k = nd → (k ≠ 0 → pos = bi * 4096) →
      ∃ m', copy_blocks file file.length blocks k bi pos m = .ok m' ∧
        (∀ x, (∀ j, bi ≤ j → j < nd →
            ¬ (blocks.getD j 0 * 4096 ≤ x ∧ x < blocks.getD j 0 * 4096 + 4096)) → m' x = m x) ∧
        (∀ j, bi ≤ j → j < nd →
          (∀ j', j < j' → j' < nd → blocks.getD j' 0 ≠ blocks.getD j 0) →
          ∀ off, off < 4096 →
            m' (blocks.getD j 0 * 4096 + off) = file.getD (j * 4096 + off) 0) := by
  intro k
  induction k with
  | zero =>
    intro bi pos m h1 _
    refine ⟨m, rfl, fun _ _ => rfl, ?_⟩
    intro j h2 h3; omega
  | succ k ih =>
    intro bi pos m h1 h2
    have hpos : pos = bi * 4096 := h2 (by omega)
    have hb := hblk bi (by omega)
    have e1 : (blocks.getD bi 0 * BS) % 2 ^ 64 = blocks.getD bi 0 * 4096 :=
      Nat.mod_eq_of_lt (by simp only [BS]; omega)
    have e2 : ((bi + 1) * BS) % 2 ^ 64 = (bi + 1) * 4096 :=
      Nat.mod_eq_of_lt (by simp only [BS]; omega)
    have e3 : (bi * BS) % 2 ^ 64 = bi * 4096 := Nat.mod_eq_of_lt (by simp only [BS]; omega)
    rw [copy_blocks]
    simp only [e1, e2, e3]
    by_cases hfull : (bi + 1) * 4096 ≤ file.length
    · rw [if_pos hfull, if_pos (by norm_num)]
      have hmin : min BS (file.length - pos) = 4096 := by simp only [BS]; omega
      rw [hmin, if_neg (by simp)]
      obtain ⟨m', g1, g2, g3⟩ := ih (bi + 1) (pos + 4096)
        (wrBytes (memset m (blocks.getD bi 0 * 4096) 0 BS) (blocks.getD bi 0 * 4096)
          (List.take 4096 (List.drop pos file))) (by omega) (fun _ => by omega)
      have hl : (List.take 4096 (List.drop pos file)).length = 4096 := by
        rw [List.length_take, List.length_drop]; omega
      refine ⟨m', g1, ?_, ?_⟩
      · intro x hx
        rw [g2 x (fun j h3 h4 => hx j (by omega) h4), wrBytes_apply, hl,
          if_neg (hx bi (le_refl _) (by omega))]
        simp only [memset, BS]
        rw [if_neg (hx bi (le_refl _) (by omega))]
      · intro j h3 h4 h5 off hoff
        by_cases hj : j = bi
        · subst hj
          rw [g2 _ (fun j' h6 h7 => by
            have := h5 j' (by omega) h7
            have := hblk j' h7
            omega)]
          rw [wrBytes_apply, hl, if_pos (by omega), getD_take_drop, if_pos (by omega), hpos]
          congr 1; omega
        · exact g3 j (by omega) h4 h5 off hoff
    · rw [if_neg hfull]
      have hk0 : k = 0 := by
        have : nd * 4096 < (bi + 1) * 4096 + 4096 := by omega
        omega
      subst hk0
      have hlt : bi * 4096 < file.length := by omega
      have e4 : (file.length + 2 ^ 64 - bi * 4096) % 2 ^ 64 = file.length - bi * 4096 := by
        omega
      rw [e4, if_pos (by omega)]
      have hmin : min (file.length - bi * 4096) (file.length - pos) = file.length - bi * 4096 := by
        omega
      rw [hmin, if_neg (by simp)]
      simp only [copy_blocks]
      have hl : (List.take (file.length - bi * 4096) (List.drop pos file)).length =
          file.length - bi * 4096 := by
        rw [List.length_take, List.length_drop]; omega
      refine ⟨_, rfl, ?_, ?_⟩
      · intro x hx
        have hx' := hx bi (le_refl _) (by omega)
        rw [wrBytes_apply, hl, if_neg (by omega)]
        simp only [memset, BS]
        rw [if_neg hx']
      · intro j h3 h4 h5 off hoff
        have hj : j = bi := by omega
        subst hj
        rw [wrBytes_apply, hl]
        by_cases ho : off < file.length - j * 4096
        · rw [if_pos (by omega), getD_take_drop, if_pos (by omega), hpos]
          congr 1; omega
        · rw [if_neg (by omega)]
          simp only [memset, BS]
          rw [if_pos (by omega), List.getD_eq_default _ _ (by omega)]

theorem wrLE_apply (m : Mem) (a n v x : Nat) :
    wrLE m a n v x = if a ≤ x ∧ x < a + n then (v / 256 ^ (x - a)) % 256 else m x := rfl

theorem wrLE_frame (m : Mem) (a n v x : Nat) (h : x < a ∨ a + n ≤ x) : wrLE m a n v x = m x := by
  rw [wrLE_apply, if_neg (by omega)]

theorem memset_apply (m : Mem) (a v n x : Nat) :
    memset m a v n x = if a ≤ x ∧ x < a + n then v else m x := rfl

theorem memcpy_apply (dst : Mem) (d : Nat) (src : Mem) (s n x : Nat) :
    memcpy dst d src s n x = if d ≤ x ∧ x < d + n then src (s + (x - d)) else dst x := rfl

theorem wr8_apply (m : Mem) (a v x : Nat) : wr8 m a v x = if x = a then v % 256 else m x := rfl

theorem crc32_tab_entry_lt (i : Nat) (h : i < 2 ^ 32) : crc32_tab_entry i < 2 ^ 32 := by
  have step : ∀ c, c < 2 ^ 32 →
      (if c &&& 1 ≠ 0 then 0xEDB88320 ^^^ (c >>> 1) else c >>> 1) < 2 ^ 32 := by
    intro c hc
    have h1 : c >>> 1 < 2 ^ 32 := by rw [Nat.shiftRight_eq_div_pow]; omega
    split
    · exact Nat.xor_lt_two_pow (by norm_num) h1
    · exact h1
  have it : ∀ n c, c < 2 ^ 32 →
      Nat.iterate (fun c => if c &&& 1 ≠ 0 then 0xEDB88320 ^^^ (c >>> 1) else c >>> 1) n c
        < 2 ^ 32 := by
    intro n
    induction n with
    | zero => intro c hc; exact hc
    | succ n ih => intro c hc; rw [Function.iterate_succ_apply]; exact ih _ (step c hc)
  exact it 8 i h

theorem CRC32_TAB_getD_lt (i : Nat) : CRC32_TAB.getD i 0 < 2 ^ 32 := by
  simp only [CRC32_TAB, crc32_init, List.getD_eq_getElem?_getD, List.getElem?_map,
    List.getElem?_range']
  by_cases h : i < 256
  · simp only [List.getElem?_range, h, Option.map_some', Option.getD_some]
    exact crc32_tab_entry_lt i (by omega)
  · rw [List.getElem?_eq_none (by simpa using h)]
    simp

theorem crc32_state_lt (p : Mem) (n : Nat) : crc32_state p n < 2 ^ 32 := by
  induction n with
  | zero => simp [crc32_state]
  | succ k ih =>
    simp only [crc32_state]
    apply Nat.xor_lt_two_pow (CRC32_TAB_getD_lt _)
    rw [Nat.shiftRight_eq_div_pow]
    omega

theorem crc32_lt (p : Mem) (n : Nat) : crc32 p n < 2 ^ 32 := by
  simp only [crc32]
  exact Nat.xor_lt_two_pow (crc32_state_lt p n) (by norm_num)

theorem inode_crc_finalize_frame (m : Mem) (ino x : Nat) (h : x < ino + 120 ∨ ino + 128 ≤ x) :
    inode_crc_finalize m ino x = m x := by
  simp only [inode_crc_finalize]
  exact wrLE_frame _ _ _ _ _ (by omega)

theorem inode_crc_finalize_sealed (m : Mem) (ino : Nat) :
    inode_sealed (inode_crc_finalize m ino) ino := by
  simp only [inode_sealed, inode_crc_finalize]
  have hc := crc32_lt (memset (memcpy zeroMem 0 m ino INODE_SIZE) 120 0 8) 120
  rw [rdLE_wrLE_same, Nat.mod_eq_of_lt (by omega)]
  apply crc32_congr
  intro x hx
  rw [wrLE_frame _ _ _ _ _ (by omega), memset_apply, if_neg (by omega), memcpy_apply,
    if_pos (by simp only [INODE_SIZE]; omega)]
  exact congrArg m (by omega)

theorem inode_sealed_congr {m m' : Mem} {ino : Nat}
    (h : ∀ i, i < 128 → m (ino + i) = m' (ino + i)) :
    inode_sealed m ino ↔ inode_sealed m' ino := by
  simp only [inode_sealed]
  rw [rdLE_congr (fun x h1 h2 => by
      have := h (x - ino) (by omega)
      rwa [show ino + (x - ino) = x by omega] at this : ∀ x, ino + 120 ≤ x → x < ino + 120 + 8 →
        m x = m' x),
    crc32_congr (fun x hx => h x (by omega) : ∀ x, x < 120 →
      (fun i => m (ino + i)) x = (fun i => m' (ino + i)) x)]

theorem superblock_crc_finalize_block_frame (m : Mem) (x : Nat) (h : x < 112 ∨ 116 ≤ x) :
    superblock_crc_finalize_block m x = m x := by
  simp only [superblock_crc_finalize_block]
  exact wrLE_frame _ _ _ _ _ (by omega)

theorem superblock_crc_finalize_block_sealed (m : Mem)
    (hpad : ∀ a, 116 ≤ a → a < 4096 → m a = 0) :
    superblock_sealed (superblock_crc_finalize_block m) := by
  simp only [superblock_sealed, superblock_crc_finalize_block]
  have hc := crc32_lt (wrLE (memcpy (memset zeroMem 0 0 BS) 0 m 0 116) 112 4 0) (BS - 4)
  rw [rdLE_wrLE_same, Nat.mod_eq_of_lt (by omega)]
  apply crc32_congr
  intro x hx
  simp only [BS] at hx
  simp only [wrLE_apply, memcpy_apply, memset_apply, zeroMem]
  by_cases h1 : 112 ≤ x ∧ x < 116
  · simp only [if_pos h1]; simp
  · simp only [if_neg h1]
    by_cases h2 : x < 116
    · rw [if_pos (by omega)]; exact congrArg _ (by omega)
    · rw [if_neg (by omega), hpad x (by omega) (by omega)]
      simp

theorem rdLE_shift (m : Mem) (ino c n : Nat) :
    rdLE m (ino + c) n = rdLE (fun x => m (ino + x)) c n := by
  induction n generalizing c with
  | zero => rfl
  | succ k ih => simp only [rdLE]; rw [← ih (c + 1)]; rfl

theorem rdLE_of_shifted {m w : Mem} {ino : Nat} (h : ∀ i, i < 128 → m (ino + i) = w i)
    (c n : Nat) (hc : c + n ≤ 128) : rdLE m (ino + c) n = rdLE w c n := by
  rw [rdLE_shift]
  exact rdLE_congr (fun x h1 h2 => h x (by omega))

theorem fill_direct_frame (ino : Nat) (val : Nat → Nat) (n : Nat) (m : Mem) (x : Nat)
    (h : x < ino + 44 ∨ ino + 44 + 4 * n ≤ x) : fill_direct ino val n m x = m x := by
  induction n with
  | zero => rfl
  | succ k ih =>
    simp only [fill_direct]
    rw [wrLE_frame _ _ _ _ _ (by omega), ih (by omega)]

theorem fill_direct_rd (ino : Nat) (val : Nat → Nat) (n : Nat) (m : Mem) (k : Nat) (hk : k < n) :
    rdLE (fill_direct ino val n m) (ino + 44 + 4 * k) 4 = val k % 256 ^ 4 := by
  induction n with
  | zero => omega
  | succ j ih =>
    simp only [fill_direct]
    by_cases hj : k = j
    · subst hj; rw [rdLE_wrLE_same]
    · rw [rdLE_wrLE_disj _ _ _ _ _ _ (by omega), ih (by omega)]

theorem fill_direct_shifted (ino : Nat) (val : Nat → Nat) (n : Nat) (m w : Mem)
    (h : ∀ i, i < 128 → m (ino + i) = w i) :
    ∀ i, i < 128 → fill_direct ino val n m (ino + i) = fill_direct 0 val n w i := by
  induction n with
  | zero => exact h
  | succ k ih =>
    intro i hi
    simp only [fill_direct, wrLE_apply]
    by_cases hc : 44 + 4 * k ≤ i ∧ i < 44 + 4 * k + 4
    · rw [if_pos (by omega), if_pos (by omega)]
      exact congrArg (fun t => val k / 256 ^ t % 256) (by omega)
    · rw [if_neg (by omega), if_neg (by omega)]
      exact ih i hi

theorem write_inode_frame (m : Mem) (ino fsz now nd : Nat) (blocks : List Nat) (x : Nat)
    (hnd : nd ≤ 12) (h : x < ino ∨ ino + 128 ≤ x) :
    write_inode m ino fsz now nd blocks x = m x := by
  simp only [write_inode, DIRECT_MAX, INODE_SIZE]
  rw [inode_crc_finalize_frame _ _ _ (by omega), fill_direct_frame _ _ _ _ _ (by omega),
    fill_direct_frame _ _ _ _ _ (by omega), wrLE_frame _ _ _ _ _ (by omega),
    wrLE_frame _ _ _ _ _ (by omega), wrLE_frame _ _ _ _ _ (by omega),
    wrLE_frame _ _ _ _ _ (by omega), wrLE_frame _ _ _ _ _ (by omega),
    wrLE_frame _ _ _ _ _ (by omega), memset_apply, if_neg (by omega)]

theorem wrLE_shifted (m w : Mem) (ino c n v : Nat)
    (h : ∀ i, i < 128 → m (ino + i) = w i) :
    ∀ i, i < 128 → wrLE m (ino + c) n v (ino + i) = wrLE w c n v i := by
  intro i hi
  simp only [wrLE_apply]
  by_cases hc : c ≤ i ∧ i < c + n
  · rw [if_pos (by omega), if_pos hc]
    exact congrArg (fun t => v / 256 ^ t % 256) (by omega)
  · rw [if_neg (by omega), if_neg hc]
    exact h i hi

theorem inode_crc_finalize_shifted (m w : Mem) (ino : Nat)
    (h : ∀ i, i < 128 → m (ino + i) = w i) :
    ∀ i, i < 128 → inode_crc_finalize m ino (ino + i) = inode_crc_finalize w 0 i := by
  have hcrc : crc32 (memset (memcpy zeroMem 0 m ino INODE_SIZE) 120 0 8) 120 =
      crc32 (memset (memcpy zeroMem 0 w 0 INODE_SIZE) 120 0 8) 120 := by
    apply crc32_congr
    intro x hx
    simp only [memset_apply, memcpy_apply, INODE_SIZE,
      if_neg (show ¬(120 ≤ x ∧ x < 120 + 8) by omega),
      if_pos (show 0 ≤ x ∧ x < 0 + 128 by omega)]
    have := h x (by omega)
    simpa using this
  intro i hi
  simp only [inode_crc_finalize]
  rw [hcrc]
  have := wrLE_shifted m w ino 120 8
    (crc32 (memset (memcpy zeroMem 0 w 0 INODE_SIZE) 120 0 8) 120) h i hi
  simpa using this

/-- The record written by `write_inode` does not depend on where it is written. -/
theorem write_inode_shifted (m : Mem) (ino fsz now nd : Nat) (blocks : List Nat) :
    ∀ i, i < 128 →
      write_inode m ino fsz now nd blocks (ino + i) = write_inode zeroMem 0 fsz now nd blocks i := by
  simp only [write_inode]
  apply inode_crc_finalize_shifted
  apply fill_direct_shifted
  apply fill_direct_shifted
  have h0 : ∀ i, i < 128 → memset m ino 0 INODE_SIZE (ino + i) = memset zeroMem 0 0 INODE_SIZE i := by
    intro i hi
    simp only [memset_apply, INODE_SIZE]
    rw [if_pos (by omega), if_pos (by omega)]
  have h1 := wrLE_shifted _ _ ino 0 2 MODE_FILE h0
  have h2 := wrLE_shifted _ _ ino 2 2 1 h1
  have h3 := wrLE_shifted _ _ ino 12 8 fsz h2
  have h4 := wrLE_shifted _ _ ino 36 8 now h3
  have h5 := wrLE_shifted _ _ ino 28 8 now h4
  have h6 := wrLE_shifted _ _ ino 20 8 now h5
  simpa using h6

/-- The placement loop takes the first slot whose `inode_no` is zero. -/
theorem place_dirent_some_iff (rb : Nat) (de : Mem) (k i : Nat) (m m' : Mem) :
    place_dirent rb de k i m = some m' ↔
      ∃ s, i ≤ s ∧ s < i + k ∧ rdLE m (rb + s * 64) 4 = 0 ∧
        (∀ s', i ≤ s' → s' < s → rdLE m (rb + s' * 64) 4 ≠ 0) ∧
        m' = memcpy m (rb + s * 64) de 0 64 := by
  induction k generalizing i with
  | zero =>
    simp only [place_dirent]
    constructor
    · intro h; cases h
    · rintro ⟨s, h1, h2, _⟩; omega
  | succ k ih =>
    rw [place_dirent]
    by_cases hz : rdLE m (rb + i * 64) 4 = 0
    · rw [if_pos hz]
      constructor
      · intro h
        injection h with h
        exact ⟨i, le_refl _, by omega, hz, fun s' h1 h2 => by omega, h.symm⟩
      · rintro ⟨s, h1, h2, h3, h4, h5⟩
        by_cases hs : s = i
        · subst hs; rw [h5]
        · exact absurd hz (h4 i (le_refl _) (by omega))
    · rw [if_neg hz, ih]
      constructor
      · rintro ⟨s, h1, h2, h3, h4, h5⟩
        refine ⟨s, by omega, by omega, h3, fun s' g1 g2 => ?_, h5⟩
        by_cases hs : s' = i
        · subst hs; exact hz
        · exact h4 s' (by omega) g2
      · rintro ⟨s, h1, h2, h3, h4, h5⟩
        have hne : s ≠ i := fun he => hz (he ▸ h3)
        exact ⟨s, by omega, by omega, h3, fun s' g1 g2 => h4 s' (by omega) g2, h5⟩

theorem place_dirent_none_iff (rb : Nat) (de : Mem) (k i : Nat) (m : Mem) :
    place_dirent rb de k i m = none ↔
      ∀ s, i ≤ s → s < i + k → rdLE m (rb + s * 64) 4 ≠ 0 := by
  induction k generalizing i with
  | zero =>
    simp only [place_dirent, true_iff]
    intro s h1 h2; omega
  | succ k ih =>
    rw [place_dirent]
    by_cases hz : rdLE m (rb + i * 64) 4 = 0
    · rw [if_pos hz]
      constructor
      · intro h; cases h
      · intro h; exact absurd hz (h i (le_refl _) (by omega))
    · rw [if_neg hz, ih]
      constructor
      · intro h s h1 h2
        by_cases hs : s = i
        · subst hs; exact hz
        · exact h s (by omega) (by omega)
      · intro h s h1 h2
        exact h s (by omega) (by omega)

theorem rdBytes_succ (m : Mem) (a n : Nat) :
    rdBytes m a (n + 1) = rdBytes m a n ++ [m (a + n)] := by
  simp [rdBytes, List.range_succ]

theorem rdBytes_cons (m : Mem) (a n : Nat) :
    rdBytes m a (n + 1) = m a :: rdBytes m (a + 1) n := by
  simp only [rdBytes, List.range_succ_eq_map, List.map_cons, List.map_map, Nat.add_zero]
  congr 1
  apply List.map_congr_left
  intro i _
  simp only [Function.comp_apply]
  exact congrArg m (by omega)

theorem rdBytes_congr {m m' : Mem} {a b n : Nat} (h : ∀ i, i < n → m (a + i) = m' (b + i)) :
    rdBytes m a n = rdBytes m' b n := by
  simp only [rdBytes]
  apply List.map_congr_left
  intro i hi
  exact h i (List.mem_range.1 hi)

theorem xor_bytes_eq_foldl (m : Mem) (a n : Nat) (h : ∀ i, i < n → m (a + i) < 256) :
    xor_bytes m a n = (rdBytes m a n).foldl (fun x b => x ^^^ b) 0 := by
  induction n with
  | zero => rfl
  | succ k ih =>
    rw [rdBytes_succ, List.foldl_append, ← ih (fun i hi => h i (by omega))]
    simp only [xor_bytes, List.foldl_cons, List.foldl_nil]
    apply Nat.mod_eq_of_lt
    exact Nat.xor_lt_two_pow (n := 8) (xor_bytes_lt m a k) (h k (by omega))

theorem dirent_checksum_finalize_sealed (m : Mem) (de : Nat)
    (h : ∀ i, i < 63 → m (de + i) < 256) :
    dirent_sealed (dirent_checksum_finalize m de) de := by
  simp only [dirent_sealed, dirent_checksum_finalize]
  rw [wr8_apply, if_pos rfl, Nat.mod_eq_of_lt (xor_bytes_lt _ _ _), xor_bytes_eq_foldl m de 63 h]
  refine congrArg _ (rdBytes_congr ?_)
  intro i hi
  rw [wr8_apply, if_neg (by omega)]

theorem dirent_sealed_congr {m m' : Mem} {a b : Nat} (h : ∀ i, i < 64 → m (a + i) = m' (b + i)) :
    dirent_sealed m a ↔ dirent_sealed m' b := by
  simp only [dirent_sealed]
  rw [h 63 (by norm_num), rdBytes_congr (fun i hi => h i (by omega) : ∀ i, i < 63 →
    m (a + i) = m' (b + i))]

theorem new_dirent_inode_no (fi : Nat) (base : List Nat) :
    rdLE (new_dirent fi base) 0 4 = (fi + 1) % 2 ^ 32 := by
  have h : rdLE (new_dirent fi base) 0 4 =
      rdLE (wrLE (memset zeroMem 0 0 64) 0 4 ((fi + 1) % 2 ^ 32)) 0 4 := by
    apply rdLE_congr
    intro x h1 h2
    simp only [new_dirent, dirent_checksum_finalize]
    rw [wr8_apply, if_neg (by omega), memcpy_apply, if_neg (by omega), wr8_apply,
      if_neg (by omega)]
  rw [h, rdLE_wrLE_same]
  exact Nat.mod_eq_of_lt (by omega)

theorem new_dirent_type (fi : Nat) (base : List Nat) : new_dirent fi base 4 = 1 := by
  simp only [new_dirent, dirent_checksum_finalize]
  rw [wr8_apply, if_neg (by omega), memcpy_apply, if_neg (by omega), wr8_apply, if_pos rfl]

theorem new_dirent_name (fi : Nat) (base : List Nat) (i : Nat) (hi : i < 58) : new_dirent fi base (5 + i) = base.getD i 0 := by
  simp only [new_dirent, dirent_checksum_finalize]
  rw [wr8_apply, if_neg (by omega), memcpy_apply]
  by_cases h : i < base.length
  · rw [if_pos (by omega), wrBytes_apply, if_pos (by omega)]
    exact congrArg (fun t => base.getD t 0) (by omega)
  · rw [if_neg (by omega), wr8_apply, if_neg (by omega), wrLE_apply, if_neg (by omega),
      memset_apply, if_pos (by omega), List.getD_eq_default _ _ (by omega)]

theorem new_dirent_sealed (fi : Nat) (base : List Nat)
    (hb : ∀ b ∈ base, b < 256) : dirent_sealed (new_dirent fi base) 0 := by
  simp only [new_dirent]
  apply dirent_checksum_finalize_sealed
  intro i hi
  simp only [Nat.zero_add]
  rw [memcpy_apply]
  by_cases h : 5 ≤ i ∧ i < 5 + base.length
  · rw [if_pos h, wrBytes_apply, if_pos (by omega),
      List.getD_eq_getElem _ _ (by omega)]
    exact hb _ (List.getElem_mem _)
  · rw [if_neg h, wr8_apply]
    by_cases h4 : i = 4
    · rw [if_pos h4]; norm_num
    · rw [if_neg h4, wrLE_apply]
      split
      · exact Nat.mod_lt _ (by norm_num)
      · simp [memset, zeroMem]

theorem finish_image_frame (m : Mem) (r now x : Nat)
    (h : ¬(r + 2 ≤ x ∧ x < r + 4) ∧ ¬(r + 28 ≤ x ∧ x < r + 36) ∧ ¬(r + 120 ≤ x ∧ x < r + 128) ∧
      ¬(100 ≤ x ∧ x < 108) ∧ ¬(112 ≤ x ∧ x < 116)) :
    finish_image m r now x = m x := by
  simp only [finish_image]
  rw [superblock_crc_finalize_block_frame _ _ (by omega), wrLE_frame _ _ _ _ _ (by omega),
    inode_crc_finalize_frame _ _ _ (by omega), wrLE_frame _ _ _ _ _ (by omega),
    wrLE_frame _ _ _ _ _ (by omega)]

theorem finish_image_links (m : Mem) (r now : Nat) (hr : 116 ≤ r) :
    rdLE (finish_image m r now) (r + 2) 2 = (rdLE m (r + 2) 2 + 1) % 2 ^ 16 := by
  have h : rdLE (finish_image m r now) (r + 2) 2 =
      rdLE (wrLE m (r + 2) 2 ((rdLE m (r + 2) 2 + 1) % 2 ^ 16)) (r + 2) 2 := by
    apply rdLE_congr
    intro x h1 h2
    simp only [finish_image]
    rw [superblock_crc_finalize_block_frame _ _ (by omega), wrLE_frame _ _ _ _ _ (by omega),
      inode_crc_finalize_frame _ _ _ (by omega), wrLE_frame _ _ _ _ _ (by omega)]
  rw [h, rdLE_wrLE_same]
  exact Nat.mod_eq_of_lt (by omega)

theorem finish_image_root_sealed (m : Mem) (r now : Nat) (hr : 116 ≤ r) :
    inode_sealed (finish_image m r now) r := by
  have h := inode_crc_finalize_sealed
    (wrLE (wrLE m (r + 2) 2 ((rdLE m (r + 2) 2 + 1) % 2 ^ 16)) (r + 28) 8 now) r
  refine (inode_sealed_congr ?_).2 h
  intro i hi
  simp only [finish_image]
  rw [superblock_crc_finalize_block_frame _ _ (by omega), wrLE_frame _ _ _ _ _ (by omega)]

theorem finish_image_sb_sealed (m : Mem) (r now : Nat) (hr : 4096 ≤ r)
    (hpad : ∀ a, 116 ≤ a → a < 4096 → m a = 0) :
    superblock_sealed (finish_image m r now) := by
  simp only [finish_image]
  apply superblock_crc_finalize_block_sealed
  intro a h1 h2
  rw [wrLE_frame _ _ _ _ _ (by omega), inode_crc_finalize_frame _ _ _ (by omega),
    wrLE_frame _ _ _ _ _ (by omega), wrLE_frame _ _ _ _ _ (by omega)]
  exact hpad a h1 h2

theorem finish_image_mtime (m : Mem) (r now : Nat) :
    rdLE (finish_image m r now) 100 8 = now % 2 ^ 64 := by
  have h : rdLE (finish_image m r now) 100 8 =
      rdLE (wrLE (inode_crc_finalize
        (wrLE (wrLE m (r + 2) 2 ((rdLE m (r + 2) 2 + 1) % 2 ^ 16)) (r + 28) 8 now) r)
        100 8 now) 100 8 := by
    apply rdLE_congr
    intro x h1 h2
    simp only [finish_image]
    rw [superblock_crc_finalize_block_frame _ _ (by omega)]
  rw [h, rdLE_wrLE_same]
  norm_num

theorem strncmp_eq_iff (a : Mem) (ao : Nat) (b : Mem) (bo n : Nat) :
    strncmp_eq a ao b bo n = true ↔
      (rdBytes a ao n).takeWhile (fun c => c != 0) =
        (rdBytes b bo n).takeWhile (fun c => c != 0) := by
  induction n generalizing ao bo with
  | zero => simp [strncmp_eq, rdBytes]
  | succ k ih =>
    rw [strncmp_eq, rdBytes_cons, rdBytes_cons]
    by_cases hne : a ao ≠ b bo
    · rw [if_pos hne]
      simp only [List.takeWhile_cons]
      by_cases ha : a ao = 0
      · have hb : b bo ≠ 0 := fun hb => hne (by rw [ha, hb])
        simp [ha, hb]
      · by_cases hb : b bo = 0
        · simp [ha, hb]
        · simp [ha, hb, hne]
    · rw [if_neg hne]
      have he : a ao = b bo := not_not.1 hne
      by_cases ha : a ao = 0
      · rw [if_pos ha]
        have hb : b bo = 0 := by rw [← he]; exact ha
        simp [List.takeWhile_cons, ha, hb]
      · rw [if_neg ha, ih]
        have hb : b bo ≠ 0 := by rw [← he]; exact ha
        simp [List.takeWhile_cons, ha, hb, he]

theorem takeWhile_getD_range (l : List Nat) (n : Nat) (hlen : l.length ≤ n)
    (hnz : ∀ c ∈ l, c ≠ 0) :
    ((List.range n).map (fun i => l.getD i 0)).takeWhile (fun c => c != 0) = l := by
  induction l generalizing n with
  | nil =>
    cases n with
    | zero => rfl
    | succ k => simp [List.range_succ_eq_map]
  | cons x xs ih =>
    cases n with
    | zero => simp at hlen
    | succ k =>
      have hx : x ≠ 0 := hnz x (List.mem_cons_self _ _)
      have := ih k (by simpa using hlen) (fun c hc => hnz c (List.mem_cons_of_mem _ hc))
      simp only [List.range_succ_eq_map, List.map_cons, List.map_map, List.getD_cons_zero,
        List.takeWhile_cons]
      have hx' : (x != 0) = true := by simpa using hx
      rw [hx']
      simp only [if_true]
      congr 1

theorem fname_name (src : source_file) (hlen : (base_name src.path).length ≤ 58)
    (hnz : ∀ c ∈ base_name src.path, c ≠ 0) :
    (rdBytes (fname src) 0 58).takeWhile (fun c => c != 0) = base_name src.path := by
  have h : rdBytes (fname src) 0 58 =
      (List.range 58).map (fun i => (base_name src.path).getD i 0) := by
    simp only [rdBytes]
    apply List.map_congr_left
    intro i _
    simp only [fname, wrBytes_apply, zeroMem, Nat.zero_add, Nat.sub_zero, Nat.zero_le, true_and]
    split
    · rfl
    · rw [List.getD_eq_default _ _ (by omega)]
  rw [h]
  exact takeWhile_getD_range _ _ hlen hnz

theorem exist_buf_name (img : Mem) (de : Nat) :
    (rdBytes (exist_buf img de) 0 58).takeWhile (fun c => c != 0) = dirent_name img de := by
  have h : rdBytes (exist_buf img de) 0 58 = rdBytes img (de + 5) 58 := by
    apply rdBytes_congr
    intro i hi
    simp only [exist_buf]
    rw [wr8_apply, if_neg (by omega), memcpy_apply, if_pos (by omega)]
    exact congrArg img (by omega)
  rw [h, dirent_name]

/-- The duplicate-name loop dies exactly when a used slot holds the name. -/
theorem dup_scan_iff (img : Mem) (rb : Nat) (src : source_file)
    (hlen : (base_name src.path).length ≤ 58) (hnz : ∀ c ∈ base_name src.path, c ≠ 0)
    (k i : Nat) :
    dup_scan img rb (fname src) k i = true ↔
      ∃ s, i ≤ s ∧ s < i + k ∧ rdLE img (rb + s * 64) 4 ≠ 0 ∧
        dirent_name img (rb + s * 64) = base_name src.path := by
  induction k generalizing i with
  | zero =>
    simp only [dup_scan]
    constructor
    · intro h; cases h
    · rintro ⟨s, h1, h2, _⟩; omega
  | succ k ih =>
    rw [dup_scan]
    by_cases hz : rdLE img (rb + i * 64) 4 = 0
    · rw [if_pos hz, ih]
      constructor
      · rintro ⟨s, h1, h2, h3, h4⟩
        exact ⟨s, by omega, by omega, h3, h4⟩
      · rintro ⟨s, h1, h2, h3, h4⟩
        have hne : s ≠ i := fun he => h3 (he ▸ hz)
        exact ⟨s, by omega, by omega, h3, h4⟩
    · rw [if_neg hz]
      by_cases hs : strncmp_eq (exist_buf img (rb + i * 64)) 0 (fname src) 0 58 = true
      · rw [if_pos hs]
        rw [strncmp_eq_iff, exist_buf_name, fname_name src hlen hnz] at hs
        simp only [true_iff]
        exact ⟨i, le_refl _, by omega, hz, hs⟩
      · rw [if_neg hs, ih]
        rw [strncmp_eq_iff, exist_buf_name, fname_name src hlen hnz] at hs
        constructor
        · rintro ⟨s, h1, h2, h3, h4⟩
          exact ⟨s, by omega, by omega, h3, h4⟩
        · rintro ⟨s, h1, h2, h3, h4⟩
          have hne : s ≠ i := fun he => hs (he ▸ h4)
          exact ⟨s, by omega, by omega, h3, h4⟩

theorem base_name_mem (p : List Nat) : ∀ c ∈ base_name p, c ∈ p := by
  have key : ∀ (d : Nat) (l r : List Nat), strrchr_tail d l = some r → ∀ c ∈ r, c ∈ l := by
    intro d l
    induction l with
    | nil => intro r h; cases h
    | cons x xs ih =>
      intro r h c hc
      rw [strrchr_tail] at h
      cases hr : strrchr_tail d xs with
      | some r' =>
        rw [hr] at h
        injection h with h
        subst h
        exact List.mem_cons_of_mem _ (ih r' hr c hc)
      | none =>
        rw [hr] at h
        simp only at h
        split at h
        · injection h with h; subst h; exact List.mem_cons_of_mem _ hc
        · cases h
  intro c hc
  simp only [base_name] at hc
  cases h1 : strrchr_tail 47 p with
  | some r => rw [h1] at hc; exact key 47 p r h1 c hc
  | none =>
    rw [h1] at hc
    cases h2 : strrchr_tail 92 p with
    | some r => rw [h2] at hc; exact key 92 p r h2 c hc
    | none => rw [h2] at hc; exact hc

theorem formatted_offsets {o : options_t} {inp : Image} (hF : Formatted o inp) :
    inode_bm_off inp.data = 4096 ∧ data_bm_off inp.data = 8192 ∧ inodes_off inp.data = 12288 ∧
    root_off inp.data = 12288 ∧ rootblk_off inp.data = 4096 * data_region_start o := by
  obtain ⟨a1, a2, a3, a4, a5, a6, a7, a8, a9⟩ := layout_arith o hF.opts_ok
  have h1 : inode_bm_off inp.data = 4096 := by
    simp only [inode_bm_off, hF.ibm_start, BS]; norm_num
  have h2 : data_bm_off inp.data = 8192 := by
    simp only [data_bm_off, hF.dbm_start, BS]; norm_num
  have h3 : inodes_off inp.data = 12288 := by
    simp only [inodes_off, hF.itab_start, BS]; norm_num
  have h4 : root_off inp.data = 12288 := by
    simp only [root_off, h3, ROOT_INO, INODE_SIZE]
  refine ⟨h1, h2, h3, h4, ?_⟩
  have h5 := hF.root_direct0
  simp only [rootblk_off, h4, h5, BS]
  omega

/-- The free-inode loop on an image of the format. -/
theorem formatted_inode_scan {o : options_t} {inp : Image} (hF : Formatted o inp) {i : Nat}
    (hi : inode_scan inp.data (inode_bm_off inp.data) (rdLE inp.data 20 8) 0 = some i) :
    (i < o.inodes ∧ ¬ bit_set inp.data 4096 i ∧ ∀ j, j < i → bit_set inp.data 4096 j) ∧
    (to_int32 i).toNat = i ∧ 1 ≤ i := by
  have hvo := (parse_cli_ok_iff o).1 hF.opts_ok
  rw [hF.inode_count, (formatted_offsets hF).1] at hi
  obtain ⟨_, i_lt, i_clear, i_least⟩ := (inode_scan_some_iff _ _ _ _ _).1 hi
  refine ⟨⟨by omega, i_clear, fun j hj => i_least j (by omega) hj⟩, ?_, ?_⟩
  · rw [to_int32_of_lt (by omega)]; exact Int.toNat_natCast i
  · by_contra hc
    have : i = 0 := by omega
    exact i_clear (this ▸ hF.ibit0)

/-- The data-block loop on an image of the format. -/
theorem formatted_alloc {o : options_t} {inp : Image} (hF : Formatted o inp)
    (src : source_file) :
    ∃ js : List Nat,
      (alloc_stage inp.data src).2 = js.map (fun j => data_region_start o + j) ∧
      js.Pairwise (fun a b => a < b) ∧ js.length ≤ need src ∧
      (∀ j ∈ js, 1 ≤ j ∧ j < data_region_blocks o ∧ ¬ bit_set inp.data 8192 j) ∧
      (∀ x, (∀ j ∈ js, x ≠ 8192 + j / 8) → (alloc_stage inp.data src).1 x = inp.data x) ∧
      (∀ j, bit_set (alloc_stage inp.data src).1 8192 j ↔ (j ∈ js ∨ bit_set inp.data 8192 j)) ∧
      (∀ j, j < data_region_blocks o → ¬ bit_set inp.data 8192 j → j ∉ js →
        need src ≤ js.length ∧ ∀ j' ∈ js, j' < j) := by
  obtain ⟨a1, a2, a3, a4, a5, a6, a7, a8, a9⟩ := layout_arith o hF.opts_ok
  have hdrb : data_region_blocks o ≤ 0 + 2 ^ 64 := by omega
  obtain ⟨js, e1, e2, e3, e4, e5, e6, e7, e8⟩ :=
    alloc_blocks_spec 8192 (need src) (data_region_start o) (data_region_blocks o) (by norm_num)
      (2 ^ 64) 0 inp.data [] hdrb hF.dr_blocks hF.dr_start
  have hstage : alloc_stage inp.data src =
      alloc_blocks 8192 (need src) (2 ^ 64) 0 inp.data [] := by
    rw [alloc_stage, (formatted_offsets hF).2.1]
  have hjs : ∀ j ∈ js, 1 ≤ j ∧ j < data_region_blocks o ∧ ¬ bit_set inp.data 8192 j := by
    intro j hj
    obtain ⟨_, g2, g3⟩ := e3 j hj
    refine ⟨?_, g2, g3⟩
    by_contra hc
    have : j = 0 := by omega
    exact g3 (this ▸ hF.dbit0)
  have hmap : js.map (fun j => (data_region_start o + j) % 2 ^ 64 % 2 ^ 32) =
      js.map (fun j => data_region_start o + j) := by
    apply List.map_congr_left
    intro j hj
    have := (hjs j hj).2.1
    show (data_region_start o + j) % 2 ^ 64 % 2 ^ 32 = data_region_start o + j
    omega
  rw [hstage]
  refine ⟨js, by rw [e1, hmap, List.nil_append], e2, ?_, hjs, e4, e5, ?_⟩
  · simp only [List.length_nil] at e6 e7
    by_cases h0 : 0 < need src
    · have := e6 h0; omega
    · have := e7 (by omega); rw [this]; simp
  · intro j h1 h2 h3
    have := e8 j (Nat.zero_le _) h1 h2 h3
    simpa using this

theorem getD_map_add (js : List Nat) (d k : Nat) (hk : k < js.length) :
    (js.map (fun j => d + j)).getD k 0 = d + js.getD k 0 := by
  rw [List.getD_eq_getElem _ _ (by rw [List.length_map]; exact hk),
    List.getD_eq_getElem _ _ hk, List.getElem_map]

theorem getD_mem (js : List Nat) (k : Nat) (hk : k < js.length) : js.getD k 0 ∈ js := by
  rw [List.getD_eq_getElem _ _ hk]
  exact List.getElem_mem _

theorem getD_lt_of_sorted (js : List Nat) (hs : js.Pairwise (fun a b => a < b)) (k k' : Nat)
    (h1 : k < k') (h2 : k' < js.length) : js.getD k 0 < js.getD k' 0 := by
  rw [List.getD_eq_getElem _ _ (by omega), List.getD_eq_getElem _ _ h2]
  exact List.pairwise_iff_getElem.1 hs k k' (by omega) h2 h1

/-- The copy loop on blocks `d + j`, `j` ranging over a strictly increasing list. -/
theorem copy_blocks_sorted (src : source_file) (d : Nat) (js : List Nat) (m1 : Mem)
    (hlen : src.content.length < 2 ^ 63)
    (hs : js.Pairwise (fun a b => a < b)) (hl : js.length = need src)
    (hb : ∀ j ∈ js, d + j < 2 ^ 32) :
    ∃ m2, copy_blocks src.content (fsize src) (js.map (fun j => d + j)) (need src) 0 0 m1
        = .ok m2 ∧
      (∀ x, (∀ j ∈ js, ¬(4096 * (d + j) ≤ x ∧ x < 4096 * (d + j) + 4096)) → m2 x = m1 x) ∧
      (∀ k, k < need src → ∀ off, off < 4096 →
        m2 (4096 * (d + js.getD k 0) + off) = src.content.getD (4096 * k + off) 0) := by
  have hfs : fsize src = src.content.length := Nat.mod_eq_of_lt (by omega)
  have hneed := need_eq src hlen
  have hnd : src.content.length ≤ need src * 4096 ∧
      need src * 4096 < src.content.length + 4096 := by
    rw [hneed]; omega
  obtain ⟨m2, g1, g2, g3⟩ :=
    copy_blocks_spec src.content (need src) (js.map (fun j => d + j)) hlen hnd
      (fun k hk => by
        rw [getD_map_add js d k (by omega)]
        exact hb _ (getD_mem js k (by omega)))
      (need src) 0 0 m1 (Nat.zero_add _) (fun _ => (Nat.zero_mul _).symm)
  rw [hfs]
  refine ⟨m2, g1, ?_, ?_⟩
  · intro x hx
    apply g2
    intro k _ hk
    rw [getD_map_add js d k (by omega)]
    have := hx _ (getD_mem js k (by omega))
    omega
  · intro k hk off hoff
    have := g3 k (Nat.zero_le _) hk (fun k' h1 h2 => by
      rw [getD_map_add js d k (by omega), getD_map_add js d k' (by omega)]
      have := getD_lt_of_sorted js hs k k' h1 (by omega)
      omega) off hoff
    rw [getD_map_add js d k (by omega)] at this
    rw [show 4096 * (d + js.getD k 0) + off = (d + js.getD k 0) * 4096 + off by omega, this]
    exact congrArg (fun t => src.content.getD t 0) (by omega)

/-- The stages of a successful insertion into an image of the format. -/
theorem mkfs_adder_pipeline {o : options_t} {inp out : Image} {src : source_file} {now : Nat}
    (hF : Formatted o inp) (hv : valid_source src) (h : mkfs_adder inp src now = .ok out) :
    ∃ (fi : Nat) (js : List Nat) (s : Nat) (m1 m2 : Mem),
      (fi < o.inodes ∧ ¬ bit_set inp.data 4096 fi ∧ ∀ j, j < fi → bit_set inp.data 4096 j) ∧
      1 ≤ fi ∧
      (js.Pairwise (fun a b => a < b) ∧ js.length = need src ∧
        (∀ j ∈ js, 1 ≤ j ∧ j < data_region_blocks o ∧ ¬ bit_set inp.data 8192 j) ∧
        (∀ j, j < data_region_blocks o → ¬ bit_set inp.data 8192 j → j ∉ js →
          ∀ j' ∈ js, j' < j)) ∧
      (alloc_stage inp.data src).2 = js.map (fun j => data_region_start o + j) ∧
      (∀ x, (∀ j ∈ js, x ≠ 8192 + j / 8) → m1 x = inp.data x) ∧
      (∀ j, bit_set m1 8192 j ↔ (j ∈ js ∨ bit_set inp.data 8192 j)) ∧
      (∀ x, (∀ j ∈ js, ¬(4096 * (data_region_start o + j) ≤ x ∧
          x < 4096 * (data_region_start o + j) + 4096)) → m2 x = m1 x) ∧
      (∀ k, k < need src → ∀ off, off < 4096 →
        m2 (4096 * (data_region_start o + js.getD k 0) + off) =
          src.content.getD (4096 * k + off) 0) ∧
      s < 64 ∧
      rdLE (set_bit (write_inode m2 (12288 + 128 * fi) (fsize src) now (need src)
        (js.map (fun j => data_region_start o + j))) 4096 fi)
        (4096 * data_region_start o + 64 * s) 4 = 0 ∧
      (∀ s', s' < s →
        rdLE (set_bit (write_inode m2 (12288 + 128 * fi) (fsize src) now (need src)
          (js.map (fun j => data_region_start o + j))) 4096 fi)
          (4096 * data_region_start o + 64 * s') 4 ≠ 0) ∧
      (∀ s', s' < 64 → rdLE inp.data (4096 * data_region_start o + 64 * s') 4 ≠ 0 →
        dirent_name inp.data (4096 * data_region_start o + 64 * s') ≠ base_name src.path) ∧
      out = { size := inp.size,
              data := finish_image
                (memcpy (set_bit (write_inode m2 (12288 + 128 * fi) (fsize src) now (need src)
                  (js.map (fun j => data_region_start o + j))) 4096 fi)
                  (4096 * data_region_start o + 64 * s)
                  (new_dirent fi (base_name src.path)) 0 64) 12288 now } := by
  obtain ⟨o1, o2, o3, o4, o5⟩ := formatted_offsets hF
  obtain ⟨c1, c2, c3, c4, c5, c6, c7, c8, c9, c10, c11, i, m2, m5, hi, hi0, hm2, hm5, hout⟩ :=
    mkfs_adder_ok_elim h
  obtain ⟨v1, v2, v3⟩ := hv
  obtain ⟨hi1, hfi, hi2⟩ := formatted_inode_scan hF hi
  obtain ⟨js, e1, e2, e3, e4, e5, e6, e7⟩ := formatted_alloc hF src
  rw [copy_stage] at hm2
  rw [hfi, o5, inode_stage, o1, o3] at hm5
  generalize alloc_stage inp.data src = A at hm2 hm5 e1 e5 e6
  obtain ⟨A1, A2⟩ := A
  simp only at hm2 hm5 e1 e5 e6
  subst e1
  have hlen : js.length = need src := by
    by_cases hc : (js.map (fun j => data_region_start o + j)).length < need src
    · rw [if_pos hc] at hm2; cases hm2
    · rw [List.length_map] at hc
      omega
  have hb : ∀ j ∈ js, data_region_start o + j < 2 ^ 32 := by
    intro j hj
    have := (e4 j hj).2.1
    have a := layout_arith o hF.opts_ok
    omega
  obtain ⟨m2', g1, g2, g3⟩ :=
    copy_blocks_sorted src (data_region_start o) js A1 v3 e2 hlen hb
  have hcond : ¬ (js.map (fun j => data_region_start o + j)).length < need src := by
    rw [List.length_map]; omega
  rw [if_neg hcond] at hm2
  have hm2' : m2 = m2' := by
    have h3 := hm2.symm.trans g1
    injection h3
  subst hm2'
  rw [o4] at hout
  obtain ⟨s, s1, s2, s3, s4, s5⟩ := (place_dirent_some_iff _ _ _ _ _ _).1 hm5
  have hino : 12288 + i * INODE_SIZE = 12288 + 128 * i := by simp only [INODE_SIZE]; omega
  have hslot : ∀ t, 4096 * data_region_start o + t * 64 = 4096 * data_region_start o + 64 * t :=
    fun t => by omega
  rw [hino] at s3 s4 s5
  rw [hslot] at s3 s5
  have hs64 : s < 64 := by simp only [BS] at s2; omega
  refine ⟨i, js, s, A1, m2, hi1, hi2, ⟨e2, hlen, e4, fun j h1 h2 h3 => (e7 j h1 h2 h3).2⟩, rfl,
    e5, e6, g2, g3, hs64, s3, ?_, ?_, ?_⟩
  · intro s' hs'
    have := s4 s' (Nat.zero_le _) hs'
    rwa [hslot] at this
  · intro s' hs' hne heq
    rw [o5] at c11
    have hnz : ∀ c ∈ base_name src.path, c ≠ 0 := fun c hc => by
      have := v1 c (base_name_mem _ c hc); omega
    have hd := (dup_scan_iff inp.data (4096 * data_region_start o) src c8 hnz (BS / 64) 0).2
      ⟨s', Nat.zero_le _, by simp only [BS]; omega, by rwa [hslot], by rwa [hslot]⟩
    rw [hd] at c11
    cases c11
  · rw [hout, s5]

theorem finish_image_root_mtime (m : Mem) (r now : Nat) (hr : 116 ≤ r) :
    rdLE (finish_image m r now) (r + 28) 8 = now % 2 ^ 64 := by
  have h : rdLE (finish_image m r now) (r + 28) 8 =
      rdLE (wrLE (wrLE m (r + 2) 2 ((rdLE m (r + 2) 2 + 1) % 2 ^ 16)) (r + 28) 8 now)
        (r + 28) 8 := by
    apply rdLE_congr
    intro x h1 h2
    simp only [finish_image]
    rw [superblock_crc_finalize_block_frame _ _ (by omega), wrLE_frame _ _ _ _ _ (by omega),
      inode_crc_finalize_frame _ _ _ (by omega)]
  rw [h, rdLE_wrLE_same]
  norm_num

/-- Region arithmetic of the format. -/
theorem formatted_regions {o : options_t} (h : parse_cli_ok o = true) (fi : Nat)
    (hfi : fi < o.inodes) :
    12288 + 128 * fi + 128 ≤ 4096 * data_region_start o ∧ 7 ≤ data_region_start o ∧
    data_region_start o + data_region_blocks o ≤ 1024 ∧ fi < 512 := by
  obtain ⟨a1, a2, a3, a4, a5, a6, a7, a8, a9⟩ := layout_arith o h
  have hvo := (parse_cli_ok_iff o).1 h
  omega

/-- The bytes an insertion leaves alone up to the new inode's bitmap bit. -/
theorem insert_back4 (inp m1 m2 : Mem) (d fi fsz now nd : Nat) (blocks js : List Nat)
    (hnd : nd ≤ 12)
    (h1 : ∀ x, (∀ j ∈ js, x ≠ 8192 + j / 8) → m1 x = inp x)
    (h2 : ∀ x, (∀ j ∈ js, ¬(4096 * (d + j) ≤ x ∧ x < 4096 * (d + j) + 4096)) → m2 x = m1 x)
    (x : Nat) (hx1 : x ≠ 4096 + fi / 8)
    (hx2 : ¬(12288 + 128 * fi ≤ x ∧ x < 12288 + 128 * fi + 128))
    (hx3 : ∀ j ∈ js, x ≠ 8192 + j / 8)
    (hx4 : ∀ j ∈ js, ¬(4096 * (d + j) ≤ x ∧ x < 4096 * (d + j) + 4096)) :
    set_bit (write_inode m2 (12288 + 128 * fi) fsz now nd blocks) 4096 fi x = inp x := by
  rw [set_bit_frame _ _ _ _ hx1, write_inode_frame _ _ _ _ _ _ _ hnd (by omega), h2 x hx4,
    h1 x hx3]

/-- The image after the new inode's bitmap bit is set (line 217), relative to the input. -/
theorem insert_m4_facts (inp m1 m2 : Mem) (d fi fsz now nd : Nat) (blocks js : List Nat)
    (hnd : nd ≤ 12) (hfi : fi < 512) (hd : 12288 + 128 * fi + 128 ≤ 4096 * d)
    (hjs : ∀ j ∈ js, 1 ≤ j)
    (h1 : ∀ x, (∀ j ∈ js, x ≠ 8192 + j / 8) → m1 x = inp x)
    (b1 : ∀ j, bit_set m1 8192 j ↔ (j ∈ js ∨ bit_set inp 8192 j))
    (h2 : ∀ x, (∀ j ∈ js, ¬(4096 * (d + j) ≤ x ∧ x < 4096 * (d + j) + 4096)) → m2 x = m1 x) :
    (∀ j, j < 32768 →
      (bit_set (set_bit (write_inode m2 (12288 + 128 * fi) fsz now nd blocks) 4096 fi) 4096 j ↔
        (j = fi ∨ bit_set inp 4096 j))) ∧
    (∀ j, j < 32768 →
      (bit_set (set_bit (write_inode m2 (12288 + 128 * fi) fsz now nd blocks) 4096 fi) 8192 j ↔
        (j ∈ js ∨ bit_set inp 8192 j))) ∧
    (∀ i, i < 128 →
      set_bit (write_inode m2 (12288 + 128 * fi) fsz now nd blocks) 4096 fi
        (12288 + 128 * fi + i) = write_inode zeroMem 0 fsz now nd blocks i) ∧
    (∀ x, 4096 * (d + 1) ≤ x →
      set_bit (write_inode m2 (12288 + 128 * fi) fsz now nd blocks) 4096 fi x = m2 x) := by
  refine ⟨?_, ?_, ?_, ?_⟩
  · intro j hj
    rw [bit_set_set_bit]
    have hb : write_inode m2 (12288 + 128 * fi) fsz now nd blocks (4096 + j / 8) =
        inp (4096 + j / 8) := by
      rw [write_inode_frame _ _ _ _ _ _ _ hnd (by omega),
        h2 _ (fun j' hj' => by have := hjs j' hj'; omega), h1 _ (fun j' hj' => by omega)]
    rw [bit_set_congr hb]
  · intro j hj
    have hb : set_bit (write_inode m2 (12288 + 128 * fi) fsz now nd blocks) 4096 fi
        (8192 + j / 8) = m1 (8192 + j / 8) := by
      rw [set_bit_frame _ _ _ _ (by omega), write_inode_frame _ _ _ _ _ _ _ hnd (by omega),
        h2 _ (fun j' hj' => by have := hjs j' hj'; omega)]
    rw [bit_set_congr hb, b1]
  · intro i hi
    rw [set_bit_frame _ _ _ _ (by omega)]
    exact write_inode_shifted m2 (12288 + 128 * fi) fsz now nd blocks i hi
  · intro x hx
    rw [set_bit_frame _ _ _ _ (by omega), write_inode_frame _ _ _ _ _ _ _ hnd (by omega)]

set_option maxHeartbeats 1000000 in
/-- The effect of a successful insertion into an image of the format. -/
theorem mkfs_adder_effect {o : options_t} {inp out : Image} {src : source_file} {now : Nat}
    (hF : Formatted o inp) (hv : valid_source src) (h : mkfs_adder inp src now = .ok out) :
    ∃ fi js s, insert_effect o inp src now out fi js s := by
  obtain ⟨fi, js, s, m1, m2, hi, hi1, ⟨j1, j2, j3, j4⟩, be, H1, B1, H2, D2, hs, s0, sl, nn,
    hout⟩ := mkfs_adder_pipeline hF hv h
  obtain ⟨r1, r2, r3, r4⟩ := formatted_regions hF.opts_ok fi hi.1
  have hnd : need src ≤ 12 := (mkfs_adder_ok_elim h).2.2.2.2.2.1
  have hsize : out.size = inp.size := by rw [hout]
  have hdata : out.data = finish_image
      (memcpy (set_bit (write_inode m2 (12288 + 128 * fi) (fsize src) now (need src)
        (js.map (fun j => data_region_start o + j))) 4096 fi)
        (4096 * data_region_start o + 64 * s)
        (new_dirent fi (base_name src.path)) 0 64) 12288 now := by rw [hout]
  clear hout h
  have jb : ∀ j ∈ js, 1 ≤ j ∧ data_region_start o + j < 1024 := fun j hj => by
    have := j3 j hj; omega
  have back := insert_back4 inp.data m1 m2 (data_region_start o) fi (fsize src) now (need src)
    (js.map (fun j => data_region_start o + j)) js hnd H1 H2
  obtain ⟨f1, f2, f3, f4⟩ := insert_m4_facts inp.data m1 m2 (data_region_start o) fi (fsize src)
    now (need src) (js.map (fun j => data_region_start o + j)) js hnd r4 r1
    (fun j hj => (jb j hj).1) H1 B1 H2
  generalize set_bit (write_inode m2 (12288 + 128 * fi) (fsize src) now (need src)
        (js.map (fun j => data_region_start o + j))) 4096 fi = m4
    at hdata back s0 sl f1 f2 f3 f4
  have back_root : ∀ x, 4096 * data_region_start o ≤ x → x < 4096 * data_region_start o + 4096 →
      m4 x = inp.data x := fun x h1 h2 =>
    back x (by omega) (by omega) (fun j hj => by have := jb j hj; omega)
      (fun j hj => by have := jb j hj; omega)
  have back_low : ∀ x, x < 4096 → m4 x = inp.data x := fun x h1 =>
    back x (by omega) (by omega) (fun j hj => by omega)
      (fun j hj => by have := jb j hj; omega)
  have back_rooti : ∀ x, 12288 ≤ x → x < 12288 + 128 → m4 x = inp.data x := fun x h1 h2 =>
    back x (by omega) (by omega) (fun j hj => by have := jb j hj; omega)
      (fun j hj => by have := jb j hj; omega)
  have slot_rd : ∀ s', s' < 64 → rdLE m4 (4096 * data_region_start o + 64 * s') 4 =
      rdLE inp.data (4096 * data_region_start o + 64 * s') 4 := fun s' hs' =>
    rdLE_congr (fun x h1 h2 => back_root x (by omega) (by omega))
  refine ⟨fi, js, s, ?_⟩
  constructor
  · exact hi.1
  · exact hi.2.1
  · exact hi.2.2
  · exact j1
  · exact j2
  · exact hi1
  · exact j3
  · exact j4
  · exact be
  · exact hs
  · rw [← slot_rd s hs]; exact s0
  · intro s' hs'; rw [← slot_rd s' (by omega)]; exact sl s' hs'
  · exact nn
  · exact hsize
  · -- inode bitmap
    intro j hj
    have hb : out.data (4096 + j / 8) = m4 (4096 + j / 8) := by
      rw [hdata, finish_image_frame _ _ _ _ (by omega), memcpy_apply, if_neg (by omega)]
    rw [bit_set_congr hb]
    exact f1 j hj
  · -- data bitmap
    intro j hj
    have hb : out.data (8192 + j / 8) = m4 (8192 + j / 8) := by
      rw [hdata, finish_image_frame _ _ _ _ (by omega), memcpy_apply, if_neg (by omega)]
    rw [bit_set_congr hb]
    exact f2 j hj
  · -- inode record
    intro i hi'
    rw [hdata, finish_image_frame _ _ _ _ (by omega), memcpy_apply, if_neg (by omega)]
    exact f3 i hi'
  · -- directory entry
    intro i hi'
    rw [hdata, finish_image_frame _ _ _ _ (by omega), memcpy_apply, if_pos (by omega)]
    exact congrArg _ (by omega)
  · -- file data
    intro k hk off hoff
    have hm := jb _ (getD_mem js k (by omega))
    rw [hdata, finish_image_frame _ _ _ _ (by omega), memcpy_apply, if_neg (by omega),
      f4 _ (by omega)]
    exact D2 k hk off hoff
  · -- root links
    rw [hdata, finish_image_links _ _ _ (by norm_num)]
    congr 2
    apply rdLE_congr
    intro x h1 h2
    rw [memcpy_apply, if_neg (by omega)]
    exact back_rooti x (by omega) (by omega)
  · rw [hdata]; exact finish_image_root_mtime _ _ _ (by norm_num)
  · rw [hdata]; exact finish_image_mtime _ _ _
  · rw [hdata]; exact finish_image_root_sealed _ _ _ (by norm_num)
  · rw [hdata]
    apply finish_image_sb_sealed _ _ _ (by norm_num)
    intro a h1 h2
    rw [memcpy_apply, if_neg (by omega), back_low a h2]
    exact hF.sb_pad a h1 h2
  · -- frame
    intro x x1 x2 x3 x4 x5 x6 x7 x8 x9 x10
    rw [hdata, finish_image_frame _ _ _ _ ⟨x5, x6, x7, x1, x2⟩, memcpy_apply, if_neg x9]
    exact back x x3 x8 x4 x10

theorem inode_sealed_shift {m w : Mem} {a : Nat} (h : ∀ i, i < 128 → m (a + i) = w i) :
    inode_sealed m a ↔ inode_sealed w 0 := by
  simp only [inode_sealed]
  rw [rdLE_of_shifted h 120 8 (by norm_num),
    crc32_congr (fun x hx => h x (by omega) : ∀ x, x < 120 → (fun i => m (a + i)) x = w x),
    crc32_congr (fun x _ => by simp : ∀ x, x < 120 → (fun i => w (0 + i)) x = w x)]

theorem getD_lt_256 (l : List Nat) (hb : ∀ b ∈ l, b < 256) (i : Nat) : l.getD i 0 < 256 := by
  by_cases h : i < l.length
  · rw [List.getD_eq_getElem _ _ h]; exact hb _ (List.getElem_mem _)
  · rw [List.getD_eq_default _ _ (by omega)]; norm_num

theorem root_inode_fields (o : options_t) (t : Nat) (h : parse_cli_ok o = true) :
    rdLE (root_inode o t) 0 2 = MODE_DIR ∧ rdLE (root_inode o t) 2 2 = 2 ∧
    rdLE (root_inode o t) 12 8 = 4096 ∧
    rdLE (root_inode o t) 44 4 = data_region_start o ∧
    (∀ k, 1 ≤ k → k < 12 → rdLE (root_inode o t) (44 + 4 * k) 4 = 0) ∧
    inode_sealed (root_inode o t) 0 := by
  obtain ⟨a1, a2, a3, a4, a5, a6, a7, a8, a9⟩ := layout_arith o h
  have fr : ∀ c n, c + n ≤ 120 → rdLE (root_inode o t) c n =
      rdLE (wrLE (wrLE (wrLE (wrLE (wrLE (wrLE (wrLE (wrLE (wrLE (wrLE (wrLE (wrLE zeroMem
        0 2 0o040000) 2 2 2) 4 4 0) 8 4 0) 12 8 BS) 36 8 t) 28 8 t) 20 8 t)
        44 4 (data_region_start o)) 104 4 2) 108 4 0) 112 8 0) c n := by
    intro c n hc
    apply rdLE_congr
    intro x h1 h2
    simp only [root_inode]
    rw [inode_crc_finalize_frame _ _ _ (by omega)]
  refine ⟨?_, ?_, ?_, ?_, ?_, ?_⟩
  · rw [fr 0 2 (by norm_num)]
    simp (disch := omega) only [rdLE_wrLE_disj, rdLE_wrLE_same]
    norm_num
  · rw [fr 2 2 (by norm_num)]
    simp (disch := omega) only [rdLE_wrLE_disj, rdLE_wrLE_same]
    norm_num
  · rw [fr 12 8 (by norm_num)]
    simp (disch := omega) only [rdLE_wrLE_disj, rdLE_wrLE_same]
    norm_num
  · rw [fr 44 4 (by norm_num)]
    simp (disch := omega) only [rdLE_wrLE_disj, rdLE_wrLE_same]
    exact Nat.mod_eq_of_lt (by omega)
  · intro k hk1 hk2
    rw [fr (44 + 4 * k) 4 (by omega)]
    rw [rdLE_wrLE_disj _ _ _ _ _ _ (by omega), rdLE_wrLE_disj _ _ _ _ _ _ (by omega),
      rdLE_wrLE_disj _ _ _ _ _ _ (by omega), rdLE_wrLE_disj _ _ _ _ _ _ (by omega),
      rdLE_wrLE_disj _ _ _ _ _ _ (by omega), rdLE_wrLE_disj _ _ _ _ _ _ (by omega),
      rdLE_wrLE_disj _ _ _ _ _ _ (by omega), rdLE_wrLE_disj _ _ _ _ _ _ (by omega),
      rdLE_wrLE_disj _ _ _ _ _ _ (by omega), rdLE_wrLE_disj _ _ _ _ _ _ (by omega),
      rdLE_wrLE_disj _ _ _ _ _ _ (by omega), rdLE_wrLE_disj _ _ _ _ _ _ (by omega)]
    have hz : rdLE zeroMem (44 + 4 * k) 4 = 0 % 256 ^ 4 :=
      rdLE_of_bytes (fun j _ => by simp [zeroMem])
    rw [hz]; exact Nat.zero_mod _
  · simp only [root_inode]
    exact inode_crc_finalize_sealed _ 0

theorem dot_entry_fields (dots : Nat) :
    rdLE (dot_entry dots) 0 4 = 1 ∧ dot_entry dots 4 = 2 ∧
    (∀ i, i < 58 → dot_entry dots (5 + i) = if i < dots then 46 else 0) ∧
    dirent_sealed (dot_entry dots) 0 := by
  have hl : (List.replicate dots 46 ++ [0]).length = dots + 1 := by simp
  refine ⟨?_, ?_, ?_, ?_⟩
  · have h : rdLE (dot_entry dots) 0 4 = rdLE (wrLE zeroMem 0 4 1) 0 4 := by
      apply rdLE_congr
      intro x h1 h2
      simp only [dot_entry, dirent_checksum_finalize]
      rw [wr8_apply, if_neg (by omega), wrBytes_apply, if_neg (by omega), wr8_apply,
        if_neg (by omega)]
    rw [h, rdLE_wrLE_same]; norm_num
  · simp only [dot_entry, dirent_checksum_finalize]
    rw [wr8_apply, if_neg (by omega), wrBytes_apply, if_neg (by omega), wr8_apply, if_pos rfl]
  · intro i hi
    simp only [dot_entry, dirent_checksum_finalize]
    rw [wr8_apply, if_neg (by omega), wrBytes_apply, hl]
    by_cases h1 : i < dots + 1
    · rw [if_pos (by omega), show 5 + i - 5 = i by omega]
      by_cases h2 : i < dots
      · rw [if_pos h2, List.getD_append _ _ _ _ (by simpa using h2)]
        simp [List.getD_eq_getElem?_getD, List.getElem?_replicate, h2]
      · rw [if_neg h2, List.getD_append_right _ _ _ _ (by simp; omega)]
        have : i - (List.replicate dots 46).length = 0 := by simp; omega
        rw [this]; rfl
    · rw [if_neg (by omega), if_neg (by omega), wr8_apply, if_neg (by omega), wrLE_apply,
        if_neg (by omega)]
      rfl
  · simp only [dot_entry]
    apply dirent_checksum_finalize_sealed
    intro i hi
    simp only [Nat.zero_add]
    rw [wrBytes_apply]
    split
    · apply getD_lt_256
      intro b hb
      simp only [List.mem_append, List.mem_replicate, List.mem_singleton] at hb
      omega
    · rw [wr8_apply]
      split
      · norm_num
      · rw [wrLE_apply]
        split
        · exact Nat.mod_lt _ (by norm_num)
        · simp [zeroMem]

theorem rdLE_zero {m : Mem} {a n : Nat} (h : ∀ x, a ≤ x → x < a + n → m x = 0) :
    rdLE m a n = 0 := by
  have := rdLE_of_bytes (m := m) (a := a) (n := n) (v := 0)
    (fun k hk => by rw [h (a + k) (by omega) (by omega)]; simp)
  rw [this]; exact Nat.zero_mod _

/-- The regions of a freshly formatted image. -/
theorem build_image_regions (o : options_t) (t1 t2 : Nat) (adj : Mem)
    (h : parse_cli_ok o = true) :
    (∀ a, 116 ≤ a → a < 4096 → (build_image o t1 t2 adj).data a = 0) ∧
    (build_image o t1 t2 adj).data 4096 = 1 ∧ (build_image o t1 t2 adj).data 8192 = 1 ∧
    (∀ a, 4096 < a → a < 12288 → a ≠ 8192 → (build_image o t1 t2 adj).data a = 0) ∧
    (∀ i, i < 128 → (build_image o t1 t2 adj).data (12288 + i) = root_inode o t2 i) ∧
    (∀ a, 12288 + 128 ≤ a → a < 4096 * data_region_start o →
      (build_image o t1 t2 adj).data a = 0) ∧
    (∀ i, i < 64 → (build_image o t1 t2 adj).data (4096 * data_region_start o + i) =
      dot_entry 1 i) ∧
    (∀ i, i < 64 → (build_image o t1 t2 adj).data (4096 * data_region_start o + 64 + i) =
      dot_entry 2 i) ∧
    (∀ a, 4096 * data_region_start o + 128 ≤ a → (build_image o t1 t2 adj).data a = 0) := by
  obtain ⟨a1, a2, a3, a4, a5, a6, a7, a8, a9⟩ := layout_arith o h
  have hd := build_image_data o t1 t2 adj
  refine ⟨?_, ?_, ?_, ?_, ?_, ?_, ?_, ?_, ?_⟩
  · intro a h1 h2
    rw [hd a h, if_neg (by omega), if_neg (by omega), if_neg (by omega), if_neg (by omega),
      if_neg (by omega)]
  · rw [hd _ h, if_neg (by omega), if_pos (by omega)]
  · rw [hd _ h, if_neg (by omega), if_pos (by omega)]
  · intro a h1 h2 h3
    rw [hd a h, if_neg (by omega), if_neg (by omega), if_neg (by omega), if_neg (by omega),
      if_neg (by omega)]
  · intro i hi
    rw [hd _ h, if_neg (by omega), if_neg (by omega), if_pos (by omega)]
    exact congrArg _ (by omega)
  · intro a h1 h2
    rw [hd a h, if_neg (by omega), if_neg (by omega), if_neg (by omega), if_neg (by omega),
      if_neg (by omega)]
  · intro i hi
    rw [hd _ h, if_neg (by omega), if_neg (by omega), if_neg (by omega), if_pos (by omega)]
    exact congrArg _ (by omega)
  · intro i hi
    rw [hd _ h, if_neg (by omega), if_neg (by omega), if_neg (by omega), if_neg (by omega),
      if_pos (by omega)]
    exact congrArg _ (by omega)
  · intro a h1
    rw [hd a h, if_neg (by omega), if_neg (by omega), if_neg (by omega), if_neg (by omega),
      if_neg (by omega)]

theorem rdLE_of_shifted_upto {m w : Mem} {a L : Nat} (h : ∀ i, i < L → m (a + i) = w i)
    (c n : Nat) (hc : c + n ≤ L) : rdLE m (a + c) n = rdLE w c n := by
  rw [rdLE_shift]
  exact rdLE_congr (fun x h1 h2 => h x (by omega))

theorem bit_set_of_zero {m : Mem} {bm j : Nat} (h : m (bm + j / 8) = 0) : ¬ bit_set m bm j := by
  simp [bit_set, h]

/-- The bitmaps of a freshly formatted image: only bit 0 is set in each. -/
theorem build_image_bitmaps (o : options_t) (t1 t2 : Nat) (adj : Mem)
    (h : parse_cli_ok o = true) :
    bit_set (build_image o t1 t2 adj).data 4096 0 ∧ bit_set (build_image o t1 t2 adj).data 8192 0 ∧
    (∀ j, 1 ≤ j → j < 32768 → ¬ bit_set (build_image o t1 t2 adj).data 4096 j) ∧
    (∀ j, 1 ≤ j → j < 32768 → ¬ bit_set (build_image o t1 t2 adj).data 8192 j) := by
  obtain ⟨r1, r2, r3, r4, -⟩ := build_image_regions o t1 t2 adj h
  have one : ∀ j, 1 ≤ j → j < 8 → Nat.testBit 1 (j % 8) = false := by
    intro j h1 h2
    have : j % 8 = j := Nat.mod_eq_of_lt h2
    rw [this]
    interval_cases j <;> rfl
  refine ⟨?_, ?_, ?_, ?_⟩
  · simp only [bit_set]; rw [show 4096 + 0 / 8 = 4096 by norm_num, r2]; rfl
  · simp only [bit_set]; rw [show 8192 + 0 / 8 = 8192 by norm_num, r3]; rfl
  · intro j h1 h2
    by_cases hj : j < 8
    · simp only [bit_set]
      rw [show 4096 + j / 8 = 4096 by omega, r2, one j h1 hj]
      simp
    · exact bit_set_of_zero (r4 _ (by omega) (by omega) (by omega))
  · intro j h1 h2
    by_cases hj : j < 8
    · simp only [bit_set]
      rw [show 8192 + j / 8 = 8192 by omega, r3, one j h1 hj]
      simp
    · exact bit_set_of_zero (r4 _ (by omega) (by omega) (by omega))

/-- The root directory block of a freshly formatted image. -/
theorem build_image_rootdir (o : options_t) (t1 t2 : Nat) (adj : Mem)
    (h : parse_cli_ok o = true) :
    rdLE (build_image o t1 t2 adj).data (4096 * data_region_start o + 64 * 0) 4 = 1 ∧
    rdLE (build_image o t1 t2 adj).data (4096 * data_region_start o + 64 * 1) 4 = 1 ∧
    dirent_name (build_image o t1 t2 adj).data (4096 * data_region_start o + 64 * 0) = [46] ∧
    dirent_name (build_image o t1 t2 adj).data (4096 * data_region_start o + 64 * 1) = [46, 46] ∧
    (∀ s, 2 ≤ s → s < 64 →
      rdLE (build_image o t1 t2 adj).data (4096 * data_region_start o + 64 * s) 4 = 0) ∧
    dirent_sealed (build_image o t1 t2 adj).data (4096 * data_region_start o + 64 * 0) ∧
    dirent_sealed (build_image o t1 t2 adj).data (4096 * data_region_start o + 64 * 1) := by
  obtain ⟨-, -, -, -, -, -, r7, r8, r9⟩ := build_image_regions o t1 t2 adj h
  obtain ⟨d1, d2, d3, d4⟩ := dot_entry_fields 1
  obtain ⟨e1, e2, e3, e4⟩ := dot_entry_fields 2
  have name : ∀ (dots : Nat) (a : Nat), dots ≤ 57 →
      (∀ i, i < 64 → (build_image o t1 t2 adj).data (a + i) = dot_entry dots i) →
      dirent_name (build_image o t1 t2 adj).data a = List.replicate dots 46 := by
    intro dots a hd hb
    have e : rdBytes (build_image o t1 t2 adj).data (a + 5) 58 =
        (List.range 58).map (fun i => (List.replicate dots 46).getD i 0) := by
      simp only [rdBytes]
      apply List.map_congr_left
      intro i hi
      have hi' := List.mem_range.1 hi
      rw [show a + 5 + i = a + (5 + i) by omega, hb (5 + i) (by omega),
        (dot_entry_fields dots).2.2.1 i hi']
      simp only [List.getD_eq_getElem?_getD, List.getElem?_replicate]
      split <;> simp
    rw [dirent_name, e]
    exact takeWhile_getD_range _ _ (by simp; omega) (fun c hc => by
      simp only [List.mem_replicate] at hc; omega)
  refine ⟨?_, ?_, ?_, ?_, ?_, ?_, ?_⟩
  · have := rdLE_of_shifted_upto (fun i hi => by simpa using r7 i hi :
      ∀ i, i < 64 → (build_image o t1 t2 adj).data (4096 * data_region_start o + 64 * 0 + i) =
        dot_entry 1 i) 0 4 (by norm_num)
    simp only [Nat.mul_zero, Nat.add_zero] at this ⊢
    rw [this, d1]
  · have := rdLE_of_shifted_upto (fun i hi => by simpa [Nat.add_assoc] using r8 i hi :
      ∀ i, i < 64 → (build_image o t1 t2 adj).data (4096 * data_region_start o + 64 * 1 + i) =
        dot_entry 2 i) 0 4 (by norm_num)
    simp only [Nat.mul_one, Nat.add_zero] at this ⊢
    rw [this, e1]
  · exact name 1 _ (by norm_num) (fun i hi => by simpa using r7 i hi)
  · exact name 2 _ (by norm_num) (fun i hi => by simpa [Nat.add_assoc] using r8 i hi)
  · intro s h1 h2
    exact rdLE_zero (fun x g1 g2 => r9 x (by omega))
  · exact (dirent_sealed_congr (fun i hi => by simpa using r7 i hi)).2 d4
  · exact (dirent_sealed_congr (fun i hi => by simpa [Nat.add_assoc] using r8 i hi)).2 e4

/-- A freshly formatted image satisfies the format's invariant. -/
theorem build_image_formatted (o : options_t) (t1 t2 : Nat) (adj : Mem)
    (h : parse_cli_ok o = true) : Formatted o (build_image o t1 t2 adj) := by
  obtain ⟨b1, b2, b3, b4, b5, b6, b7, b8, b9, b10⟩ := build_image_superblock o t1 t2 adj h
  obtain ⟨r1, r2, r3, r4, r5, r6, r7, r8, r9⟩ := build_image_regions o t1 t2 adj h
  obtain ⟨f1, f2, f3, f4, f5, f6⟩ := root_inode_fields o t2 h
  obtain ⟨m1, m2, m3, m4⟩ := build_image_bitmaps o t1 t2 adj h
  obtain ⟨d1, d2, d3, d4, d5, d6, d7⟩ := build_image_rootdir o t1 t2 adj h
  have hvo := (parse_cli_ok_iff o).1 h
  constructor
  · exact h
  · simp only [build_image, image_of_blocks]
    rw [build_image_blocks_length o t1 t2 adj h]
  · exact b1
  · exact b2
  · exact b3
  · exact b4
  · exact b5
  · exact b6
  · exact b7
  · exact b9
  · exact b10
  · exact r1
  · rw [← f1]; exact rdLE_of_shifted r5 0 2 (by norm_num)
  · rw [← f4]; exact rdLE_of_shifted r5 44 4 (by norm_num)
  · exact m1
  · exact m2
  · intro i hi hb
    have hi0 : i = 0 := by
      by_contra hc
      exact m3 i (by omega) (by omega) hb
    subst hi0
    exact (inode_sealed_shift (fun i hi => by simpa using r5 i hi)).2 f6
  · intro s hs hne
    have hs01 : s = 0 ∨ s = 1 := by
      by_contra hc
      exact hne (d5 s (by omega) hs)
    rcases hs01 with rfl | rfl
    · exact d6
    · exact d7

theorem write_inode_sealed (m : Mem) (ino fsz now nd : Nat) (blocks : List Nat) :
    inode_sealed (write_inode m ino fsz now nd blocks) ino := by
  simp only [write_inode]
  exact inode_crc_finalize_sealed _ ino

set_option maxHeartbeats 1000000 in
/-- A successful insertion preserves the format's invariant. -/
theorem insert_effect_formatted {o : options_t} {inp out : Image} {src : source_file}
    {now fi s : Nat} {js : List Nat} (hF : Formatted o inp) (hv : valid_source src)
    (E : insert_effect o inp src now out fi js s) : Formatted o out := by
  obtain ⟨r1, r2, r3, r4⟩ := formatted_regions hF.opts_ok fi E.fi_lt
  have hvo := (parse_cli_ok_iff o).1 hF.opts_ok
  have jb : ∀ j ∈ js, 1 ≤ j ∧ data_region_start o + j < 1024 := fun j hj => by
    have := E.js_clear j hj; omega
  have hfi := E.fi_pos
  have hreg : 12288 + 128 * o.inodes ≤ 4096 * data_region_start o := by
    obtain ⟨a1, a2, a3, a4, a5, a6, a7, a8, a9⟩ := layout_arith o hF.opts_ok
    omega
  have hs := E.s_lt
  have fr := E.frame
  -- regions left alone
  have low : ∀ x, x < 100 → out.data x = inp.data x := fun x hx =>
    fr x (by omega) (by omega) (by omega) (fun j hj => by omega) (by omega) (by omega) (by omega)
      (by omega) (by omega) (fun j hj => by have := jb j hj; omega)
  have pad : ∀ x, 116 ≤ x → x < 4096 → out.data x = inp.data x := fun x h1 h2 =>
    fr x (by omega) (by omega) (by omega) (fun j hj => by omega) (by omega) (by omega) (by omega)
      (by omega) (by omega) (fun j hj => by have := jb j hj; omega)
  have rooti : ∀ x, 12288 ≤ x → x < 12288 + 128 → ¬(12288 + 2 ≤ x ∧ x < 12288 + 4) →
      ¬(12288 + 28 ≤ x ∧ x < 12288 + 36) → ¬(12288 + 120 ≤ x ∧ x < 12288 + 128) →
      out.data x = inp.data x := fun x h1 h2 h3 h4 h5 =>
    fr x (by omega) (by omega) (by omega) (fun j hj => by have := jb j hj; omega) h3 h4 h5
      (by omega) (by omega) (fun j hj => by have := jb j hj; omega)
  have inode : ∀ i, 1 ≤ i → i < o.inodes → i ≠ fi → ∀ k, k < 128 →
      out.data (12288 + 128 * i + k) = inp.data (12288 + 128 * i + k) := fun i h1 h2 h3 k hk =>
    fr _ (by omega) (by omega) (by omega) (fun j hj => by have := jb j hj; omega) (by omega)
      (by omega) (by omega)
      (by omega) (by omega) (fun j hj => by have := jb j hj; omega)
  have slot : ∀ s', s' < 64 → s' ≠ s → ∀ k, k < 64 →
      out.data (4096 * data_region_start o + 64 * s' + k) =
        inp.data (4096 * data_region_start o + 64 * s' + k) := fun s' h1 h2 k hk =>
    fr _ (by omega) (by omega) (by omega) (fun j hj => by have := jb j hj; omega) (by omega)
      (by omega) (by omega)
      (by omega) (by omega) (fun j hj => by have := jb j hj; omega)
  have sbf : ∀ c n, c + n ≤ 100 → rdLE out.data c n = rdLE inp.data c n := fun c n hc =>
    rdLE_congr (fun x h1 h2 => low x (by omega))
  constructor
  · exact hF.opts_ok
  · rw [E.size_eq]; exact hF.size_eq
  · rw [sbf 0 4 (by norm_num)]; exact hF.magic
  · rw [sbf 8 4 (by norm_num)]; exact hF.block_size
  · rw [sbf 12 8 (by norm_num)]; exact hF.total
  · rw [sbf 20 8 (by norm_num)]; exact hF.inode_count
  · rw [sbf 28 8 (by norm_num)]; exact hF.ibm_start
  · rw [sbf 44 8 (by norm_num)]; exact hF.dbm_start
  · rw [sbf 60 8 (by norm_num)]; exact hF.itab_start
  · rw [sbf 76 8 (by norm_num)]; exact hF.dr_start
  · rw [sbf 84 8 (by norm_num)]; exact hF.dr_blocks
  · intro a h1 h2; rw [pad a h1 h2]; exact hF.sb_pad a h1 h2
  · rw [rdLE_congr (fun x h1 h2 => rooti x (by omega) (by omega) (by omega) (by omega)
      (by omega) : ∀ x, 12288 ≤ x → x < 12288 + 2 → out.data x = inp.data x)]
    exact hF.root_mode
  · rw [rdLE_congr (fun x h1 h2 => rooti x (by omega) (by omega) (by omega) (by omega)
      (by omega) : ∀ x, 12288 + 44 ≤ x → x < 12288 + 44 + 4 → out.data x = inp.data x)]
    exact hF.root_direct0
  · exact (E.inode_bits 0 (by norm_num)).2 (Or.inr hF.ibit0)
  · exact (E.data_bits 0 (by norm_num)).2 (Or.inr hF.dbit0)
  · intro i hi hb
    by_cases h0 : i = 0
    · subst h0; exact E.root_sealed
    by_cases hf : i = fi
    · subst hf
      exact (inode_sealed_shift E.inode_rec).2 (write_inode_sealed _ 0 _ _ _ _)
    · have hb' : bit_set inp.data 4096 i := by
        rcases (E.inode_bits i (by omega)).1 hb with h | h
        · exact absurd h hf
        · exact h
      exact (inode_sealed_congr (inode i (by omega) hi hf)).2 (hF.inodes_sealed i hi hb')
  · intro s' hs' hne
    by_cases h0 : s' = s
    · subst h0
      refine (dirent_sealed_congr (b := 0) (fun i hi => ?_)).2
        (new_dirent_sealed fi (base_name src.path)
          (fun b hb => (hv.1 b (base_name_mem _ b hb)).2))
      rw [E.dirent_rec i hi, Nat.zero_add]
    · have e : rdLE out.data (4096 * data_region_start o + 64 * s') 4 =
          rdLE inp.data (4096 * data_region_start o + 64 * s') 4 :=
        rdLE_congr (fun x h1 h2 => by
          have := slot s' hs' h0 (x - (4096 * data_region_start o + 64 * s')) (by omega)
          rwa [show 4096 * data_region_start o + 64 * s' +
            (x - (4096 * data_region_start o + 64 * s')) = x by omega] at this)
      rw [e] at hne
      exact (dirent_sealed_congr (slot s' hs' h0)).2 (hF.dirents_sealed s' hs' hne)

/-- Every image obtained from the formatter by successful insertions is of the format. -/
theorem reachable_formatted {img : Image} (h : Reachable img) : ∃ o, Formatted o img := by
  induction h with
  | format o t1 t2 adj img hb =>
    simp only [mkfs_builder] at hb
    split at hb
    · injection hb with hb
      subst hb
      exact ⟨o, build_image_formatted o t1 t2 adj (by assumption)⟩
    · cases hb
  | insert img src now out _ hv ha ih =>
    obtain ⟨o, hF⟩ := ih
    obtain ⟨fi, js, s, E⟩ := mkfs_adder_effect hF hv ha
    exact ⟨o, insert_effect_formatted hF hv E⟩

/-- The fields of the record written by `write_inode`. -/
theorem write_inode_fields (fsz now nd : Nat) (blocks : List Nat) (hnd : nd ≤ 12) :
    rdLE (write_inode zeroMem 0 fsz now nd blocks) 0 2 = MODE_FILE ∧
    rdLE (write_inode zeroMem 0 fsz now nd blocks) 2 2 = 1 ∧
    rdLE (write_inode zeroMem 0 fsz now nd blocks) 12 8 = fsz % 2 ^ 64 ∧
    (∀ k, k < nd → rdLE (write_inode zeroMem 0 fsz now nd blocks) (44 + 4 * k) 4 =
      blocks.getD k 0 % 2 ^ 32) ∧
    (∀ k, nd ≤ k → k < 12 → rdLE (write_inode zeroMem 0 fsz now nd blocks) (44 + 4 * k) 4 = 0) := by
  have fr : ∀ c n, c + n ≤ 120 → rdLE (write_inode zeroMem 0 fsz now nd blocks) c n =
      rdLE (fill_direct 0 (fun i => blocks.getD i 0) nd (fill_direct 0 (fun _ => 0) 12
        (wrLE (wrLE (wrLE (wrLE (wrLE (wrLE (memset zeroMem 0 0 128) 0 2 MODE_FILE) (0 + 2) 2 1)
          (0 + 12) 8 fsz) (0 + 36) 8 now) (0 + 28) 8 now) (0 + 20) 8 now))) c n := by
    intro c n hc
    apply rdLE_congr
    intro x h1 h2
    simp only [write_inode, DIRECT_MAX, INODE_SIZE]
    rw [inode_crc_finalize_frame _ _ _ (by omega)]
  have fr2 : ∀ c n, c + n ≤ 44 → rdLE (write_inode zeroMem 0 fsz now nd blocks) c n =
      rdLE (wrLE (wrLE (wrLE (wrLE (wrLE (wrLE (memset zeroMem 0 0 128) 0 2 MODE_FILE) 2 2 1)
          12 8 fsz) 36 8 now) 28 8 now) 20 8 now) c n := by
    intro c n hc
    rw [fr c n (by omega)]
    apply rdLE_congr
    intro x h1 h2
    rw [fill_direct_frame _ _ _ _ _ (by omega), fill_direct_frame _ _ _ _ _ (by omega)]
  refine ⟨?_, ?_, ?_, ?_, ?_⟩
  · rw [fr2 0 2 (by norm_num)]
    simp (disch := omega) only [rdLE_wrLE_disj, rdLE_wrLE_same]
    norm_num
  · rw [fr2 2 2 (by norm_num)]
    simp (disch := omega) only [rdLE_wrLE_disj, rdLE_wrLE_same]
    norm_num
  · rw [fr2 12 8 (by norm_num)]
    simp (disch := omega) only [rdLE_wrLE_disj, rdLE_wrLE_same]
    norm_num
  · intro k hk
    rw [fr (44 + 4 * k) 4 (by omega)]
    have := fill_direct_rd 0 (fun i => blocks.getD i 0) nd (fill_direct 0 (fun _ => 0) 12
        (wrLE (wrLE (wrLE (wrLE (wrLE (wrLE (memset zeroMem 0 0 128) 0 2 MODE_FILE) (0 + 2) 2 1)
          (0 + 12) 8 fsz) (0 + 36) 8 now) (0 + 28) 8 now) (0 + 20) 8 now)) k hk
    rw [show 0 + 44 + 4 * k = 44 + 4 * k by omega] at this
    rw [this]
    norm_num
  · intro k hk1 hk2
    rw [fr (44 + 4 * k) 4 (by omega)]
    have e1 : rdLE (fill_direct 0 (fun i => blocks.getD i 0) nd (fill_direct 0 (fun _ => 0) 12
        (wrLE (wrLE (wrLE (wrLE (wrLE (wrLE (memset zeroMem 0 0 128) 0 2 MODE_FILE) (0 + 2) 2 1)
          (0 + 12) 8 fsz) (0 + 36) 8 now) (0 + 28) 8 now) (0 + 20) 8 now))) (44 + 4 * k) 4 =
        rdLE (fill_direct 0 (fun _ => 0) 12
        (wrLE (wrLE (wrLE (wrLE (wrLE (wrLE (memset zeroMem 0 0 128) 0 2 MODE_FILE) (0 + 2) 2 1)
          (0 + 12) 8 fsz) (0 + 36) 8 now) (0 + 28) 8 now) (0 + 20) 8 now)) (44 + 4 * k) 4 := by
      apply rdLE_congr
      intro x h1 h2
      rw [fill_direct_frame _ _ _ _ _ (by omega)]
    have e2 := fill_direct_rd 0 (fun _ => 0) 12
        (wrLE (wrLE (wrLE (wrLE (wrLE (wrLE (memset zeroMem 0 0 128) 0 2 MODE_FILE) (0 + 2) 2 1)
          (0 + 12) 8 fsz) (0 + 36) 8 now) (0 + 28) 8 now) (0 + 20) 8 now) k hk2
    rw [show 0 + 44 + 4 * k = 44 + 4 * k by omega] at e2
    rw [e1, e2]
    norm_num

/-- The data-block loop over a run of clear bits takes them one after the other. -/
theorem alloc_blocks_clear_run (bm nd drs drb : Nat) (hbm : 92 ≤ bm) :
    ∀ (r k i : Nat) (m : Mem) (blocks : List Nat),
      blocks.length + r = nd → r ≤ k → i + r ≤ drb →
      rdLE m 84 8 = drb → rdLE m 76 8 = drs →
      (∀ j, i ≤ j → j < i + r → ¬ bit_set m bm j) →
      (alloc_blocks bm nd k i m blocks).2 =
        blocks ++ (List.range' i r).map (fun j => (drs + j) % 2 ^ 64 % 2 ^ 32) := by
  intro r
  induction r with
  | zero =>
    intro k i m blocks h1 _ _ h84 _ _
    cases k with
    | zero => simp [alloc_blocks]
    | succ k =>
      rw [alloc_blocks, if_neg (by omega)]
      simp
  | succ r ih =>
    intro k i m blocks h1 h2 h3 h84 h76 hclr
    cases k with
    | zero => omega
    | succ k =>
      rw [alloc_blocks, if_pos ⟨by omega, by omega⟩,
        if_pos ((get_bit_eq_zero_iff _ _ _).2 (hclr i (le_refl _) (by omega)))]
      rw [ih k (i + 1) (set_bit m bm i) _ (by simp; omega) (by omega) (by omega)
        (by rw [rdLE_set_bit _ _ _ _ _ (by omega), h84])
        (by rw [rdLE_set_bit _ _ _ _ _ (by omega), h76])
        (fun j g1 g2 hb => by
          rcases (bit_set_set_bit _ _ _ _).1 hb with h | h
          · omega
          · exact hclr j (by omega) (by omega) h)]
      rw [h76]
      simp [List.range'_succ]

/-- The image after the copy loop, for an image of the format with enough free blocks. -/
theorem formatted_copy_stage {o : options_t} {inp : Image} (hF : Formatted o inp)
    (src : source_file) (hv : valid_source src)
    (hblk : need src ≤ (alloc_stage inp.data src).2.length) :
    ∃ (js : List Nat) (m2 : Mem), copy_stage inp.data src = .ok m2 ∧
      (alloc_stage inp.data src).2 = js.map (fun j => data_region_start o + j) ∧
      (∀ j ∈ js, 1 ≤ j ∧ j < data_region_blocks o) ∧
      (∀ x, (∀ j ∈ js, x ≠ 8192 + j / 8) →
        (∀ j ∈ js, ¬(4096 * (data_region_start o + j) ≤ x ∧
          x < 4096 * (data_region_start o + j) + 4096)) → m2 x = inp.data x) := by
  obtain ⟨js, e1, e2, e3, e4, e5, e6, e7⟩ := formatted_alloc hF src
  have hlen : js.length = need src := by
    rw [e1, List.length_map] at hblk
    omega
  have hb : ∀ j ∈ js, data_region_start o + j < 2 ^ 32 := by
    intro j hj
    have := (e4 j hj).2.1
    have a := layout_arith o hF.opts_ok
    omega
  obtain ⟨m2, g1, g2, g3⟩ :=
    copy_blocks_sorted src (data_region_start o) js (alloc_stage inp.data src).1 hv.2.2 e2 hlen hb
  refine ⟨js, m2, ?_, e1, fun j hj => ⟨(e4 j hj).1, (e4 j hj).2.1⟩, ?_⟩
  · rw [copy_stage, if_neg (by omega)]
    generalize alloc_stage inp.data src = A at e1 g1
    obtain ⟨A1, A2⟩ := A
    simp only at e1 g1 ⊢
    subst e1
    exact g1
  · intro x h1 h2
    rw [g2 x h2, e5 x h1]

set_option maxHeartbeats 1000000 in
/-- Sufficient conditions for an insertion into an image of the format to succeed. -/
theorem mkfs_adder_succeeds {o : options_t} {inp : Image} (hF : Formatted o inp)
    (src : source_file) (now : Nat) (hv : valid_source src)
    (hreg : src.st_mode &&& S_IFREG ≠ 0) (hneed : need src ≤ 12)
    (hname : 1 ≤ (base_name src.path).length ∧ (base_name src.path).length ≤ 58)
    (hnew : ∀ s', s' < 64 → rdLE inp.data (4096 * data_region_start o + 64 * s') 4 ≠ 0 →
      dirent_name inp.data (4096 * data_region_start o + 64 * s') ≠ base_name src.path)
    (hino : ∃ i, i < o.inodes ∧ ¬ bit_set inp.data 4096 i)
    (hblk : need src ≤ (alloc_stage inp.data src).2.length)
    (hslot : ∃ s, s < 64 ∧ rdLE inp.data (4096 * data_region_start o + 64 * s) 4 = 0) :
    ∃ out, mkfs_adder inp src now = .ok out := by
  cases hres : mkfs_adder inp src now with
  | ok out => exact ⟨out, rfl⟩
  | error e =>
    exfalso
    obtain ⟨o1, o2, o3, o4, o5⟩ := formatted_offsets hF
    obtain ⟨a1, a2, a3, a4, a5, a6, a7, a8, a9⟩ := layout_arith o hF.opts_ok
    have hvo := (parse_cli_ok_iff o).1 hF.opts_ok
    have hnz : ∀ c ∈ base_name src.path, c ≠ 0 := fun c hc => by
      have := hv.1 c (base_name_mem _ c hc); omega
    have slotc : ∀ t, 4096 * data_region_start o + t * 64 = 4096 * data_region_start o + 64 * t :=
      fun t => by omega
    have H := mkfs_adder_error_elim hres
    clear hres
    rcases H with ⟨-, h⟩ | ⟨-, H⟩
    · rw [hF.size_eq] at h; simp only [BS] at h; omega
    rcases H with ⟨-, h⟩ | ⟨-, H⟩
    · rw [hF.size_eq] at h; simp only [BS] at h; omega
    rcases H with ⟨-, h⟩ | ⟨-, H⟩
    · exact h hF.magic
    rcases H with ⟨-, h⟩ | ⟨-, H⟩
    · exact h hF.block_size
    rcases H with ⟨-, h⟩ | ⟨-, H⟩
    · exact hreg h
    rcases H with ⟨-, h⟩ | ⟨-, H⟩
    · simp only [DIRECT_MAX] at h; omega
    rcases H with ⟨-, h⟩ | ⟨-, H⟩
    · omega
    rcases H with ⟨-, h⟩ | ⟨-, H⟩
    · rw [o4] at h; exact h hF.root_mode
    rcases H with ⟨-, h⟩ | ⟨-, H⟩
    · rw [o4, hF.root_direct0] at h; omega
    rcases H with ⟨-, h⟩ | ⟨-, H⟩
    · rw [o5] at h
      obtain ⟨s', s1, s2, s3, s4⟩ := (dup_scan_iff _ _ src hname.2 hnz _ _).1 h
      rw [slotc] at s3 s4
      exact hnew s' (by simp only [BS] at s2; omega) s3 s4
    rcases H with ⟨-, h⟩ | ⟨i, hi, hi0, H⟩
    · obtain ⟨i, i1, i2⟩ := hino
      cases hsc : inode_scan inp.data (inode_bm_off inp.data) (rdLE inp.data 20 8) 0 with
      | none =>
        rw [o1, hF.inode_count] at hsc
        exact i2 ((inode_scan_none_iff _ _ _ _).1 hsc i (Nat.zero_le _) (by omega))
      | some k =>
        have := h k hsc
        obtain ⟨⟨k1, -, -⟩, k2, -⟩ := formatted_inode_scan hF hsc
        rw [to_int32_of_lt (by omega)] at this
        omega
    obtain ⟨hi1, hfi, hi2⟩ := formatted_inode_scan hF hi
    obtain ⟨js, m2, c1, c2, c3, c4⟩ := formatted_copy_stage hF src hv hblk
    rcases H with ⟨-, h⟩ | ⟨-, h⟩ | ⟨-, m2', h1, h2⟩
    · omega
    · rw [c1] at h; cases h
    · rw [c1] at h1
      injection h1 with h1
      subst h1
      rw [hfi, o5, inode_stage, o1, o3, c2] at h2
      obtain ⟨s, s1, s2⟩ := hslot
      have hn := (place_dirent_none_iff _ _ _ _ _).1 h2 s (Nat.zero_le _)
        (by simp only [BS]; omega)
      apply hn
      rw [slotc, ← s2]
      apply rdLE_congr
      intro x x1 x2
      have hino' : 12288 + i * INODE_SIZE = 12288 + 128 * i := by simp only [INODE_SIZE]; omega
      rw [hino', set_bit_frame _ _ _ _ (by omega),
        write_inode_frame _ _ _ _ _ _ _ hneed (by omega)]
      exact c4 x (fun j hj => by have := c3 j hj; omega) (fun j hj => by have := c3 j hj; omega)

/-- The blocks the data-block loop takes in a freshly formatted image. -/
theorem fresh_alloc (o : options_t) (t1 t2 : Nat) (adj : Mem) (h : parse_cli_ok o = true)
    (src : source_file) (hneed : need src ≤ 12) :
    (alloc_stage (build_image o t1 t2 adj).data src).2 =
      (List.range' 1 (need src)).map (fun j => data_region_start o + j) := by
  have hF := build_image_formatted o t1 t2 adj h
  obtain ⟨a1, a2, a3, a4, a5, a6, a7, a8, a9⟩ := layout_arith o h
  obtain ⟨m1, m2, m3, m4⟩ := build_image_bitmaps o t1 t2 adj h
  rw [alloc_stage, (formatted_offsets hF).2.1]
  have hrun := alloc_blocks_clear_run 8192 (need src) (data_region_start o)
    (data_region_blocks o) (by norm_num) (need src) (2 ^ 64 - 1) 1 (build_image o t1 t2 adj).data []
    (by simp) (by omega) (by omega) hF.dr_blocks hF.dr_start
    (fun j g1 g2 => m4 j g1 (by omega))
  have hmap : (List.range' 1 (need src)).map (fun j => (data_region_start o + j) % 2 ^ 64 % 2 ^ 32) =
      (List.range' 1 (need src)).map (fun j => data_region_start o + j) := by
    apply List.map_congr_left
    intro j hj
    have := List.mem_range'.1 hj
    show (data_region_start o + j) % 2 ^ 64 % 2 ^ 32 = data_region_start o + j
    omega
  rw [hmap, List.nil_append] at hrun
  rw [show (2 : ℕ) ^ 64 = (2 ^ 64 - 1) + 1 by norm_num, alloc_blocks]
  by_cases hc : 0 < rdLE (build_image o t1 t2 adj).data 84 8 ∧ ([] : List Nat).length < need src
  · rw [if_pos hc, if_neg (fun hz => (get_bit_eq_zero_iff _ _ _).1 hz m2)]
    exact hrun
  · rw [if_neg hc]
    have h0 : need src = 0 := by
      rw [hF.dr_blocks] at hc
      simp only [List.length_nil] at hc
      omega
    rw [h0]; rfl

set_option maxHeartbeats 1000000 in
/-- Inserting a file into a freshly formatted image succeeds; it takes inode index 1,
the data-bitmap indices 1..need and root slot 2. -/
theorem fresh_insert (o : options_t) (t1 t2 : Nat) (adj : Mem) (h : parse_cli_ok o = true)
    (src : source_file) (now : Nat) (hv : valid_source src)
    (hreg : src.st_mode &&& S_IFREG ≠ 0) (hS : src.content.length ≤ 12 * 4096)
    (hname : 1 ≤ (base_name src.path).length ∧ (base_name src.path).length ≤ 58)
    (hdot : base_name src.path ≠ [46] ∧ base_name src.path ≠ [46, 46]) :
    ∃ out, mkfs_adder (build_image o t1 t2 adj) src now = .ok out ∧
      insert_effect o (build_image o t1 t2 adj) src now out 1 (List.range' 1 (need src)) 2 := by
  have hF := build_image_formatted o t1 t2 adj h
  obtain ⟨a1, a2, a3, a4, a5, a6, a7, a8, a9⟩ := layout_arith o h
  have hvo := (parse_cli_ok_iff o).1 h
  obtain ⟨m1, m2, m3, m4⟩ := build_image_bitmaps o t1 t2 adj h
  obtain ⟨d1, d2, d3, d4, d5, d6, d7⟩ := build_image_rootdir o t1 t2 adj h
  have hneed : need src ≤ 12 := by rw [need_eq src hv.2.2]; omega
  have halloc := fresh_alloc o t1 t2 adj h src hneed
  have hnew : ∀ s', s' < 64 →
      rdLE (build_image o t1 t2 adj).data (4096 * data_region_start o + 64 * s') 4 ≠ 0 →
      dirent_name (build_image o t1 t2 adj).data (4096 * data_region_start o + 64 * s') ≠
        base_name src.path := by
    intro s' hs' hne
    have hs01 : s' = 0 ∨ s' = 1 := by
      by_contra hc
      exact hne (d5 s' (by omega) hs')
    rcases hs01 with rfl | rfl
    · rw [d3]; exact fun he => hdot.1 he.symm
    · rw [d4]; exact fun he => hdot.2 he.symm
  obtain ⟨out, hok⟩ := mkfs_adder_succeeds hF src now hv hreg hneed hname hnew
    ⟨1, by omega, m3 1 (le_refl _) (by norm_num)⟩
    (by rw [halloc]; simp)
    ⟨2, by norm_num, d5 2 (le_refl _) (by norm_num)⟩
  obtain ⟨fi, js, s, E⟩ := mkfs_adder_effect hF hv hok
  have hfi : fi = 1 := by
    have := E.fi_pos
    by_contra hc
    exact m3 1 (le_refl _) (by norm_num) (E.fi_least 1 (by omega))
  have hjs : js = List.range' 1 (need src) := by
    have := E.blocks_eq
    rw [halloc] at this
    exact (List.map_injective_iff.2 (fun a b hab => by
      have hab' : data_region_start o + a = data_region_start o + b := hab
      omega) this).symm
  have hs : s = 2 := by
    have g1 := E.s_free
    have g2 := E.s_least
    have g3 := E.s_lt
    by_contra hc
    by_cases hlt : s < 2
    · have : s = 0 ∨ s = 1 := by omega
      rcases this with h0 | h0
      · rw [h0, d1] at g1; omega
      · rw [h0, d2] at g1; omega
    · exact g2 2 (by omega) (d5 2 (le_refl _) (by norm_num))
  subst hfi hjs hs
  exact ⟨out, hok, E⟩

theorem hello_src_facts :
    valid_source hello_src ∧ hello_src.st_mode &&& S_IFREG ≠ 0 ∧
    hello_src.content.length = 5000 ∧
    base_name hello_src.path = [104, 101, 108, 108, 111, 46, 116, 120, 116] := by
  refine ⟨⟨by decide, ?_, ?_⟩, by decide, ?_, by decide⟩
  · intro b hb
    simp only [hello_src, List.mem_replicate] at hb
    omega
  · simp only [hello_src, List.length_replicate]; norm_num
  · simp only [hello_src, List.length_replicate]

theorem sample_image_facts :
    parse_cli_ok ⟨180, 128⟩ = true ∧
    mkfs_builder ⟨180, 128⟩ 0 0 zeroMem = some sample_image ∧
    data_region_start ⟨180, 128⟩ = 7 ∧ data_region_blocks ⟨180, 128⟩ = 38 ∧
    Formatted ⟨180, 128⟩ sample_image ∧ Reachable sample_image := by
  have h : parse_cli_ok ⟨180, 128⟩ = true := by decide
  have hb : mkfs_builder ⟨180, 128⟩ 0 0 zeroMem = some sample_image := by
    simp only [mkfs_builder, h, if_true, sample_image]
  exact ⟨h, hb, by decide, by decide, build_image_formatted _ _ _ _ h,
    Reachable.format _ _ _ _ _ hb⟩

/-- C2: inserting into a freshly formatted image a regular file of S bytes, S at most
12*4096, whose base name has 1..58 bytes and is neither "." nor "..", succeeds; it
assigns inode number 2 (bit 1 of the inode bitmap, the number stored in the new root
entry) and writes at index 1 of the inode table a record with mode = file, links = 1,
size_bytes = S, direct[k] = data_region_start + 1 + k (non-zero, increasing) for
k < ceil(S/4096) and direct[k] = 0 for the remaining k < 12. -/
theorem C2_insert_into_fresh_image (size_kib inode_count t_sb t_root : Nat) (adj : Mem)
    (src : source_file) (now : Nat)
    (hs : 180 ≤ size_kib ∧ size_kib ≤ 4096 ∧ size_kib % 4 = 0)
    (hi : 128 ≤ inode_count ∧ inode_count ≤ 512)
    (hv : valid_source src) (hreg : src.st_mode &&& S_IFREG ≠ 0)
    (hS : src.content.length ≤ 12 * 4096)
    (hname : 1 ≤ (base_name src.path).length ∧ (base_name src.path).length ≤ 58)
    (hdot : base_name src.path ≠ [46] ∧ base_name src.path ≠ [46, 46]) :
    ∃ img out, mkfs_builder ⟨size_kib, inode_count⟩ t_sb t_root adj = some img ∧
      mkfs_adder img src now = .ok out ∧
      ¬ bit_set img.data 4096 1 ∧ bit_set out.data 4096 1 ∧
      rdLE out.data (4096 * rdLE img.data 76 8 + 64 * 2) 4 = 2 ∧
      rdLE out.data (12288 + 128) 2 = MODE_FILE ∧
      rdLE out.data (12288 + 128 + 2) 2 = 1 ∧
      rdLE out.data (12288 + 128 + 12) 8 = src.content.length ∧
      (∀ k, k < ⌈((src.content.length : ℕ) : ℚ) / 4096⌉₊ →
        rdLE out.data (12288 + 128 + 44 + 4 * k) 4 = rdLE img.data 76 8 + 1 + k) ∧
      (∀ k, ⌈((src.content.length : ℕ) : ℚ) / 4096⌉₊ ≤ k → k < 12 →
        rdLE out.data (12288 + 128 + 44 + 4 * k) 4 = 0) := by
  have hok : parse_cli_ok ⟨size_kib, inode_count⟩ = true := (parse_cli_ok_iff _).2 ⟨hs, hi⟩
  obtain ⟨out, hout, E⟩ := fresh_insert ⟨size_kib, inode_count⟩ t_sb t_root adj hok src now hv hreg
    hS hname hdot
  have hF := build_image_formatted ⟨size_kib, inode_count⟩ t_sb t_root adj hok
  obtain ⟨a1, a2, a3, a4, a5, a6, a7, a8, a9⟩ := layout_arith _ hok
  have hneed : need src = (src.content.length + 4095) / 4096 := need_eq src hv.2.2
  have hnd : need src ≤ 12 := by rw [hneed]; omega
  have hfs : fsize src = src.content.length := Nat.mod_eq_of_lt (by have := hv.2.2; omega)
  obtain ⟨w1, w2, w3, w4, w5⟩ := write_inode_fields (fsize src) now (need src)
    ((List.range' 1 (need src)).map
      (fun j => data_region_start ⟨size_kib, inode_count⟩ + j)) hnd
  have rec := E.inode_rec
  have rd : ∀ c n, c + n ≤ 128 → rdLE out.data (12288 + 128 + c) n =
      rdLE (write_inode zeroMem 0 (fsize src) now (need src)
        ((List.range' 1 (need src)).map
          (fun j => data_region_start ⟨size_kib, inode_count⟩ + j))) c n := fun c n hc =>
    rdLE_of_shifted (fun i hi => by simpa using rec i hi) c n hc
  refine ⟨_, out, by simp [mkfs_builder, hok], hout, E.fi_clear,
    (E.inode_bits 1 (by norm_num)).2 (Or.inl rfl), ?_, ?_, ?_, ?_, ?_, ?_⟩
  · rw [hF.dr_start]
    have := rdLE_of_shifted_upto E.dirent_rec 0 4 (by norm_num)
    rw [Nat.add_zero] at this
    rw [this, new_dirent_inode_no]
    norm_num
  · have := rd 0 2 (by norm_num)
    rw [Nat.add_zero] at this
    rw [this, w1]
  · rw [rd 2 2 (by norm_num), w2]
  · rw [rd 12 8 (by norm_num), w3, hfs]
    exact Nat.mod_eq_of_lt (by have := hv.2.2; omega)
  · intro k hk
    rw [ceil_div_4096, ← hneed] at hk
    rw [show 12288 + 128 + 44 + 4 * k = 12288 + 128 + (44 + 4 * k) by omega,
      rd (44 + 4 * k) 4 (by omega), w4 k hk, hF.dr_start,
      List.getD_eq_getElem _ _ (by simp; omega)]
    simp only [List.getElem_map, List.getElem_range']
    rw [Nat.mod_eq_of_lt (by omega)]
    omega
  · intro k hk1 hk2
    rw [ceil_div_4096, ← hneed] at hk1
    rw [show 12288 + 128 + 44 + 4 * k = 12288 + 128 + (44 + 4 * k) by omega,
      rd (44 + 4 * k) 4 (by omega), w5 k hk1 hk2]

/-- C2 at S = 5000 (`hello.txt` into the 180 KiB / 128 inode image): inode 2 and the
two data blocks 8 and 9. -/
theorem C2_insert_into_fresh_image_witness :
    ∃ img out, mkfs_builder ⟨180, 128⟩ 0 0 zeroMem = some img ∧
      mkfs_adder img hello_src 0 = .ok out ∧
      bit_set out.data 4096 1 ∧
      rdLE out.data (4096 * 7 + 64 * 2) 4 = 2 ∧
      rdLE out.data (12288 + 128 + 12) 8 = 5000 ∧
      rdLE out.data (12288 + 128 + 44) 4 = 8 ∧
      rdLE out.data (12288 + 128 + 48) 4 = 9 ∧
      rdLE out.data (12288 + 128 + 52) 4 = 0 := by
  obtain ⟨hv, hreg, hlen, hbase⟩ := hello_src_facts
  obtain ⟨hok, hb, hdrs, -, hF, -⟩ := sample_image_facts
  obtain ⟨img, out, h1, h2, -, h4, h5, -, -, h8, h9, h10⟩ :=
    C2_insert_into_fresh_image 180 128 0 0 zeroMem hello_src 0 (by decide) (by decide) hv hreg
      (by rw [hlen]; norm_num) (by rw [hbase]; decide) (by rw [hbase]; decide)
  have himg : img = sample_image := by
    rw [hb] at h1; injection h1 with h1; exact h1.symm
  subst himg
  have hd : rdLE sample_image.data 76 8 = 7 := by rw [hF.dr_start, hdrs]
  rw [hd] at h5 h9
  have hc : ⌈((hello_src.content.length : ℕ) : ℚ) / 4096⌉₊ = 2 := by
    rw [ceil_div_4096, hlen]
  rw [hc] at h9 h10
  rw [hlen] at h8
  exact ⟨_, out, hb, h2, h4, h5, h8, by simpa using h9 0 (by norm_num),
    by simpa using h9 1 (by norm_num), by simpa using h10 2 (by norm_num) (by norm_num)⟩

theorem rdBytes_length (m : Mem) (a n : Nat) : (rdBytes m a n).length = n := by
  simp [rdBytes]

theorem rdBytes_getD (m : Mem) (a n i : Nat) (h : i < n) : (rdBytes m a n).getD i 0 = m (a + i) := by
  rw [List.getD_eq_getElem _ _ (by rw [rdBytes_length]; exact h)]
  simp [rdBytes]

/-- The direct pointers of the inode written by an insertion. -/
theorem insert_effect_direct {o : options_t} {inp out : Image} {src : source_file}
    {now fi s : Nat} {js : List Nat} (hF : Formatted o inp) (hv : valid_source src)
    (hnd : need src ≤ 12) (E : insert_effect o inp src now out fi js s) :
    rdLE out.data (12288 + 128 * fi) 2 = MODE_FILE ∧
    rdLE out.data (12288 + 128 * fi + 2) 2 = 1 ∧
    rdLE out.data (12288 + 128 * fi + 12) 8 = src.content.length ∧
    (∀ k, k < need src → rdLE out.data (12288 + 128 * fi + 44 + 4 * k) 4 =
      data_region_start o + js.getD k 0) ∧
    (∀ k, need src ≤ k → k < 12 → rdLE out.data (12288 + 128 * fi + 44 + 4 * k) 4 = 0) := by
  obtain ⟨a1, a2, a3, a4, a5, a6, a7, a8, a9⟩ := layout_arith o hF.opts_ok
  have hfs : fsize src = src.content.length := Nat.mod_eq_of_lt (by have := hv.2.2; omega)
  obtain ⟨w1, w2, w3, w4, w5⟩ := write_inode_fields (fsize src) now (need src)
    (js.map (fun j => data_region_start o + j)) hnd
  have rd : ∀ c n, c + n ≤ 128 → rdLE out.data (12288 + 128 * fi + c) n =
      rdLE (write_inode zeroMem 0 (fsize src) now (need src)
        (js.map (fun j => data_region_start o + j))) c n := fun c n hc =>
    rdLE_of_shifted E.inode_rec c n hc
  refine ⟨?_, ?_, ?_, ?_, ?_⟩
  · have := rd 0 2 (by norm_num)
    rw [Nat.add_zero] at this
    rw [this, w1]
  · rw [rd 2 2 (by norm_num), w2]
  · rw [rd 12 8 (by norm_num), w3, hfs]
    exact Nat.mod_eq_of_lt (by have := hv.2.2; omega)
  · intro k hk
    have hl := E.js_length
    have hm := E.js_clear _ (getD_mem js k (by omega))
    rw [show 12288 + 128 * fi + 44 + 4 * k = 12288 + 128 * fi + (44 + 4 * k) by omega,
      rd (44 + 4 * k) 4 (by omega), w4 k hk, getD_map_add js _ k (by omega)]
    exact Nat.mod_eq_of_lt (by omega)
  · intro k hk1 hk2
    rw [show 12288 + 128 * fi + 44 + 4 * k = 12288 + 128 * fi + (44 + 4 * k) by omega,
      rd (44 + 4 * k) 4 (by omega), w5 k hk1 hk2]

/-- The root inode's link count in a freshly formatted image. -/
theorem build_image_root_links (o : options_t) (t1 t2 : Nat) (adj : Mem)
    (h : parse_cli_ok o = true) : rdLE (build_image o t1 t2 adj).data (12288 + 2) 2 = 2 := by
  obtain ⟨-, -, -, -, r5, -⟩ := build_image_regions o t1 t2 adj h
  rw [rdLE_of_shifted r5 2 2 (by norm_num)]
  exact (root_inode_fields o t2 h).2.1

/-- C4: a successful insertion into a freshly formatted image finds slot 2 as the first
root-directory slot whose inode_no is 0 and puts there a 64-byte entry with inode_no
equal to the newly assigned inode number (2, the inode whose bitmap bit 1 gets set),
type = 1 (file) and the base name NUL-padded to 58 bytes; the root inode's links field
goes from 2 to 3. -/
theorem C4_root_entry_and_links (size_kib inode_count t_sb t_root : Nat) (adj : Mem)
    (src : source_file) (now : Nat)
    (hs : 180 ≤ size_kib ∧ size_kib ≤ 4096 ∧ size_kib % 4 = 0)
    (hi : 128 ≤ inode_count ∧ inode_count ≤ 512)
    (hv : valid_source src) (hreg : src.st_mode &&& S_IFREG ≠ 0)
    (hS : src.content.length ≤ 12 * 4096)
    (hname : 1 ≤ (base_name src.path).length ∧ (base_name src.path).length ≤ 58)
    (hdot : base_name src.path ≠ [46] ∧ base_name src.path ≠ [46, 46]) :
    ∃ img out, mkfs_builder ⟨size_kib, inode_count⟩ t_sb t_root adj = some img ∧
      mkfs_adder img src now = .ok out ∧
      rdLE img.data (4096 * rdLE img.data 76 8 + 64 * 0) 4 ≠ 0 ∧
      rdLE img.data (4096 * rdLE img.data 76 8 + 64 * 1) 4 ≠ 0 ∧
      rdLE img.data (4096 * rdLE img.data 76 8 + 64 * 2) 4 = 0 ∧
      ¬ bit_set img.data 4096 1 ∧ bit_set out.data 4096 1 ∧
      rdLE out.data (4096 * rdLE img.data 76 8 + 64 * 2) 4 = 1 + 1 ∧
      out.data (4096 * rdLE img.data 76 8 + 64 * 2 + 4) = 1 ∧
      (∀ i, i < 58 → out.data (4096 * rdLE img.data 76 8 + 64 * 2 + 5 + i) =
        (base_name src.path).getD i 0) ∧
      dirent_sealed out.data (4096 * rdLE img.data 76 8 + 64 * 2) ∧
      rdLE img.data (12288 + 2) 2 = 2 ∧ rdLE out.data (12288 + 2) 2 = 3 := by
  have hok : parse_cli_ok ⟨size_kib, inode_count⟩ = true := (parse_cli_ok_iff _).2 ⟨hs, hi⟩
  obtain ⟨out, hout, E⟩ := fresh_insert ⟨size_kib, inode_count⟩ t_sb t_root adj hok src now hv hreg
    hS hname hdot
  have hF := build_image_formatted ⟨size_kib, inode_count⟩ t_sb t_root adj hok
  obtain ⟨d1, d2, -, -, d5, -, -⟩ := build_image_rootdir ⟨size_kib, inode_count⟩ t_sb t_root adj hok
  have hl := build_image_root_links ⟨size_kib, inode_count⟩ t_sb t_root adj hok
  have rec := E.dirent_rec
  refine ⟨_, out, by simp [mkfs_builder, hok], hout, ?_, ?_, ?_, E.fi_clear,
    (E.inode_bits 1 (by norm_num)).2 (Or.inl rfl), ?_, ?_, ?_, ?_, hl, ?_⟩
  · rw [hF.dr_start, d1]; norm_num
  · rw [hF.dr_start, d2]; norm_num
  · rw [hF.dr_start]; exact d5 2 (le_refl _) (by norm_num)
  · rw [hF.dr_start]
    have := rdLE_of_shifted_upto rec 0 4 (by norm_num)
    rw [Nat.add_zero] at this
    rw [this, new_dirent_inode_no]
    norm_num
  · rw [hF.dr_start, rec 4 (by norm_num), new_dirent_type]
  · intro i hi'
    rw [hF.dr_start, show 4096 * data_region_start ⟨size_kib, inode_count⟩ + 64 * 2 + 5 + i =
      4096 * data_region_start ⟨size_kib, inode_count⟩ + 64 * 2 + (5 + i) by omega,
      rec (5 + i) (by omega), new_dirent_name _ _ _ hi']
  · rw [hF.dr_start]
    refine (dirent_sealed_congr (b := 0) (fun i hi' => ?_)).2
      (new_dirent_sealed 1 (base_name src.path)
        (fun b hb => (hv.1 b (base_name_mem _ b hb)).2))
    rw [rec i hi', Nat.zero_add]
  · rw [E.root_links, hl]
    norm_num

/-- C4 on `hello.txt` inserted into the sample image: the entry lands in slot 2 of
block 7 and the root's links become 3. -/
theorem C4_root_entry_and_links_witness :
    ∃ img out, mkfs_builder ⟨180, 128⟩ 0 0 zeroMem = some img ∧
      mkfs_adder img hello_src 0 = .ok out ∧
      rdLE out.data (4096 * 7 + 64 * 2) 4 = 2 ∧ out.data (4096 * 7 + 64 * 2 + 4) = 1 ∧
      out.data (4096 * 7 + 64 * 2 + 5) = 104 ∧ out.data (4096 * 7 + 64 * 2 + 5 + 9) = 0 ∧
      rdLE out.data (12288 + 2) 2 = 3 := by
  obtain ⟨hv, hreg, hlen, hbase⟩ := hello_src_facts
  obtain ⟨hok, hb, hdrs, -, hF, -⟩ := sample_image_facts
  obtain ⟨img, out, h1, h2, -, -, -, -, -, h8, h9, h10, -, -, h13⟩ :=
    C4_root_entry_and_links 180 128 0 0 zeroMem hello_src 0 (by decide) (by decide) hv hreg
      (by rw [hlen]; norm_num) (by rw [hbase]; decide) (by rw [hbase]; decide)
  have himg : img = sample_image := by
    rw [hb] at h1; injection h1 with h1; exact h1.symm
  subst himg
  have hd : rdLE sample_image.data 76 8 = 7 := by rw [hF.dr_start, hdrs]
  rw [hd] at h8 h9 h10
  rw [hbase] at h10
  exact ⟨_, out, hb, h2, h8, h9, by simpa using h10 0 (by norm_num),
    by simpa using h10 9 (by norm_num), h13⟩

/-- C7: after every successful insertion into an image obtained from the formatter by
successful insertions, the superblock checksum stored in the output equals crc32 of the
first 4092 bytes of the output's block 0 with the checksum field (bytes 112..115) taken
as zero. -/
theorem C7_superblock_resealed (img out : Image) (src : source_file) (now : Nat)
    (hr : Reachable img) (hv : valid_source src) (h : mkfs_adder img src now = .ok out) :
    rdLE out.data 112 4 =
      crc32 (fun i => if 112 ≤ i ∧ i < 116 then 0 else out.data i) (BS - 4) := by
  obtain ⟨o, hF⟩ := reachable_formatted hr
  obtain ⟨fi, js, s, E⟩ := mkfs_adder_effect hF hv h
  exact E.sb_sealed

/-- C7 on `hello.txt` inserted into the sample image. -/
theorem C7_superblock_resealed_witness :
    ∃ out, mkfs_adder sample_image hello_src 0 = .ok out ∧
      rdLE out.data 112 4 =
        crc32 (fun i => if 112 ≤ i ∧ i < 116 then 0 else out.data i) (BS - 4) := by
  obtain ⟨hv, hreg, hlen, hbase⟩ := hello_src_facts
  obtain ⟨hok, hb, hdrs, -, hF, hR⟩ := sample_image_facts
  obtain ⟨out, hout, -⟩ := fresh_insert ⟨180, 128⟩ 0 0 zeroMem hok hello_src 0 hv hreg
    (by rw [hlen]; norm_num) (by rw [hbase]; decide) (by rw [hbase]; decide)
  exact ⟨out, hout, C7_superblock_resealed sample_image out hello_src 0 hR hv hout⟩

/-- C6: in every image obtained from the formatter by zero or more successful
insertions (the formatter's output and the output of every such insertion), every
inode record whose inode-bitmap bit is set has its 64-bit inode_crc field equal to the
crc32 of the record's first 120 bytes, and every root-directory entry with a non-zero
inode_no has byte 63 equal to the XOR of its bytes 0..62.  The bitmap, the inode table
and the root block are located through the superblock fields. -/
theorem C6_records_sealed (img : Image) (hr : Reachable img) :
    (∀ i, i < rdLE img.data 20 8 → bit_set img.data (4096 * rdLE img.data 28 8) i →
      rdLE img.data (4096 * rdLE img.data 60 8 + 128 * i + 120) 8 =
        crc32 (fun k => img.data (4096 * rdLE img.data 60 8 + 128 * i + k)) 120) ∧
    (∀ s, s < 64 → rdLE img.data (4096 * rdLE img.data 76 8 + 64 * s) 4 ≠ 0 →
      img.data (4096 * rdLE img.data 76 8 + 64 * s + 63) =
        (rdBytes img.data (4096 * rdLE img.data 76 8 + 64 * s) 63).foldl
          (fun x b => x ^^^ b) 0) := by
  obtain ⟨o, hF⟩ := reachable_formatted hr
  rw [hF.inode_count, hF.ibm_start, hF.itab_start, hF.dr_start]
  exact ⟨fun i hi hb => hF.inodes_sealed i hi hb, fun s hs hne => hF.dirents_sealed s hs hne⟩

/-- C6 on the sample image: the root inode and the entries `.` and `..` are sealed. -/
theorem C6_records_sealed_witness :
    (∀ i, i < rdLE sample_image.data 20 8 →
      bit_set sample_image.data (4096 * rdLE sample_image.data 28 8) i →
      rdLE sample_image.data (4096 * rdLE sample_image.data 60 8 + 128 * i + 120) 8 =
        crc32 (fun k => sample_image.data (4096 * rdLE sample_image.data 60 8 + 128 * i + k))
          120) ∧
    (∀ s, s < 64 → rdLE sample_image.data (4096 * rdLE sample_image.data 76 8 + 64 * s) 4 ≠ 0 →
      sample_image.data (4096 * rdLE sample_image.data 76 8 + 64 * s + 63) =
        (rdBytes sample_image.data (4096 * rdLE sample_image.data 76 8 + 64 * s) 63).foldl
          (fun x b => x ^^^ b) 0) :=
  C6_records_sealed sample_image sample_image_facts.2.2.2.2.2

/-- Claim C10 (amended): for an image with inode_count at most 2^31 that passes all the
checks before inode allocation, the inserter's scan selects the smallest index i below inode_count
whose inode-bitmap bit (least-significant bit first within each byte) is clear; the
insertion ends with the no-free-inode error exactly when all of the first inode_count
bits are set; and on success the directory entry built for the file carries inode
number i + 1 and bit i is set once the inode record is written (line 217). -/
theorem C10_inode_allocation (inp : Image) (src : source_file) (now : Nat)
    (hsize : inp.size ≠ 0 ∧ inp.size % BS = 0)
    (hsb : rdLE inp.data 0 4 = MAGIC ∧ rdLE inp.data 8 4 = BS)
    (hfile : src.st_mode &&& S_IFREG ≠ 0 ∧ need src ≤ DIRECT_MAX)
    (hname : 1 ≤ (base_name src.path).length ∧ (base_name src.path).length ≤ 58)
    (hroot : rdLE inp.data (root_off inp.data) 2 = MODE_DIR ∧
      rdLE inp.data (root_off inp.data + 44) 4 ≠ 0)
    (hdup : dup_scan inp.data (rootblk_off inp.data) (fname src) (BS / 64) 0 = false)
    (hcount : rdLE inp.data 20 8 ≤ 2 ^ 31) :
    (mkfs_adder inp src now = .error .no_free_inode ↔
      ∀ j, j < rdLE inp.data 20 8 → bit_set inp.data (inode_bm_off inp.data) j) ∧
    (∀ i, (i < rdLE inp.data 20 8 ∧ ¬ bit_set inp.data (inode_bm_off inp.data) i ∧
        ∀ j, j < i → bit_set inp.data (inode_bm_off inp.data) j) →
      inode_scan inp.data (inode_bm_off inp.data) (rdLE inp.data 20 8) 0 = some i ∧
      (to_int32 i).toNat = i) ∧
    (∀ out, mkfs_adder inp src now = .ok out →
      ∃ i m2 m5, i < rdLE inp.data 20 8 ∧ ¬ bit_set inp.data (inode_bm_off inp.data) i ∧
        (∀ j, j < i → bit_set inp.data (inode_bm_off inp.data) j) ∧
        copy_stage inp.data src = .ok m2 ∧
        rdLE (new_dirent i (base_name src.path)) 0 4 = i + 1 ∧
        bit_set (inode_stage inp.data src now i m2) (inode_bm_off inp.data) i ∧
        place_dirent (rootblk_off inp.data) (new_dirent i (base_name src.path)) (BS / 64) 0
          (inode_stage inp.data src now i m2) = some m5 ∧
        out.data = finish_image m5 (root_off inp.data) now) := by
  have scan : ∀ i, inode_scan inp.data (inode_bm_off inp.data) (rdLE inp.data 20 8) 0 = some i →
      i < rdLE inp.data 20 8 ∧ ¬ bit_set inp.data (inode_bm_off inp.data) i ∧
      (∀ j, j < i → bit_set inp.data (inode_bm_off inp.data) j) ∧ (to_int32 i).toNat = i := by
    intro i hi
    obtain ⟨-, h2, h3, h4⟩ := (inode_scan_some_iff _ _ _ _ _).1 hi
    refine ⟨by omega, h3, fun j hj => h4 j (Nat.zero_le _) hj, ?_⟩
    rw [to_int32_of_lt (by omega)]; exact Int.toNat_natCast i
  refine ⟨⟨?_, ?_⟩, ?_, ?_⟩
  · intro h j hj
    have h' := mkfs_adder_error_elim h
    simp only [reduceCtorEq, false_and, false_or, true_and, and_false, or_false, exists_false,
      exists_const] at h'
    obtain ⟨-, -, -, -, -, -, -, -, -, -, h'⟩ := h'
    cases hsc : inode_scan inp.data (inode_bm_off inp.data) (rdLE inp.data 20 8) 0 with
    | none => exact (inode_scan_none_iff _ _ _ _).1 hsc j (Nat.zero_le _) (by omega)
    | some i =>
      exfalso
      have hlt := h' i hsc
      obtain ⟨h1, -, -, -⟩ := scan i hsc
      rw [to_int32_of_lt (by omega)] at hlt
      omega
  · intro h
    have hsc : inode_scan inp.data (inode_bm_off inp.data) (rdLE inp.data 20 8) 0 = none :=
      (inode_scan_none_iff _ _ _ _).2 (fun j _ hj => h j (by omega))
    rw [mkfs_adder, if_neg hsize.1, if_neg (by simp [hsize.2]), if_neg (by simp [hsb.1]),
      if_neg (by simp [hsb.2]), if_neg hfile.1, if_neg (by omega), if_neg (by omega),
      if_neg (by simp [hroot.1]), if_neg hroot.2, if_neg (by simp [hdup]), hsc]
  · rintro i ⟨h1, h2, h3⟩
    have hsc := (inode_scan_some_iff inp.data (inode_bm_off inp.data) (rdLE inp.data 20 8) 0 i).2
      ⟨Nat.zero_le _, by omega, h2, fun j _ hj => h3 j hj⟩
    exact ⟨hsc, (scan i hsc).2.2.2⟩
  · intro out h
    obtain ⟨-, -, -, -, -, -, -, -, -, -, -, i, m2, m5, hi, -, hm2, hm5, hout⟩ :=
      mkfs_adder_ok_elim h
    obtain ⟨s1, s2, s3, s4⟩ := scan i hi
    rw [s4] at hm5
    refine ⟨i, m2, m5, s1, s2, s3, hm2, ?_, ?_, hm5, by rw [hout]⟩
    · rw [new_dirent_inode_no]
      exact Nat.mod_eq_of_lt (by omega)
    · rw [inode_stage]
      exact (bit_set_set_bit _ _ _ _).2 (Or.inl rfl)

/-- The checks passed by `hello.txt` on the sample image. -/
theorem sample_insert_facts :
    ∃ out, mkfs_adder sample_image hello_src 0 = .ok out ∧
      (sample_image.size ≠ 0 ∧ sample_image.size % BS = 0) ∧
      (rdLE sample_image.data 0 4 = MAGIC ∧ rdLE sample_image.data 8 4 = BS) ∧
      (hello_src.st_mode &&& S_IFREG ≠ 0 ∧ need hello_src ≤ DIRECT_MAX) ∧
      (1 ≤ (base_name hello_src.path).length ∧ (base_name hello_src.path).length ≤ 58) ∧
      (rdLE sample_image.data (root_off sample_image.data) 2 = MODE_DIR ∧
        rdLE sample_image.data (root_off sample_image.data + 44) 4 ≠ 0) ∧
      dup_scan sample_image.data (rootblk_off sample_image.data) (fname hello_src) (BS / 64) 0
        = false ∧
      rdLE sample_image.data 20 8 = 128 := by
  obtain ⟨hv, hreg, hlen, hbase⟩ := hello_src_facts
  obtain ⟨hok, hb, hdrs, -, hF, hR⟩ := sample_image_facts
  obtain ⟨out, hout, -⟩ := fresh_insert ⟨180, 128⟩ 0 0 zeroMem hok hello_src 0 hv hreg
    (by rw [hlen]; norm_num) (by rw [hbase]; decide) (by rw [hbase]; decide)
  obtain ⟨c1, c2, c3, c4, c5, c6, c7, c8, c9, c10, c11, -⟩ := mkfs_adder_ok_elim hout
  exact ⟨out, hout, ⟨c1, c2⟩, ⟨c3, c4⟩, ⟨c5, c6⟩, ⟨c7, c8⟩, ⟨c9, c10⟩, c11, hF.inode_count⟩

/-- C10 on `hello.txt` and the sample image (128 inodes, bit 0 set): no "no free inode"
error unless the first 128 bits are all set. -/
theorem C10_inode_allocation_witness :
    (mkfs_adder sample_image hello_src 0 = .error .no_free_inode ↔
      ∀ j, j < rdLE sample_image.data 20 8 →
        bit_set sample_image.data (inode_bm_off sample_image.data) j) := by
  obtain ⟨out, -, h1, h2, h3, h4, h5, h6, h7⟩ := sample_insert_facts
  exact (C10_inode_allocation sample_image hello_src 0 h1 h2 h3 h4 h5 h6
    (by rw [h7]; norm_num)).1

/-- When the duplicate-name check is reached, it fails exactly on a used slot holding
the base name. -/
theorem mkfs_adder_already_exists_iff (inp : Image) (src : source_file) (now : Nat)
    (hsize : inp.size ≠ 0 ∧ inp.size % BS = 0)
    (hsb : rdLE inp.data 0 4 = MAGIC ∧ rdLE inp.data 8 4 = BS)
    (hfile : src.st_mode &&& S_IFREG ≠ 0 ∧ need src ≤ DIRECT_MAX)
    (hname : 1 ≤ (base_name src.path).length ∧ (base_name src.path).length ≤ 58)
    (hroot : rdLE inp.data (root_off inp.data) 2 = MODE_DIR ∧
      rdLE inp.data (root_off inp.data + 44) 4 ≠ 0)
    (hpath : ∀ c ∈ src.path, c ≠ 0) :
    mkfs_adder inp src now = .error .already_exists ↔
      ∃ s, s < 64 ∧ rdLE inp.data (rootblk_off inp.data + 64 * s) 4 ≠ 0 ∧
        dirent_name inp.data (rootblk_off inp.data + 64 * s) = base_name src.path := by
  have hnz : ∀ c ∈ base_name src.path, c ≠ 0 := fun c hc => hpath c (base_name_mem _ c hc)
  have hiff := dup_scan_iff inp.data (rootblk_off inp.data) src hname.2 hnz (BS / 64) 0
  have hslots : (∃ s, 0 ≤ s ∧ s < 0 + BS / 64 ∧ rdLE inp.data (rootblk_off inp.data + s * 64) 4 ≠ 0 ∧
        dirent_name inp.data (rootblk_off inp.data + s * 64) = base_name src.path) ↔
      ∃ s, s < 64 ∧ rdLE inp.data (rootblk_off inp.data + 64 * s) 4 ≠ 0 ∧
        dirent_name inp.data (rootblk_off inp.data + 64 * s) = base_name src.path := by
    constructor
    · rintro ⟨s, -, h2, h3, h4⟩
      rw [Nat.mul_comm s 64] at h3 h4
      exact ⟨s, by simp only [BS] at h2; omega, h3, h4⟩
    · rintro ⟨s, h2, h3, h4⟩
      rw [Nat.mul_comm 64 s] at h3 h4
      exact ⟨s, Nat.zero_le _, by simp only [BS]; omega, h3, h4⟩
  rw [← hslots, ← hiff]
  constructor
  · intro h
    have h' := mkfs_adder_error_elim h
    simp only [reduceCtorEq, false_and, false_or, true_and, and_false, or_false, exists_false,
      exists_const] at h'
    exact h'.2.2.2.2.2.2.2.2.2
  · intro h
    rw [mkfs_adder, if_neg hsize.1, if_neg (by simp [hsize.2]), if_neg (by simp [hsb.1]),
      if_neg (by simp [hsb.2]), if_neg hfile.1, if_neg (by omega), if_neg (by omega),
      if_neg (by simp [hroot.1]), if_neg hroot.2, if_pos h]

/-- The entry written by an insertion carries the base name and a non-zero inode
number. -/
theorem insert_effect_entry {o : options_t} {inp out : Image} {src : source_file}
    {now fi s : Nat} {js : List Nat} (hF : Formatted o inp) (hv : valid_source src)
    (hlen : (base_name src.path).length ≤ 58)
    (E : insert_effect o inp src now out fi js s) :
    rdLE out.data (4096 * data_region_start o + 64 * s) 4 = fi + 1 ∧
    dirent_name out.data (4096 * data_region_start o + 64 * s) = base_name src.path := by
  have rec := E.dirent_rec
  have hfi := E.fi_lt
  have hvo := (parse_cli_ok_iff o).1 hF.opts_ok
  constructor
  · have := rdLE_of_shifted_upto rec 0 4 (by norm_num)
    rw [Nat.add_zero] at this
    rw [this, new_dirent_inode_no]
    exact Nat.mod_eq_of_lt (by omega)
  · have e : rdBytes out.data (4096 * data_region_start o + 64 * s + 5) 58 =
        (List.range 58).map (fun i => (base_name src.path).getD i 0) := by
      simp only [rdBytes]
      apply List.map_congr_left
      intro i hi
      have hi' := List.mem_range.1 hi
      rw [show 4096 * data_region_start o + 64 * s + 5 + i =
        4096 * data_region_start o + 64 * s + (5 + i) by omega, rec (5 + i) (by omega),
        new_dirent_name _ _ _ hi']
    rw [dirent_name, e]
    exact takeWhile_getD_range _ _ hlen (fun c hc => by
      have := hv.1 c (base_name_mem _ c hc); omega)

/-- Claim C9 (amended): once the earlier checks have passed, the insertion is refused as a
duplicate exactly when some used root-directory slot holds the base name of the path;
and after a successful insertion into an image produced by the tools, inserting the
same file again is refused as a duplicate. -/
theorem C9_duplicate_name_refused (inp : Image) (src : source_file) (now : Nat)
    (hsize : inp.size ≠ 0 ∧ inp.size % BS = 0)
    (hsb : rdLE inp.data 0 4 = MAGIC ∧ rdLE inp.data 8 4 = BS)
    (hfile : src.st_mode &&& S_IFREG ≠ 0 ∧ need src ≤ DIRECT_MAX)
    (hname : 1 ≤ (base_name src.path).length ∧ (base_name src.path).length ≤ 58)
    (hroot : rdLE inp.data (root_off inp.data) 2 = MODE_DIR ∧
      rdLE inp.data (root_off inp.data + 44) 4 ≠ 0)
    (hpath : ∀ c ∈ src.path, c ≠ 0) :
    (mkfs_adder inp src now = .error .already_exists ↔
      ∃ s, s < 64 ∧ rdLE inp.data (rootblk_off inp.data + 64 * s) 4 ≠ 0 ∧
        dirent_name inp.data (rootblk_off inp.data + 64 * s) = base_name src.path) ∧
    (∀ out now', Reachable inp → valid_source src → mkfs_adder inp src now = .ok out →
      mkfs_adder out src now' = .error .already_exists) := by
  refine ⟨mkfs_adder_already_exists_iff inp src now hsize hsb hfile hname hroot hpath, ?_⟩
  intro out now' hr hv h
  obtain ⟨o, hF⟩ := reachable_formatted hr
  obtain ⟨fi, js, s, E⟩ := mkfs_adder_effect hF hv h
  have hF' := insert_effect_formatted hF hv E
  obtain ⟨-, -, -, o4, o5⟩ := formatted_offsets hF'
  obtain ⟨e1, e2⟩ := insert_effect_entry hF hv hname.2 E
  have hvo := (parse_cli_ok_iff o).1 hF.opts_ok
  obtain ⟨a1, a2, a3, a4, a5, a6, a7, a8, a9⟩ := layout_arith o hF.opts_ok
  refine (mkfs_adder_already_exists_iff out src now' ?_ ⟨hF'.magic, hF'.block_size⟩ hfile
    hname ?_ hpath).2 ⟨s, E.s_lt, ?_, ?_⟩
  · rw [hF'.size_eq]
    exact ⟨by simp only [BS]; omega, Nat.mul_mod_right _ _⟩
  · rw [o4]
    exact ⟨hF'.root_mode, by rw [hF'.root_direct0]; omega⟩
  · rw [o5, e1]; omega
  · rw [o5]; exact e2

theorem C9_duplicate_name_refused_witness :
    ∃ out, mkfs_adder sample_image hello_src 0 = .ok out ∧
      mkfs_adder out hello_src 1 = .error .already_exists := by
  obtain ⟨out, h0, h1, h2, h3, h4, h5, -, -⟩ := sample_insert_facts
  exact ⟨out, h0, (C9_duplicate_name_refused sample_image hello_src 0 h1 h2 h3 h4 h5
    (by decide)).2 out 1 sample_image_facts.2.2.2.2.2 hello_src_facts.1 h0⟩

set_option maxRecDepth 100000 in
theorem CRC32_TAB_flip : ∀ i, i < 256 → CRC32_TAB.getD (i ^^^ 1) 0 ≠ CRC32_TAB.getD i 0 := by
  decide

theorem crc32_last_byte_flip {p q : Mem} {n : Nat} (h : ∀ x, x < n → p x = q x)
    (hp : p n = 1) (hq : q n = 0) : crc32 p (n + 1) ≠ crc32 q (n + 1) := by
  simp only [crc32, crc32_state]
  rw [crc32_state_congr h, hp, hq]
  generalize crc32_state q n = c
  intro he
  have h1 := Nat.xor_left_injective he
  have h2 := Nat.xor_left_injective h1
  rw [Nat.xor_zero, Nat.and_xor_distrib_right] at h2
  have hc : c &&& 0xFF < 256 := by
    have := Nat.and_pow_two_sub_one_eq_mod c 8
    norm_num at this
    rw [this]; omega
  exact CRC32_TAB_flip _ hc h2

theorem sb_fields_adjacent (o : options_t) (t : Nat) (adj : Mem) (x : Nat) (h : 116 ≤ x) :
    sb_fields o t adj x = adj x := by
  simp only [sb_fields, wrLE_apply]
  repeat rw [if_neg (by omega)]

theorem sb_fields_congr (o : options_t) (t : Nat) (adj adj' : Mem) (x : Nat) (h : x < 116) :
    sb_fields o t adj x = sb_fields o t adj' x := by
  simp only [sb_fields, wrLE_apply]
  rw [if_pos h, if_pos h]

/-- The checksum field stored by `build_image` is the CRC over the 4092 bytes that start
at the local `sb`, the bytes after the object included. -/
theorem build_image_checksum (o : options_t) (t1 t2 : Nat) (adj : Mem) :
    rdLE (build_image o t1 t2 adj).data 112 4 =
      crc32 (wrLE (sb_fields o t1 adj) 112 4 0) (BS - 4) := by
  have hc := crc32_lt (wrLE (sb_fields o t1 adj) 112 4 0) (BS - 4)
  have e : rdLE (build_image o t1 t2 adj).data 112 4 =
      rdLE (superblock_crc_finalize (sb_fields o t1 adj)) 112 4 := by
    apply rdLE_congr
    intro x h1 h2
    rw [build_image_block0 _ _ _ _ _ (by omega), memcpy_apply, if_pos (by omega)]
    exact congrArg _ (by omega)
  rw [e]
  simp only [superblock_crc_finalize]
  rw [rdLE_wrLE_same, Nat.mod_eq_of_lt (by omega)]

/-- Block 0 of the image with the checksum field taken as zero. -/
theorem build_image_block0_zeroed (o : options_t) (t1 t2 : Nat) (adj : Mem) (x : Nat)
    (h : x < 4096) :
    (if 112 ≤ x ∧ x < 116 then 0 else (build_image o t1 t2 adj).data x) =
      if x < 116 then wrLE (sb_fields o t1 adj) 112 4 0 x else 0 := by
  rw [build_image_block0 _ _ _ _ _ h, memcpy_apply]
  by_cases h1 : 112 ≤ x ∧ x < 116
  · rw [if_pos h1, if_pos h1.2, wrLE_apply, if_pos (by omega)]; simp
  · rw [if_neg h1]
    by_cases h2 : x < 116
    · rw [if_pos (show 0 ≤ x ∧ x < 0 + 116 by omega), if_pos h2, superblock_crc_finalize,
        wrLE_frame _ _ _ _ _ (by omega), wrLE_frame _ _ _ _ _ (by omega),
        wrLE_frame _ _ _ _ _ (by omega)]
      exact congrArg _ (by omega)
    · rw [if_neg (show ¬(0 ≤ x ∧ x < 0 + 116) by omega), if_neg h2]
      simp [memset, zeroMem]

/-- Claim C5: the checksum stored by `build_image` verifies over the written block when
the 3976 bytes of memory that follow the local superblock object are zero, and it does
not verify when the last of those bytes is 1 instead: the stored value is the CRC of the
object followed by that memory, not of the object zero-padded to a block. -/
theorem C5_builder_checksum_depends_on_adjacent_memory (o : options_t) (t_sb t_root : Nat) :
    superblock_sealed (build_image o t_sb t_root zeroMem).data ∧
    ¬ superblock_sealed
      (build_image o t_sb t_root (fun i => if i = 4091 then 1 else 0)).data := by
  constructor
  · rw [superblock_sealed, build_image_checksum]
    apply crc32_congr
    intro x hx
    simp only [BS] at hx
    rw [build_image_block0_zeroed _ _ _ _ _ (by omega)]
    by_cases h : x < 116
    · rw [if_pos h]
    · rw [if_neg h, wrLE_frame _ _ _ _ _ (by omega), sb_fields_adjacent _ _ _ _ (by omega)]
      rfl
  · rw [superblock_sealed, build_image_checksum]
    apply crc32_last_byte_flip
    · intro x hx
      rw [build_image_block0_zeroed _ _ _ _ _ (by omega)]
      by_cases h : x < 116
      · rw [if_pos h]
      · rw [if_neg h, wrLE_frame _ _ _ _ _ (by omega), sb_fields_adjacent _ _ _ _ (by omega),
          if_neg (by omega)]
    · rw [wrLE_frame _ _ _ _ _ (by omega), sb_fields_adjacent _ _ _ _ (by omega)]
      rfl
    · rw [build_image_block0_zeroed _ _ _ _ _ (by omega)]
      rfl

/-! ## The freshly formatted image: bitmaps, root directory, sizes, layout bounds -/

/-- Claim C13: in the image written by the formatter for valid options, block 1 (the
inode bitmap) and block 2 (the data bitmap) each have bit 0 set and each of their other
32767 bits clear. -/
theorem C13_fresh_bitmaps (size_kib inode_count t_sb t_root : Nat) (adj : Mem)
    (hs : 180 ≤ size_kib ∧ size_kib ≤ 4096 ∧ size_kib % 4 = 0)
    (hi : 128 ≤ inode_count ∧ inode_count ≤ 512) :
    ∃ img, mkfs_builder ⟨size_kib, inode_count⟩ t_sb t_root adj = some img ∧
      bit_set img.data (4096 * 1) 0 ∧ bit_set img.data (4096 * 2) 0 ∧
      (∀ j, 1 ≤ j → j < 32768 → ¬ bit_set img.data (4096 * 1) j) ∧
      (∀ j, 1 ≤ j → j < 32768 → ¬ bit_set img.data (4096 * 2) j) ∧
      (∀ a, 4096 * 1 ≤ a → a < 4096 * 3 →
        img.data a = if a = 4096 * 1 ∨ a = 4096 * 2 then 1 else 0) := by
  have hok : parse_cli_ok ⟨size_kib, inode_count⟩ = true := (parse_cli_ok_iff _).2 ⟨hs, hi⟩
  obtain ⟨b1, b2, b3, b4⟩ := build_image_bitmaps ⟨size_kib, inode_count⟩ t_sb t_root adj hok
  obtain ⟨-, r2, r3, r4, -⟩ := build_image_regions ⟨size_kib, inode_count⟩ t_sb t_root adj hok
  refine ⟨_, by simp [mkfs_builder, hok], b1, b2, b3, b4, ?_⟩
  intro a h1 h2
  by_cases ha : a = 4096 * 1 ∨ a = 4096 * 2
  · rw [if_pos ha]
    rcases ha with rfl | rfl
    · exact r2
    · exact r3
  · rw [if_neg ha]
    exact r4 a (by omega) (by omega) (by omega)

theorem C13_fresh_bitmaps_witness :
    ∃ img, mkfs_builder ⟨180, 128⟩ 0 0 zeroMem = some img ∧
      bit_set img.data 4096 0 ∧ ¬ bit_set img.data 4096 1 ∧
      bit_set img.data 8192 0 ∧ ¬ bit_set img.data 8192 1 := by
  obtain ⟨img, h0, h1, h2, h3, h4, -⟩ :=
    C13_fresh_bitmaps 180 128 0 0 zeroMem (by decide) (by decide)
  exact ⟨img, h0, h1, h3 1 (le_refl _) (by norm_num), h2, h4 1 (le_refl _) (by norm_num)⟩

/-- Claim C19: for valid options the data region starts below the end of the image, so
the subtraction that gives its length does not wrap and the region has at least one
block; the inode table has room for every inode; both bitmaps fit in one block; and
every block number of the data region is below the number of blocks. -/
theorem C19_layout_bounds (size_kib inode_count : Nat)
    (hs : 180 ≤ size_kib ∧ size_kib ≤ 4096 ∧ size_kib % 4 = 0)
    (hi : 128 ≤ inode_count ∧ inode_count ≤ 512) :
    data_region_start ⟨size_kib, inode_count⟩ < total_blocks ⟨size_kib, inode_count⟩ ∧
    data_region_blocks ⟨size_kib, inode_count⟩ =
      total_blocks ⟨size_kib, inode_count⟩ - data_region_start ⟨size_kib, inode_count⟩ ∧
    1 ≤ data_region_blocks ⟨size_kib, inode_count⟩ ∧
    inode_count ≤ inode_table_blocks ⟨size_kib, inode_count⟩ * 32 ∧
    inode_count ≤ 4096 * 8 ∧ data_region_blocks ⟨size_kib, inode_count⟩ ≤ 4096 * 8 ∧
    (∀ i, i < inode_count → i / 8 < 4096) ∧
    (∀ j, j < data_region_blocks ⟨size_kib, inode_count⟩ → j / 8 < 4096 ∧
      data_region_start ⟨size_kib, inode_count⟩ + j < total_blocks ⟨size_kib, inode_count⟩) := by
  have hok : parse_cli_ok ⟨size_kib, inode_count⟩ = true := (parse_cli_ok_iff _).2 ⟨hs, hi⟩
  obtain ⟨a1, a2, a3, a4, a5, a6, a7, a8, a9⟩ := layout_arith _ hok
  simp only at a2
  refine ⟨by omega, a4, by omega, by omega, by omega, by omega, fun i h => by omega,
    fun j h => ⟨by omega, by omega⟩⟩

theorem C19_layout_bounds_witness :
    data_region_start ⟨180, 128⟩ < total_blocks ⟨180, 128⟩ ∧
    1 ≤ data_region_blocks ⟨180, 128⟩ ∧ 128 ≤ inode_table_blocks ⟨180, 128⟩ * 32 := by
  obtain ⟨h1, -, h3, h4, -⟩ := C19_layout_bounds 180 128 (by decide) (by decide)
  exact ⟨h1, h3, h4⟩

/-- Claim C14: in the image written by the formatter for valid options, the first record
of the inode table is a directory with 2 links, size 4096, first direct pointer the first
block of the data region and the other eleven zero; the rest of the inode table is zero;
and the first block of the data region holds the entries `.` and `..` (inode 1, type
directory, name padded with zeros) in slots 0 and 1, and zeros in the other 62 slots. -/
theorem C14_fresh_root (size_kib inode_count t_sb t_root : Nat) (adj : Mem)
    (hs : 180 ≤ size_kib ∧ size_kib ≤ 4096 ∧ size_kib % 4 = 0)
    (hi : 128 ≤ inode_count ∧ inode_count ≤ 512) :
    ∃ img, mkfs_builder ⟨size_kib, inode_count⟩ t_sb t_root adj = some img ∧
      rdLE img.data (4096 * 3) 2 = 0o040000 ∧
      rdLE img.data (4096 * 3 + 2) 2 = 2 ∧
      rdLE img.data (4096 * 3 + 12) 8 = 4096 ∧
      rdLE img.data (4096 * 3 + 44) 4 = rdLE img.data 76 8 ∧
      (∀ k, 1 ≤ k → k < 12 → rdLE img.data (4096 * 3 + 44 + 4 * k) 4 = 0) ∧
      (∀ a, 4096 * 3 + 128 ≤ a → a < 4096 * rdLE img.data 76 8 → img.data a = 0) ∧
      rdLE img.data (4096 * rdLE img.data 76 8) 4 = 1 ∧
      img.data (4096 * rdLE img.data 76 8 + 4) = 2 ∧
      (∀ i, i < 58 → img.data (4096 * rdLE img.data 76 8 + 5 + i) = if i < 1 then 46 else 0) ∧
      dirent_name img.data (4096 * rdLE img.data 76 8) = [46] ∧
      rdLE img.data (4096 * rdLE img.data 76 8 + 64) 4 = 1 ∧
      img.data (4096 * rdLE img.data 76 8 + 64 + 4) = 2 ∧
      (∀ i, i < 58 →
        img.data (4096 * rdLE img.data 76 8 + 64 + 5 + i) = if i < 2 then 46 else 0) ∧
      dirent_name img.data (4096 * rdLE img.data 76 8 + 64) = [46, 46] ∧
      (∀ a, 4096 * rdLE img.data 76 8 + 128 ≤ a → a < 4096 * rdLE img.data 76 8 + 4096 →
        img.data a = 0) := by
  have hok : parse_cli_ok ⟨size_kib, inode_count⟩ = true := (parse_cli_ok_iff _).2 ⟨hs, hi⟩
  have hF := build_image_formatted ⟨size_kib, inode_count⟩ t_sb t_root adj hok
  obtain ⟨-, -, -, -, r5, r6, r7, r8, r9⟩ :=
    build_image_regions ⟨size_kib, inode_count⟩ t_sb t_root adj hok
  obtain ⟨f1, f2, f3, f4, f5, -⟩ := root_inode_fields ⟨size_kib, inode_count⟩ t_root hok
  obtain ⟨d1, d2, d3, d4, -⟩ :=
    build_image_rootdir ⟨size_kib, inode_count⟩ t_sb t_root adj hok
  obtain ⟨-, e2, e3, -⟩ := dot_entry_fields 1
  obtain ⟨-, g2, g3, -⟩ := dot_entry_fields 2
  refine ⟨build_image ⟨size_kib, inode_count⟩ t_sb t_root adj, by simp [mkfs_builder, hok], ?_⟩
  rw [hF.dr_start]
  have rd : ∀ c n, c + n ≤ 128 →
      rdLE (build_image ⟨size_kib, inode_count⟩ t_sb t_root adj).data (12288 + c) n =
        rdLE (root_inode ⟨size_kib, inode_count⟩ t_root) c n :=
    fun c n h => rdLE_of_shifted_upto r5 c n h
  refine ⟨?_, ?_, ?_, ?_, ?_, ?_, ?_, ?_, ?_, ?_, ?_, ?_, ?_, ?_, ?_⟩
  · have := rd 0 2 (by norm_num); rw [Nat.add_zero] at this; rw [this, f1]
  · rw [rd 2 2 (by norm_num), f2]
  · rw [rd 12 8 (by norm_num), f3]
  · rw [rd 44 4 (by norm_num), f4]
  · intro k h1 h2
    rw [show 4096 * 3 + 44 + 4 * k = 12288 + (44 + 4 * k) by omega, rd _ 4 (by omega)]
    exact f5 k h1 h2
  · intro a h1 h2
    exact r6 a (by omega) h2
  · have := d1; rw [Nat.mul_zero, Nat.add_zero] at this; exact this
  · rw [r7 4 (by norm_num), e2]
  · intro i hi'
    rw [show 4096 * data_region_start ⟨size_kib, inode_count⟩ + 5 + i =
      4096 * data_region_start ⟨size_kib, inode_count⟩ + (5 + i) by omega, r7 _ (by omega)]
    exact e3 i hi'
  · have := d3; rw [Nat.mul_zero, Nat.add_zero] at this; exact this
  · have := d2; rw [Nat.mul_one] at this; exact this
  · rw [show 4096 * data_region_start ⟨size_kib, inode_count⟩ + 64 + 4 =
      4096 * data_region_start ⟨size_kib, inode_count⟩ + 64 + 4 from rfl, r8 4 (by norm_num), g2]
  · intro i hi'
    rw [show 4096 * data_region_start ⟨size_kib, inode_count⟩ + 64 + 5 + i =
      4096 * data_region_start ⟨size_kib, inode_count⟩ + 64 + (5 + i) by omega, r8 _ (by omega)]
    exact g3 i hi'
  · have := d4; rw [Nat.mul_one] at this; exact this
  · intro a h1 _
    exact r9 a h1

theorem C14_fresh_root_witness :
    ∃ img, mkfs_builder ⟨180, 128⟩ 0 0 zeroMem = some img ∧
      rdLE img.data (4096 * 3 + 2) 2 = 2 ∧ rdLE img.data (4096 * 3 + 44) 4 = 7 ∧
      dirent_name img.data (4096 * 7 + 64) = [46, 46] := by
  obtain ⟨img, h0, -, h2, -, h4, -, -, -, -, -, -, -, -, -, h14, -⟩ :=
    C14_fresh_root 180 128 0 0 zeroMem (by decide) (by decide)
  obtain ⟨hok, hb, hdrs, -, hF, -⟩ := sample_image_facts
  have e : img = sample_image := Option.some.inj (h0.symm.trans hb)
  have h76 : rdLE img.data 76 8 = 7 := by rw [e, hF.dr_start, hdrs]
  rw [h76] at h4 h14
  exact ⟨img, h0, h2, h4, h14⟩

/-- Claim C15: for valid options the formatter writes exactly `total_blocks` blocks (the
superblock, the two bitmaps, the inode table and the data region), that is
`size_kib * 1024` bytes; and the output of a successful insertion is as long as its
input. -/
theorem C15_image_sizes (size_kib inode_count t_sb t_root : Nat) (adj : Mem)
    (hs : 180 ≤ size_kib ∧ size_kib ≤ 4096 ∧ size_kib % 4 = 0)
    (hi : 128 ≤ inode_count ∧ inode_count ≤ 512) :
    (∃ img, mkfs_builder ⟨size_kib, inode_count⟩ t_sb t_root adj = some img ∧
      (build_image_blocks ⟨size_kib, inode_count⟩ t_sb t_root adj).length =
        total_blocks ⟨size_kib, inode_count⟩ ∧
      total_blocks ⟨size_kib, inode_count⟩ =
        1 + 1 + 1 + inode_table_blocks ⟨size_kib, inode_count⟩ +
          data_region_blocks ⟨size_kib, inode_count⟩ ∧
      img.size = total_blocks ⟨size_kib, inode_count⟩ * 4096 ∧
      img.size = size_kib * 1024) ∧
    (∀ (inp out : Image) (src : source_file) (now : Nat),
      mkfs_adder inp src now = .ok out → out.size = inp.size) := by
  have hok : parse_cli_ok ⟨size_kib, inode_count⟩ = true := (parse_cli_ok_iff _).2 ⟨hs, hi⟩
  obtain ⟨a1, a2, a3, a4, a5, a6, a7, a8, a9⟩ := layout_arith _ hok
  have hlen := build_image_blocks_length ⟨size_kib, inode_count⟩ t_sb t_root adj hok
  have hsz : (build_image ⟨size_kib, inode_count⟩ t_sb t_root adj).size =
      total_blocks ⟨size_kib, inode_count⟩ * 4096 := by
    show BS * (build_image_blocks ⟨size_kib, inode_count⟩ t_sb t_root adj).length = _
    rw [hlen, Nat.mul_comm]
  constructor
  · refine ⟨_, by simp [mkfs_builder, hok], hlen, by omega, hsz, ?_⟩
    rw [hsz, a1]
    simp only
    omega
  · intro inp out src now h
    obtain ⟨-, -, -, -, -, -, -, -, -, -, -, i, m2, m5, -, -, -, -, e⟩ := mkfs_adder_ok_elim h
    rw [e]

theorem C15_image_sizes_witness :
    ∃ img, mkfs_builder ⟨180, 128⟩ 0 0 zeroMem = some img ∧ img.size = 184320 := by
  obtain ⟨⟨img, h0, -, -, -, h4⟩, -⟩ :=
    C15_image_sizes 180 128 0 0 zeroMem (by decide) (by decide)
  exact ⟨img, h0, h4⟩

/-! ## The table-driven CRC and the bit-by-bit CRC -/

theorem xor_cancel_both (x y p : Nat) : (x ^^^ p) ^^^ (y ^^^ p) = x ^^^ y := by
  apply Nat.eq_of_testBit_eq
  intro i
  simp only [Nat.testBit_xor]
  cases x.testBit i <;> cases y.testBit i <;> cases p.testBit i <;> rfl

theorem xor_swap_right (x y p : Nat) : (x ^^^ p) ^^^ y = (x ^^^ y) ^^^ p := by
  apply Nat.eq_of_testBit_eq
  intro i
  simp only [Nat.testBit_xor]
  cases x.testBit i <;> cases y.testBit i <;> cases p.testBit i <;> rfl

/-- A single-bit step is linear for XOR. -/
theorem crc32_bit_step_xor (a b : Nat) :
    crc32_bit_step (a ^^^ b) = crc32_bit_step a ^^^ crc32_bit_step b := by
  have hm : (a ^^^ b) % 2 = (a + b) % 2 := Nat.xor_mod_two_eq
  have hd : (a ^^^ b) / 2 = a / 2 ^^^ b / 2 := Nat.xor_div_two
  simp only [crc32_bit_step, hd]
  by_cases ha : a % 2 = 1 <;> by_cases hb : b % 2 = 1
  · rw [if_neg (by omega), if_pos ha, if_pos hb, xor_cancel_both]
  · rw [if_pos (by omega), if_pos ha, if_neg hb, xor_swap_right]
  · rw [if_pos (by omega), if_neg ha, if_pos hb, Nat.xor_assoc]
  · rw [if_neg (by omega), if_neg ha, if_neg hb]

theorem crc32_bit_step_iterate_xor (k a b : Nat) :
    Nat.iterate crc32_bit_step k (a ^^^ b) =
      Nat.iterate crc32_bit_step k a ^^^ Nat.iterate crc32_bit_step k b := by
  induction k generalizing a b with
  | zero => rfl
  | succ k ih =>
    rw [Function.iterate_succ_apply, Function.iterate_succ_apply, Function.iterate_succ_apply,
      crc32_bit_step_xor, ih]

/-- On a register whose low `k` bits are zero, `k` single-bit steps only shift. -/
theorem crc32_bit_step_iterate_high (k h : Nat) (hz : h % 2 ^ k = 0) :
    Nat.iterate crc32_bit_step k h = h / 2 ^ k := by
  induction k generalizing h with
  | zero => simp
  | succ k ih =>
    have h2 : h % 2 = 0 := by
      have : h % 2 ^ (k + 1) % 2 = h % 2 :=
        Nat.mod_mod_of_dvd h (Dvd.intro_left (2 ^ k) rfl)
      rw [hz] at this
      omega
    have hs : crc32_bit_step h = h / 2 := by
      rw [crc32_bit_step, if_neg (by omega)]
    have hz' : h / 2 % 2 ^ k = 0 := by
      have e : h = 2 * (h / 2) := by omega
      rw [e, pow_succ, Nat.mul_comm (2 ^ k) 2, Nat.mul_mod_mul_left] at hz
      omega
    rw [Function.iterate_succ_apply, hs, ih _ hz', Nat.div_div_eq_div_mul, pow_succ,
      Nat.mul_comm]

theorem split_low_byte (x : Nat) : x = (x % 2 ^ 8) ^^^ ((x / 2 ^ 8) * 2 ^ 8) := by
  apply Nat.eq_of_testBit_eq
  intro i
  rw [Nat.testBit_xor, Nat.testBit_mod_two_pow, ← Nat.shiftLeft_eq, Nat.testBit_shiftLeft,
    ← Nat.shiftRight_eq_div_pow, Nat.testBit_shiftRight]
  by_cases hi : i < 8
  · have h8 : ¬ 8 ≤ i := by omega
    simp [hi, h8]
  · have e : 8 + (i - 8) = i := by omega
    simp [hi, e, Nat.le_of_not_lt hi]

/-- Eight single-bit steps are one table lookup on the low byte and a shift by eight. -/
theorem crc32_bit_step_eight (x : Nat) :
    Nat.iterate crc32_bit_step 8 x =
      Nat.iterate crc32_bit_step 8 (x % 2 ^ 8) ^^^ (x / 2 ^ 8) := by
  have hs := split_low_byte x
  have hh := crc32_bit_step_iterate_high 8 ((x / 2 ^ 8) * 2 ^ 8) (Nat.mul_mod_left _ _)
  rw [Nat.mul_div_cancel _ (by norm_num)] at hh
  have := crc32_bit_step_iterate_xor 8 (x % 2 ^ 8) ((x / 2 ^ 8) * 2 ^ 8)
  rw [← hs, hh] at this
  exact this

theorem crc32_tab_round_eq :
    (fun c : Nat => if c &&& 1 ≠ 0 then 0xEDB88320 ^^^ (c >>> 1) else c >>> 1) =
      crc32_bit_step := by
  funext c
  have e1 : c &&& 1 = c % 2 := Nat.and_one_is_mod c
  have e2 : c >>> 1 = c / 2 := by rw [Nat.shiftRight_eq_div_pow, pow_one]
  simp only [crc32_bit_step, e1, e2]
  by_cases h : c % 2 = 1
  · rw [if_pos (by omega), if_pos h, Nat.xor_comm]
  · rw [if_neg (by omega), if_neg h]

theorem CRC32_TAB_getD (i : Nat) (h : i < 256) :
    CRC32_TAB.getD i 0 = Nat.iterate crc32_bit_step 8 i := by
  simp only [CRC32_TAB, crc32_init, List.getD_eq_getElem?_getD, List.getElem?_map,
    List.getElem?_range h, Option.map_some', Option.getD_some, crc32_tab_entry,
    crc32_tab_round_eq]

/-- One iteration of the table-driven loop is eight single-bit steps on the register
XORed with the byte. -/
theorem crc32_table_step (c b : Nat) (hb : b < 256) :
    CRC32_TAB.getD ((c ^^^ b) &&& 0xFF) 0 ^^^ (c >>> 8) =
      Nat.iterate crc32_bit_step 8 (c ^^^ b) := by
  have e1 : (c ^^^ b) &&& 0xFF = (c ^^^ b) % 2 ^ 8 := Nat.and_pow_two_sub_one_eq_mod _ 8
  have e2 : c >>> 8 = (c ^^^ b) / 2 ^ 8 := by
    rw [← Nat.shiftRight_eq_div_pow]
    apply Nat.eq_of_testBit_eq
    intro i
    rw [Nat.testBit_shiftRight, Nat.testBit_shiftRight, Nat.testBit_xor,
      Nat.testBit_lt_two_pow (x := b) (i := 8 + i)
        (lt_of_lt_of_le hb (Nat.pow_le_pow_right (n := 2) (by norm_num) (Nat.le_add_right 8 i))),
      Bool.xor_false]
  have hlt : (c ^^^ b) % 2 ^ 8 < 256 := by omega
  rw [e1, e2, CRC32_TAB_getD _ hlt, ← crc32_bit_step_eight]

theorem crc32_state_eq_foldl (p : Mem) (n : Nat) (hp : ∀ i, i < n → p i < 256) :
    crc32_state p n =
      (rdBytes p 0 n).foldl (fun c b => Nat.iterate crc32_bit_step 8 (c ^^^ b)) 0xFFFFFFFF := by
  induction n with
  | zero => rfl
  | succ k ih =>
    rw [rdBytes_succ, List.foldl_append, ← ih (fun i hi => hp i (by omega))]
    simp only [crc32_state, List.foldl_cons, List.foldl_nil, Nat.zero_add]
    exact crc32_table_step _ _ (hp k (by omega))

set_option maxRecDepth 100000 in
/-- Claim C12: on every sequence of bytes the table-driven `crc32` of the sources equals
the standard reflected CRC-32 defined bit by bit with polynomial `0xEDB88320`; the CRC
of the ASCII bytes `123456789` is `0xCBF43926` and the CRC of no bytes is 0. -/
theorem C12_crc32_is_bitwise_crc (p : Mem) (n : Nat) (hp : ∀ i, i < n → p i < 256) :
    crc32 p n = crc32_bitwise (rdBytes p 0 n) ∧
    crc32 (fun i => [49, 50, 51, 52, 53, 54, 55, 56, 57].getD i 0) 9 = 0xCBF43926 ∧
    crc32 p 0 = 0 := by
  have main : ∀ (q : Mem) (k : Nat), (∀ i, i < k → q i < 256) →
      crc32 q k = crc32_bitwise (rdBytes q 0 k) := by
    intro q k hq
    rw [crc32, crc32_bitwise, crc32_state_eq_foldl q k hq]
  refine ⟨main p n hp, ?_, Nat.xor_self _⟩
  rw [main _ 9 (by
    intro i hi
    have : i = 0 ∨ i = 1 ∨ i = 2 ∨ i = 3 ∨ i = 4 ∨ i = 5 ∨ i = 6 ∨ i = 7 ∨ i = 8 := by omega
    rcases this with h | h | h | h | h | h | h | h | h <;> subst h <;> decide)]
  decide

theorem C12_crc32_is_bitwise_crc_witness :
    crc32 (fun i => [97].getD i 0) 1 = crc32_bitwise [97] := by
  have h := (C12_crc32_is_bitwise_crc (fun i => [97].getD i 0) 1 (by
    intro i hi
    have : i = 0 := by omega
    subst this
    decide)).1
  exact h

/-! ## Block ownership and the frame of an insertion -/

/-- The inserter succeeds when every check passes and every stage returns; the output is
the image the last stage leaves. -/
theorem mkfs_adder_ok_intro {inp : Image} {src : source_file} {now i : Nat} {m2 m5 : Mem}
    (hsize : inp.size ≠ 0 ∧ inp.size % BS = 0)
    (hsb : rdLE inp.data 0 4 = MAGIC ∧ rdLE inp.data 8 4 = BS)
    (hfile : src.st_mode &&& S_IFREG ≠ 0 ∧ need src ≤ DIRECT_MAX)
    (hname : 1 ≤ (base_name src.path).length ∧ (base_name src.path).length ≤ 58)
    (hroot : rdLE inp.data (root_off inp.data) 2 = MODE_DIR ∧
      rdLE inp.data (root_off inp.data + 44) 4 ≠ 0)
    (hdup : dup_scan inp.data (rootblk_off inp.data) (fname src) (BS / 64) 0 = false)
    (hi : inode_scan inp.data (inode_bm_off inp.data) (rdLE inp.data 20 8) 0 = some i)
    (hi31 : i < 2 ^ 31)
    (hc : copy_stage inp.data src = .ok m2)
    (hp : place_dirent (rootblk_off inp.data) (new_dirent i (base_name src.path)) (BS / 64) 0
      (inode_stage inp.data src now i m2) = some m5) :
    mkfs_adder inp src now =
      .ok { size := inp.size, data := finish_image m5 (root_off inp.data) now } := by
  have hti : to_int32 i = (i : Int) := to_int32_of_lt hi31
  have htn : (to_int32 i).toNat = i := by rw [hti]; exact Int.toNat_natCast i
  cases hres : mkfs_adder inp src now with
  | ok out =>
    obtain ⟨-, -, -, -, -, -, -, -, -, -, -, i', m2', m5', e1, -, e3, e4, e5⟩ :=
      mkfs_adder_ok_elim hres
    have a1 : i = i' := Option.some.inj (hi.symm.trans e1)
    subst a1
    have a2 : m2 = m2' := Except.ok.inj (hc.symm.trans e3)
    subst a2
    rw [htn] at e4
    have a3 : m5 = m5' := Option.some.inj (hp.symm.trans e4)
    subst a3
    exact congrArg Except.ok e5
  | error e =>
    exfalso
    have H := mkfs_adder_error_elim hres
    clear hres
    rcases H with ⟨-, h⟩ | ⟨-, H⟩
    · exact hsize.1 h
    rcases H with ⟨-, h⟩ | ⟨-, H⟩
    · exact h hsize.2
    rcases H with ⟨-, h⟩ | ⟨-, H⟩
    · exact h hsb.1
    rcases H with ⟨-, h⟩ | ⟨-, H⟩
    · exact h hsb.2
    rcases H with ⟨-, h⟩ | ⟨-, H⟩
    · exact hfile.1 h
    rcases H with ⟨-, h⟩ | ⟨-, H⟩
    · omega
    rcases H with ⟨-, h⟩ | ⟨-, H⟩
    · omega
    rcases H with ⟨-, h⟩ | ⟨-, H⟩
    · exact h hroot.1
    rcases H with ⟨-, h⟩ | ⟨-, H⟩
    · exact hroot.2 h
    rcases H with ⟨-, h⟩ | ⟨-, H⟩
    · rw [hdup] at h; cases h
    rcases H with ⟨-, h⟩ | ⟨i', hi', hi0, H⟩
    · have := h i hi
      rw [hti] at this
      omega
    have a1 : i = i' := Option.some.inj (hi.symm.trans hi')
    subst a1
    rcases H with ⟨-, h⟩ | ⟨-, h⟩ | ⟨-, m2', h1, h2⟩
    · have hc' := hc
      rw [copy_stage, if_pos h] at hc'
      cases hc'
    · cases hc.symm.trans h
    · have a2 : m2 = m2' := Except.ok.inj (hc.symm.trans h1)
      subst a2
      rw [htn] at h2
      cases hp.symm.trans h2

/-- An insertion leaves the records of the other inodes as they were, the root's `links`,
`mtime` and `inode_crc` fields apart. -/
theorem insert_effect_inode_frame {o : options_t} {inp out : Image} {src : source_file}
    {now fi s : Nat} {js : List Nat} (hF : Formatted o inp)
    (E : insert_effect o inp src now out fi js s) (i : Nat) (hi : i < o.inodes)
    (hne : i ≠ fi) (c : Nat) (hc : c < 128)
    (h0 : i = 0 → ¬(2 ≤ c ∧ c < 4) ∧ ¬(28 ≤ c ∧ c < 36) ∧ ¬ 120 ≤ c) :
    out.data (12288 + 128 * i + c) = inp.data (12288 + 128 * i + c) := by
  obtain ⟨r1, r2, r3, r4⟩ := formatted_regions hF.opts_ok i hi
  obtain ⟨q1, -, -, q4⟩ := formatted_regions hF.opts_ok fi E.fi_lt
  have jb : ∀ j ∈ js, j < data_region_blocks o := fun j hj => (E.js_clear j hj).2.1
  apply E.frame
  · omega
  · omega
  · omega
  · intro j hj; have := jb j hj; omega
  · intro h
    by_cases hz : i = 0
    · have := h0 hz; omega
    · omega
  · intro h
    by_cases hz : i = 0
    · have := h0 hz; omega
    · omega
  · intro h
    by_cases hz : i = 0
    · have := h0 hz; omega
    · omega
  · omega
  · omega
  · intro j hj; omega

theorem insert_effect_old_ptr {o : options_t} {inp out : Image} {src : source_file}
    {now fi s : Nat} {js : List Nat} (hF : Formatted o inp)
    (E : insert_effect o inp src now out fi js s) (i : Nat) (hi : i < o.inodes)
    (hne : i ≠ fi) :
    (∀ k, k < 12 → direct_ptr out.data i k = direct_ptr inp.data i k) ∧
    inode_size out.data i = inode_size inp.data i := by
  constructor
  · intro k hk
    simp only [direct_ptr]
    apply rdLE_congr
    intro x h1 h2
    have := insert_effect_inode_frame hF E i hi hne (x - (12288 + 128 * i)) (by omega)
      (fun _ => by omega)
    rw [show 12288 + 128 * i + (x - (12288 + 128 * i)) = x by omega] at this
    exact this
  · simp only [inode_size]
    apply rdLE_congr
    intro x h1 h2
    have := insert_effect_inode_frame hF E i hi hne (x - (12288 + 128 * i)) (by omega)
      (fun _ => by omega)
    rw [show 12288 + 128 * i + (x - (12288 + 128 * i)) = x by omega] at this
    exact this

/-- Block ownership holds in a freshly formatted image: the root directory owns the
first block of the data region. -/
theorem build_image_owned (o : options_t) (t1 t2 : Nat) (adj : Mem)
    (h : parse_cli_ok o = true) : Owned o (build_image o t1 t2 adj) := by
  obtain ⟨a1, a2, a3, a4, a5, a6, a7, a8, a9⟩ := layout_arith o h
  have hvo := (parse_cli_ok_iff o).1 h
  obtain ⟨b1, b2, b3, b4⟩ := build_image_bitmaps o t1 t2 adj h
  obtain ⟨-, -, -, -, r5, -⟩ := build_image_regions o t1 t2 adj h
  obtain ⟨f1, f2, f3, f4, f5, -⟩ := root_inode_fields o t2 h
  have only0 : ∀ i, i < o.inodes → bit_set (build_image o t1 t2 adj).data 4096 i → i = 0 := by
    intro i hi hb
    by_contra hc
    exact b3 i (by omega) (by omega) hb
  have p0 : direct_ptr (build_image o t1 t2 adj).data 0 0 = data_region_start o := by
    simp only [direct_ptr]
    rw [show 12288 + 128 * 0 + 44 + 4 * 0 = 12288 + 44 by norm_num,
      rdLE_of_shifted_upto r5 44 4 (by norm_num), f4]
  have pk : ∀ k, 1 ≤ k → k < 12 → direct_ptr (build_image o t1 t2 adj).data 0 k = 0 := by
    intro k h1 h2
    simp only [direct_ptr]
    rw [show 12288 + 128 * 0 + 44 + 4 * k = 12288 + (44 + 4 * k) by omega,
      rdLE_of_shifted_upto r5 (44 + 4 * k) 4 (by omega), f5 k h1 h2]
  have sz : inode_size (build_image o t1 t2 adj).data 0 = 4096 := by
    simp only [inode_size]
    rw [show 12288 + 128 * 0 + 12 = 12288 + 12 by norm_num,
      rdLE_of_shifted_upto r5 12 8 (by norm_num), f3]
  have knz : ∀ k, k < 12 → direct_ptr (build_image o t1 t2 adj).data 0 k ≠ 0 → k = 0 := by
    intro k hk hne
    by_contra hc
    exact hne (pk k (by omega) hk)
  refine ⟨?_, ?_, ?_, ?_⟩
  · intro i k hi hb hk hne
    have := only0 i hi hb
    subst this
    have := knz k hk hne
    subst this
    rw [p0, Nat.sub_self]
    exact ⟨le_refl _, by omega, b2⟩
  · intro i k i' k' hi hb hk hi' hb' hk' hne he
    have e1 := only0 i hi hb
    have e2 := only0 i' hi' hb'
    subst e1 e2
    have e3 := knz k hk hne
    have e4 := knz k' hk' (he ▸ hne)
    exact ⟨rfl, by omega⟩
  · intro i k hi hb hk
    have := only0 i hi hb
    subst this
    rw [sz]
    by_cases hk0 : k = 0
    · subst hk0
      rw [p0]
      constructor
      · intro _; norm_num
      · intro _; omega
    · rw [pk k (by omega) hk]
      constructor
      · intro hc; exact absurd rfl hc
      · intro hc; omega
  · intro i hi hb
    have := only0 i hi hb
    subst this
    rw [sz]; norm_num

/-- The direct pointers and the size of the inode written by an insertion. -/
theorem insert_effect_new_ptr {o : options_t} {inp out : Image} {src : source_file}
    {now fi s : Nat} {js : List Nat} (hF : Formatted o inp) (hv : valid_source src)
    (hnd : need src ≤ 12) (E : insert_effect o inp src now out fi js s) :
    (∀ k, k < need src → direct_ptr out.data fi k = data_region_start o + js.getD k 0 ∧
      js.getD k 0 ∈ js) ∧
    (∀ k, need src ≤ k → k < 12 → direct_ptr out.data fi k = 0) ∧
    inode_size out.data fi = src.content.length ∧
    (∀ k, 4096 * k < src.content.length ↔ k < need src) ∧
    src.content.length ≤ 12 * 4096 := by
  obtain ⟨-, -, d3, d4, d5⟩ := insert_effect_direct hF hv hnd E
  have hneed := need_eq src hv.2.2
  refine ⟨fun k hk => ⟨d4 k hk, getD_mem js k (by rw [E.js_length]; exact hk)⟩, d5, d3, ?_, ?_⟩
  · intro k; omega
  · omega

/-- A successful insertion preserves block ownership. -/
theorem insert_effect_owned {o : options_t} {inp out : Image} {src : source_file}
    {now fi s : Nat} {js : List Nat} (hF : Formatted o inp) (hv : valid_source src)
    (hnd : need src ≤ 12) (hO : Owned o inp) (E : insert_effect o inp src now out fi js s) :
    Owned o out := by
  obtain ⟨a1, a2, a3, a4, a5, a6, a7, a8, a9⟩ := layout_arith o hF.opts_ok
  have hvo := (parse_cli_ok_iff o).1 hF.opts_ok
  obtain ⟨n1, n2, n3, n4, n5⟩ := insert_effect_new_ptr hF hv hnd E
  have old := fun i hi hne => insert_effect_old_ptr hF E i hi hne
  have jb : ∀ j ∈ js, j < data_region_blocks o ∧ ¬ bit_set inp.data 8192 j :=
    fun j hj => ⟨(E.js_clear j hj).2.1, (E.js_clear j hj).2.2⟩
  have bits : ∀ i, i < o.inodes → (bit_set out.data 4096 i ↔ (i = fi ∨ bit_set inp.data 4096 i)) :=
    fun i hi => E.inode_bits i (by omega)
  have wasold : ∀ i, i < o.inodes → bit_set out.data 4096 i → i ≠ fi → bit_set inp.data 4096 i := by
    intro i hi hb hne
    rcases (bits i hi).1 hb with h | h
    · exact absurd h hne
    · exact h
  have newnz : ∀ k, k < 12 → direct_ptr out.data fi k ≠ 0 → k < need src := by
    intro k hk hne
    by_contra hc
    exact hne (n2 k (by omega) hk)
  -- a pointer of the new inode never equals a pointer of an older one
  have cross : ∀ i k k', i < o.inodes → bit_set inp.data 4096 i → k < 12 → k' < 12 →
      direct_ptr inp.data i k ≠ 0 → direct_ptr inp.data i k = direct_ptr out.data fi k' →
      False := by
    intro i k k' hi hb hk hk' hne he
    have hk'' : k' < need src := newnz k' hk' (he ▸ hne)
    obtain ⟨e1, e2⟩ := n1 k' hk''
    obtain ⟨g1, g2, g3⟩ := hO.in_range i k hi hb hk hne
    rw [he, e1, Nat.add_sub_cancel_left] at g3
    exact (jb _ e2).2 g3
  refine ⟨?_, ?_, ?_, ?_⟩
  · intro i k hi hb hk hne
    by_cases hfi : i = fi
    · subst hfi
      obtain ⟨e1, e2⟩ := n1 k (newnz k hk hne)
      have := (jb _ e2).1
      rw [e1, Nat.add_sub_cancel_left]
      exact ⟨by omega, by omega, (E.data_bits _ (by omega)).2 (Or.inl e2)⟩
    · have hb' := wasold i hi hb hfi
      rw [(old i hi hfi).1 k hk] at hne ⊢
      obtain ⟨g1, g2, g3⟩ := hO.in_range i k hi hb' hk hne
      exact ⟨g1, g2, (E.data_bits _ (by omega)).2 (Or.inr g3)⟩
  · intro i k i' k' hi hb hk hi' hb' hk' hne he
    by_cases hfi : i = fi <;> by_cases hfi' : i' = fi
    · subst hfi
      subst hfi'
      refine ⟨rfl, ?_⟩
      have h1 := newnz k hk hne
      have h2 := newnz k' hk' (he ▸ hne)
      rw [(n1 k h1).1, (n1 k' h2).1] at he
      have hjj : js.getD k 0 = js.getD k' 0 := by omega
      by_contra hc
      rcases Nat.lt_or_gt_of_ne hc with hlt | hgt
      · have := getD_lt_of_sorted js E.js_sorted k k' hlt (by rw [E.js_length]; exact h2)
        omega
      · have := getD_lt_of_sorted js E.js_sorted k' k hgt (by rw [E.js_length]; exact h1)
        omega
    · subst hfi
      exfalso
      have hb'' := wasold i' hi' hb' hfi'
      rw [(old i' hi' hfi').1 k' hk'] at he
      exact cross i' k' k hi' hb'' hk' hk (he ▸ hne) he.symm
    · subst hfi'
      exfalso
      have hb'' := wasold i hi hb hfi
      rw [(old i hi hfi).1 k hk] at hne he
      exact cross i k k' hi hb'' hk hk' hne he
    · have hb1 := wasold i hi hb hfi
      have hb2 := wasold i' hi' hb' hfi'
      rw [(old i hi hfi).1 k hk] at hne he
      rw [(old i' hi' hfi').1 k' hk'] at he
      exact hO.distinct i k i' k' hi hb1 hk hi' hb2 hk' hne he
  · intro i k hi hb hk
    by_cases hfi : i = fi
    · subst hfi
      rw [n3, n4 k]
      constructor
      · exact newnz k hk
      · intro hk'
        obtain ⟨r1, r2, r3, r4⟩ := formatted_regions hF.opts_ok i E.fi_lt
        rw [(n1 k hk').1]
        omega
    · rw [(old i hi hfi).1 k hk, (old i hi hfi).2]
      exact hO.count i k hi (wasold i hi hb hfi) hk
  · intro i hi hb
    by_cases hfi : i = fi
    · subst hfi
      rw [n3]; exact n5
    · rw [(old i hi hfi).2]
      exact hO.size_le i hi (wasold i hi hb hfi)

/-- Every image the tools produce has the format's layout and block ownership. -/
theorem reachable_owned {img : Image} (h : Reachable img) :
    ∃ o, Formatted o img ∧ Owned o img := by
  induction h with
  | format o t1 t2 adj img hb =>
    simp only [mkfs_builder] at hb
    split at hb
    · injection hb with hb
      subst hb
      exact ⟨o, build_image_formatted o t1 t2 adj (by assumption),
        build_image_owned o t1 t2 adj (by assumption)⟩
    · cases hb
  | insert img src now out _ hv hok ih =>
    obtain ⟨o, hF, hO⟩ := ih
    obtain ⟨fi, js, s, E⟩ := mkfs_adder_effect hF hv hok
    have hnd : need src ≤ 12 := (mkfs_adder_ok_elim hok).2.2.2.2.2.1
    exact ⟨o, insert_effect_formatted hF hv E, insert_effect_owned hF hv hnd hO E⟩

theorem filter_range_twelve (P : Nat → Prop) [DecidablePred P] (n : Nat) (hn : n ≤ 12)
    (h : ∀ k, k < 12 → (P k ↔ k < n)) :
    ((List.range 12).filter (fun k => decide (P k))).length = n := by
  have e : (List.range 12).filter (fun k => decide (P k)) =
      (List.range 12).filter (fun k => decide (k < n)) := by
    apply List.filter_congr
    intro k hk
    have := h k (List.mem_range.1 hk)
    simp only [this]
  rw [e]
  interval_cases n <;> rfl

/-- Claim C18: in every image obtained from the formatter by successful insertions, each
non-zero direct pointer of an allocated inode lies in the data region and has its
data-bitmap bit set, no block number occurs in two direct-pointer slots, each allocated
inode has exactly `ceil(size_bytes / 4096)` non-zero direct pointers, and the inode added
by a further successful insertion points at none of the blocks already owned. -/
theorem C18_block_ownership (img : Image) (hr : Reachable img) :
    (∀ i k, i < rdLE img.data 20 8 → bit_set img.data 4096 i → k < 12 →
      direct_ptr img.data i k ≠ 0 →
      rdLE img.data 76 8 ≤ direct_ptr img.data i k ∧
      direct_ptr img.data i k < rdLE img.data 12 8 ∧
      bit_set img.data 8192 (direct_ptr img.data i k - rdLE img.data 76 8)) ∧
    (∀ i k i' k', i < rdLE img.data 20 8 → bit_set img.data 4096 i → k < 12 →
      i' < rdLE img.data 20 8 → bit_set img.data 4096 i' → k' < 12 →
      direct_ptr img.data i k ≠ 0 → direct_ptr img.data i k = direct_ptr img.data i' k' →
      i = i' ∧ k = k') ∧
    (∀ i, i < rdLE img.data 20 8 → bit_set img.data 4096 i →
      ((List.range 12).filter (fun k => decide (direct_ptr img.data i k ≠ 0))).length =
        ⌈((inode_size img.data i : ℕ) : ℚ) / 4096⌉₊) ∧
    (∀ (src : source_file) (now : Nat) (out : Image), valid_source src →
      mkfs_adder img src now = .ok out →
      ∀ i k, i < rdLE img.data 20 8 → bit_set img.data 4096 i → k < 12 →
        direct_ptr img.data i k ≠ 0 →
        ∀ fi k', fi < rdLE img.data 20 8 → ¬ bit_set img.data 4096 fi →
          bit_set out.data 4096 fi → k' < 12 →
          direct_ptr out.data fi k' ≠ direct_ptr img.data i k) := by
  obtain ⟨o, hF, hO⟩ := reachable_owned hr
  rw [hF.inode_count, hF.dr_start, hF.total]
  refine ⟨hO.in_range, hO.distinct, ?_, ?_⟩
  · intro i hi hb
    rw [ceil_div_4096]
    have hs := hO.size_le i hi hb
    apply filter_range_twelve _ _ (by omega)
    intro k hk
    rw [hO.count i k hi hb hk]
    omega
  · intro src now out hv hok i k hi hb hk hne fi k' hfi hfc hfs hk' he
    obtain ⟨fi', js, s, E⟩ := mkfs_adder_effect hF hv hok
    have hnd : need src ≤ 12 := (mkfs_adder_ok_elim hok).2.2.2.2.2.1
    have hO' := insert_effect_owned hF hv hnd hO E
    have hne' : i ≠ fi := fun h => hfc (h ▸ hb)
    have hfi' : fi = fi' := by
      rcases (E.inode_bits fi (by have := (parse_cli_ok_iff o).1 hF.opts_ok; omega)).1 hfs with h | h
      · exact h
      · exact absurd h hfc
    subst hfi'
    have hbo : bit_set out.data 4096 i :=
      (E.inode_bits i (by have := (parse_cli_ok_iff o).1 hF.opts_ok; omega)).2 (Or.inr hb)
    have hold := (insert_effect_old_ptr hF E i hi hne').1 k hk
    have := hO'.distinct i k fi k' hi hbo hk hfi hfs hk' (by rw [hold]; exact hne)
      (by rw [hold]; exact he.symm)
    exact hne' this.1

theorem C18_block_ownership_witness :
    rdLE sample_image.data 76 8 ≤ direct_ptr sample_image.data 0 0 ∧
    direct_ptr sample_image.data 0 0 < rdLE sample_image.data 12 8 ∧
    bit_set sample_image.data 8192
      (direct_ptr sample_image.data 0 0 - rdLE sample_image.data 76 8) := by
  obtain ⟨hok, hb, hdrs, -, hF, hR⟩ := sample_image_facts
  have hp : direct_ptr sample_image.data 0 0 = 7 := by
    have := hF.root_direct0
    rw [hdrs] at this
    simp only [direct_ptr]
    exact this
  exact (C18_block_ownership sample_image hR).1 0 0 (by rw [hF.inode_count]; norm_num)
    hF.ibit0 (by norm_num) (by rw [hp]; norm_num)

/-- Claim C17: a successful insertion into an image obtained from the formatter by
successful insertions changes only the superblock's `mtime_epoch` and `checksum`, one
bit of the inode bitmap, the data-bitmap bits of the `n` new blocks, the record of the
new inode, the root inode's `links`, `mtime` and `inode_crc`, one root-directory slot
that was free, and the `n` new blocks; every existing directory entry, every other inode
record and every block of an earlier file is the same in input and output. -/
theorem C17_insertion_frame (img out : Image) (src : source_file) (now : Nat)
    (hr : Reachable img) (hv : valid_source src) (h : mkfs_adder img src now = .ok out) :
    ∃ (fi : Nat) (js : List Nat) (s : Nat),
      (fi < rdLE img.data 20 8 ∧ ¬ bit_set img.data 4096 fi ∧ s < 64 ∧
        rdLE img.data (4096 * rdLE img.data 76 8 + 64 * s) 4 = 0 ∧
        js.length = ⌈((src.content.length : ℕ) : ℚ) / 4096⌉₊ ∧ js.Nodup ∧
        ∀ j ∈ js, j < rdLE img.data 84 8 ∧ ¬ bit_set img.data 8192 j) ∧
      out.size = img.size ∧
      (∀ x, ¬(100 ≤ x ∧ x < 108) → ¬(112 ≤ x ∧ x < 116) → x ≠ 4096 + fi / 8 →
        (∀ j ∈ js, x ≠ 8192 + j / 8) →
        ¬(12288 + 2 ≤ x ∧ x < 12288 + 4) → ¬(12288 + 28 ≤ x ∧ x < 12288 + 36) →
        ¬(12288 + 120 ≤ x ∧ x < 12288 + 128) →
        ¬(12288 + 128 * fi ≤ x ∧ x < 12288 + 128 * fi + 128) →
        ¬(4096 * rdLE img.data 76 8 + 64 * s ≤ x ∧
          x < 4096 * rdLE img.data 76 8 + 64 * s + 64) →
        (∀ j ∈ js, ¬(4096 * (rdLE img.data 76 8 + j) ≤ x ∧
          x < 4096 * (rdLE img.data 76 8 + j) + 4096)) →
        out.data x = img.data x) ∧
      (∀ i, i < 32768 → (bit_set out.data 4096 i ↔ (i = fi ∨ bit_set img.data 4096 i))) ∧
      (∀ j, j < 32768 → (bit_set out.data 8192 j ↔ (j ∈ js ∨ bit_set img.data 8192 j))) ∧
      (∀ s', s' < 64 → rdLE img.data (4096 * rdLE img.data 76 8 + 64 * s') 4 ≠ 0 →
        ∀ c, c < 64 → out.data (4096 * rdLE img.data 76 8 + 64 * s' + c) =
          img.data (4096 * rdLE img.data 76 8 + 64 * s' + c)) ∧
      (∀ i, 1 ≤ i → i < rdLE img.data 20 8 → i ≠ fi →
        ∀ c, c < 128 → out.data (12288 + 128 * i + c) = img.data (12288 + 128 * i + c)) ∧
      (∀ i k, 1 ≤ i → i < rdLE img.data 20 8 → bit_set img.data 4096 i → k < 12 →
        direct_ptr img.data i k ≠ 0 →
        ∀ c, c < 4096 → out.data (4096 * direct_ptr img.data i k + c) =
          img.data (4096 * direct_ptr img.data i k + c)) := by
  obtain ⟨o, hF, hO⟩ := reachable_owned hr
  obtain ⟨fi, js, s, E⟩ := mkfs_adder_effect hF hv h
  obtain ⟨a1, a2, a3, a4, a5, a6, a7, a8, a9⟩ := layout_arith o hF.opts_ok
  have hvo := (parse_cli_ok_iff o).1 hF.opts_ok
  obtain ⟨q1, q2, q3, q4⟩ := formatted_regions hF.opts_ok fi E.fi_lt
  have jb : ∀ j ∈ js, 1 ≤ j ∧ j < data_region_blocks o ∧ ¬ bit_set img.data 8192 j :=
    E.js_clear
  have hslt := E.s_lt
  rw [hF.inode_count, hF.dr_start, hF.dr_blocks]
  refine ⟨fi, js, s, ⟨E.fi_lt, E.fi_clear, E.s_lt, E.s_free, ?_, ?_,
    fun j hj => ⟨(jb j hj).2.1, (jb j hj).2.2⟩⟩, E.size_eq, E.frame, E.inode_bits, E.data_bits,
    ?_, ?_, ?_⟩
  · rw [E.js_length, need_eq src hv.2.2, ceil_div_4096]
  · exact (List.Pairwise.imp (fun hab => Nat.ne_of_lt hab) E.js_sorted)
  · intro s' hs' hne c hc
    have hss : s' ≠ s := fun e => hne (e ▸ E.s_free)
    apply E.frame
    · omega
    · omega
    · omega
    · intro j hj; have := jb j hj; omega
    · omega
    · omega
    · omega
    · omega
    · omega
    · intro j hj; have := jb j hj; omega
  · intro i h1 hi hne c hc
    exact insert_effect_inode_frame hF E i hi hne c hc (fun h0 => by omega)
  · intro i k h1 hi hb hk hne c hc
    obtain ⟨g1, g2, g3⟩ := hO.in_range i k hi hb hk hne
    have hroot : direct_ptr img.data 0 0 = data_region_start o := by
      have := hF.root_direct0
      simp only [direct_ptr]
      exact this
    have hp : direct_ptr img.data i k ≠ data_region_start o := by
      intro e
      have := hO.distinct i k 0 0 hi hb hk (by omega) hF.ibit0 (by norm_num) hne
        (by rw [e, hroot])
      omega
    have hnj : ∀ j ∈ js, direct_ptr img.data i k ≠ data_region_start o + j := by
      intro j hj e
      rw [e, Nat.add_sub_cancel_left] at g3
      exact (jb j hj).2.2 g3
    apply E.frame
    · omega
    · omega
    · omega
    · intro j hj; have := jb j hj; omega
    · omega
    · omega
    · omega
    · omega
    · omega
    · intro j hj
      have := hnj j hj
      omega

theorem C17_insertion_frame_witness :
    ∃ out, mkfs_adder sample_image hello_src 0 = .ok out ∧ out.size = sample_image.size ∧
      ∀ c, c < 64 → out.data (4096 * rdLE sample_image.data 76 8 + 64 * 0 + c) =
        sample_image.data (4096 * rdLE sample_image.data 76 8 + 64 * 0 + c) := by
  obtain ⟨hv, -, -, -⟩ := hello_src_facts
  obtain ⟨hok, -, hdrs, -, hF, hR⟩ := sample_image_facts
  obtain ⟨out, hout, -⟩ := sample_insert_facts
  obtain ⟨fi, js, s, -, h2, -, -, -, h6, -⟩ :=
    C17_insertion_frame sample_image out hello_src 0 hR hv hout
  obtain ⟨d1, -⟩ := build_image_rootdir ⟨180, 128⟩ 0 0 zeroMem hok
  exact ⟨out, hout, h2, h6 0 (by norm_num) (by
    rw [hF.dr_start]
    show rdLE (build_image ⟨180, 128⟩ 0 0 zeroMem).data _ 4 ≠ 0
    rw [d1]; norm_num)⟩

/-! ## Counting insertions -/

theorem reachedIn_reachable {k : Nat} {img : Image} (h : ReachedIn k img) : Reachable img := by
  induction k generalizing img with
  | zero =>
    obtain ⟨o, t1, t2, adj, hb⟩ := h
    exact Reachable.format o t1 t2 adj img hb
  | succ k ih =>
    obtain ⟨inp, src, now, hk, hv, hok⟩ := h
    exact Reachable.insert inp src now img (ih hk) hv hok

theorem reachable_reachedIn {img : Image} (h : Reachable img) : ∃ k, ReachedIn k img := by
  induction h with
  | format o t1 t2 adj img hb => exact ⟨0, o, t1, t2, adj, hb⟩
  | insert img src now out _ hv hok ih =>
    obtain ⟨k, hk⟩ := ih
    exact ⟨k + 1, img, src, now, hk, hv, hok⟩

theorem filter_range_length (P : Nat → Prop) [DecidablePred P] (n m : Nat) (hm : m ≤ n)
    (h : ∀ k, k < n → (P k ↔ k < m)) :
    ((List.range n).filter (fun k => decide (P k))).length = m := by
  induction n generalizing m with
  | zero =>
    have : m = 0 := by omega
    subst this
    rfl
  | succ n ih =>
    rw [List.range_succ, List.filter_append, List.length_append]
    by_cases hmn : m ≤ n
    · have hn : ¬ P n := fun hp => by have := (h n (by omega)).1 hp; omega
      rw [ih m hmn (fun k hk => h k (by omega))]
      simp [hn]
    · have hm' : m = n + 1 := by omega
      subst hm'
      have hn : P n := (h n (by omega)).2 (by omega)
      rw [ih n (le_refl _) (fun k hk => by
        have := h k (by omega)
        constructor
        · intro _; exact hk
        · intro _; exact this.2 (by omega))]
      simp [hn]

/-- An insertion leaves the other slots of the root directory as they were. -/
theorem insert_effect_slot_frame {o : options_t} {inp out : Image} {src : source_file}
    {now fi s : Nat} {js : List Nat} (hF : Formatted o inp)
    (E : insert_effect o inp src now out fi js s) (s' : Nat) (hs' : s' < 64) (hne : s' ≠ s)
    (c : Nat) (hc : c < 64) :
    out.data (4096 * data_region_start o + 64 * s' + c) =
      inp.data (4096 * data_region_start o + 64 * s' + c) := by
  obtain ⟨q1, q2, q3, q4⟩ := formatted_regions hF.opts_ok fi E.fi_lt
  have jb := E.js_clear
  have hslt := E.s_lt
  apply E.frame
  · omega
  · omega
  · omega
  · intro j hj; have := jb j hj; omega
  · omega
  · omega
  · omega
  · omega
  · omega
  · intro j hj; have := jb j hj; omega

/-- After `k` insertions the root has `2 + k` links, the first `2 + k` slots of the root
directory are the used ones, and the allocated inodes are those of index `0..k`. -/
theorem reachedIn_counts {k : Nat} {img : Image} (h : ReachedIn k img) :
    ∃ o, Formatted o img ∧ rdLE img.data (12288 + 2) 2 = 2 + k ∧
      (∀ s, s < 64 → (rdLE img.data (4096 * data_region_start o + 64 * s) 4 ≠ 0 ↔ s < 2 + k)) ∧
      (∀ i, i < 32768 → (bit_set img.data 4096 i ↔ i ≤ k)) ∧ k ≤ 62 := by
  induction k generalizing img with
  | zero =>
    obtain ⟨o, t1, t2, adj, hb⟩ := h
    simp only [mkfs_builder] at hb
    split at hb
    · rename_i hok
      injection hb with hb
      subst hb
      obtain ⟨b1, b2, b3, b4⟩ := build_image_bitmaps o t1 t2 adj hok
      obtain ⟨d1, d2, -, -, d5, -⟩ := build_image_rootdir o t1 t2 adj hok
      refine ⟨o, build_image_formatted o t1 t2 adj hok, build_image_root_links o t1 t2 adj hok,
        ?_, ?_, by norm_num⟩
      · intro s hs
        by_cases h2 : 2 ≤ s
        · rw [d5 s h2 hs]
          constructor
          · intro hc; exact absurd rfl hc
          · intro hc; omega
        · have : s = 0 ∨ s = 1 := by omega
          rcases this with rfl | rfl
          · rw [d1]; constructor <;> intro _ <;> norm_num
          · rw [d2]; constructor <;> intro _ <;> norm_num
      · intro i hi
        by_cases h0 : i = 0
        · subst h0
          constructor
          · intro _; exact le_refl _
          · intro _; exact b1
        · constructor
          · intro hb; exact absurd hb (b3 i (by omega) hi)
          · intro hc; omega
    · cases hb
  | succ k ih =>
    obtain ⟨inp, src, now, hk, hv, hok⟩ := h
    obtain ⟨o, hF, l1, l2, l3, l4⟩ := ih hk
    obtain ⟨fi, js, s, E⟩ := mkfs_adder_effect hF hv hok
    have hvo := (parse_cli_ok_iff o).1 hF.opts_ok
    have hname := (mkfs_adder_ok_elim hok).2.2.2.2.2.2.2.1
    obtain ⟨e1, -⟩ := insert_effect_entry hF hv hname E
    have hslt := E.s_lt
    have hfilt := E.fi_lt
    have hs : s = 2 + k := by
      have g1 : ¬ s < 2 + k := fun hc => (l2 s hslt).2 hc E.s_free
      by_contra hc
      have g2 := E.s_least (2 + k) (by omega)
      have := (l2 (2 + k) (by omega)).1 g2
      omega
    have hfi : fi = k + 1 := by
      have g1 : ¬ fi ≤ k := fun hc => E.fi_clear ((l3 fi (by omega)).2 hc)
      by_contra hc
      have g2 := E.fi_least (k + 1) (by omega)
      have := (l3 (k + 1) (by omega)).1 g2
      omega
    refine ⟨o, insert_effect_formatted hF hv E, ?_, ?_, ?_, by omega⟩
    · rw [E.root_links, l1]
      omega
    · intro s' hs'
      by_cases hss : s' = s
      · rw [hss, e1]
        constructor
        · intro _; omega
        · intro _; omega
      · have : rdLE img.data (4096 * data_region_start o + 64 * s') 4 =
            rdLE inp.data (4096 * data_region_start o + 64 * s') 4 := by
          apply rdLE_congr
          intro x h1 h2
          have := insert_effect_slot_frame hF E s' hs' hss
            (x - (4096 * data_region_start o + 64 * s')) (by omega)
          rw [show 4096 * data_region_start o + 64 * s' +
            (x - (4096 * data_region_start o + 64 * s')) = x by omega] at this
          exact this
        rw [this, l2 s' hs']
        omega
    · intro i hi
      rw [E.inode_bits i hi, l3 i hi]
      omega

/-- Claim C20: in an image obtained from the formatter by `k` successful insertions the
root inode's `links` is `2 + k`, which is the number of root-directory slots in use, and
the inode bitmap has exactly the bits `0..k` set; so `k ≤ 62`, `links` stays below
`2 ^ 16`, and no insertion into such an image ends with the error `no free inode`. -/
theorem C20_links_and_counts (k : Nat) (img : Image) (hr : ReachedIn k img) :
    rdLE img.data (12288 + 2) 2 = 2 + k ∧
    ((List.range 64).filter (fun s =>
      decide (rdLE img.data (4096 * rdLE img.data 76 8 + 64 * s) 4 ≠ 0))).length = 2 + k ∧
    (∀ i, i < 32768 → (bit_set img.data 4096 i ↔ i ≤ k)) ∧
    k ≤ 62 ∧ 2 + k < 2 ^ 16 ∧ 128 ≤ rdLE img.data 20 8 ∧
    (∀ (src : source_file) (now : Nat), mkfs_adder img src now ≠ .error .no_free_inode) := by
  obtain ⟨o, hF, l1, l2, l3, l4⟩ := reachedIn_counts hr
  have hvo := (parse_cli_ok_iff o).1 hF.opts_ok
  obtain ⟨o1, -⟩ := formatted_offsets hF
  refine ⟨l1, ?_, l3, l4, by omega, by rw [hF.inode_count]; omega, ?_⟩
  · rw [hF.dr_start]
    exact filter_range_length _ 64 (2 + k) (by omega) l2
  · intro src now h
    have H := mkfs_adder_error_elim h
    simp only [reduceCtorEq, false_and, false_or, true_and, and_false, or_false, exists_false,
      exists_const] at H
    have hscan : inode_scan img.data (inode_bm_off img.data) (rdLE img.data 20 8) 0
        = some (k + 1) := by
      rw [o1, hF.inode_count, inode_scan_some_iff]
      refine ⟨Nat.zero_le _, by omega, ?_, ?_⟩
      · intro hb
        have := (l3 (k + 1) (by omega)).1 hb
        omega
      · intro j _ hj
        exact (l3 j (by omega)).2 (by omega)
    have := H.2.2.2.2.2.2.2.2.2.2 (k + 1) hscan
    rw [to_int32_of_lt (by omega)] at this
    omega

theorem C20_links_and_counts_witness :
    ∃ out, mkfs_adder sample_image hello_src 0 = .ok out ∧
      rdLE out.data (12288 + 2) 2 = 2 + 1 ∧
      (∀ (src : source_file) (now : Nat), mkfs_adder out src now ≠ .error .no_free_inode) := by
  obtain ⟨out, hout, -⟩ := sample_insert_facts
  obtain ⟨h1, -, -, -, -, -, h7⟩ := C20_links_and_counts 1 out
    ⟨sample_image, hello_src, 0, ⟨⟨180, 128⟩, 0, 0, zeroMem, sample_image_facts.2.1⟩,
      hello_src_facts.1, hout⟩
  exact ⟨out, hout, h1, h7⟩

/-! ## Data-block allocation -/

/-- The data-block loop takes the first clear indices, as many as are still needed. -/
theorem alloc_blocks_take (bm nd drs drb : Nat) (hbm : 92 ≤ bm) :
    ∀ (k i : Nat) (m : Mem) (blocks : List Nat),
      drb ≤ i + k → rdLE m 84 8 = drb → rdLE m 76 8 = drs →
      (alloc_blocks bm nd k i m blocks).2 =
        blocks ++ (((List.range' i (drb - i)).filter
          (fun j => decide (¬ bit_set m bm j))).take (nd - blocks.length)).map
            (fun j => (drs + j) % 2 ^ 64 % 2 ^ 32) := by
  intro k
  induction k with
  | zero =>
    intro i m blocks h1 _ _
    have : drb - i = 0 := by omega
    rw [this]
    simp [alloc_blocks]
  | succ k ih =>
    intro i m blocks h1 h84 h76
    rw [alloc_blocks]
    by_cases hc : i < rdLE m 84 8 ∧ blocks.length < nd
    · rw [if_pos hc]
      rw [h84] at hc
      have hr : drb - i = (drb - (i + 1)) + 1 := by omega
      rw [hr, List.range'_succ]
      by_cases hb : get_bit m bm i = 0
      · have hclr := (get_bit_eq_zero_iff _ _ _).1 hb
        rw [if_pos hb, ih (i + 1) (set_bit m bm i) _ (by omega)
          (by rw [rdLE_set_bit _ _ _ _ _ (by omega), h84])
          (by rw [rdLE_set_bit _ _ _ _ _ (by omega), h76])]
        have hf : (List.range' (i + 1) (drb - (i + 1))).filter
            (fun j => decide (¬ bit_set (set_bit m bm i) bm j)) =
            (List.range' (i + 1) (drb - (i + 1))).filter
              (fun j => decide (¬ bit_set m bm j)) := by
          apply List.filter_congr
          intro j hj
          have hj' := List.mem_range'_1.1 hj
          have : bit_set (set_bit m bm i) bm j ↔ bit_set m bm j := by
            rw [bit_set_set_bit]
            constructor
            · rintro (h | h)
              · omega
              · exact h
            · exact Or.inr
          simp only [this]
        have hn : nd - blocks.length = (nd - (blocks ++ [(rdLE m 76 8 + i) % 2 ^ 64 % 2 ^ 32]).length) + 1 := by
          simp only [List.length_append, List.length_singleton]; omega
        rw [hf, List.filter_cons_of_pos (by simpa using hclr), hn, List.take_succ_cons,
          List.map_cons, h76, List.append_assoc, List.singleton_append]
      · have hset : bit_set m bm i := by
          by_contra hc'
          exact hb ((get_bit_eq_zero_iff _ _ _).2 hc')
        rw [if_neg hb, ih (i + 1) m blocks (by omega) h84 h76,
          List.filter_cons_of_neg (by simpa using hset)]
    · rw [if_neg hc]
      rw [h84] at hc
      by_cases h2 : i < drb
      · have : nd - blocks.length = 0 := by omega
        rw [this]
        simp
      · have : drb - i = 0 := by omega
        rw [this]
        simp

theorem clear_bits_mem (m : Mem) (bm n j : Nat) :
    j ∈ clear_bits m bm n ↔ j < n ∧ ¬ bit_set m bm j := by
  simp [clear_bits]

theorem take_mem {l : List Nat} {n j : Nat} (h : j ∈ l.take n) : j ∈ l :=
  List.mem_of_mem_take h

/-- In an image with the format's layout the blocks handed out are the first clear
indices of the data bitmap, as many as needed, each moved by `data_region_start`. -/
theorem formatted_alloc_take {o : options_t} {inp : Image} (hF : Formatted o inp)
    (src : source_file) :
    (alloc_stage inp.data src).2 =
      ((clear_bits inp.data 8192 (data_region_blocks o)).take (need src)).map
        (fun j => data_region_start o + j) := by
  obtain ⟨a1, a2, a3, a4, a5, a6, a7, a8, a9⟩ := layout_arith o hF.opts_ok
  have h := alloc_blocks_take 8192 (need src) (data_region_start o) (data_region_blocks o)
    (by norm_num) (2 ^ 64) 0 inp.data [] (by omega) hF.dr_blocks hF.dr_start
  rw [alloc_stage, (formatted_offsets hF).2.1, h, List.nil_append, List.length_nil,
    Nat.sub_zero, Nat.sub_zero, ← List.range_eq_range']
  apply List.map_congr_left
  intro j hj
  have := ((clear_bits_mem _ _ _ _).1 (take_mem hj)).1
  show (data_region_start o + j) % 2 ^ 64 % 2 ^ 32 = data_region_start o + j
  omega

theorem formatted_alloc_length {o : options_t} {inp : Image} (hF : Formatted o inp)
    (src : source_file) :
    ((alloc_stage inp.data src).2.length < need src ↔
      (clear_bits inp.data 8192 (data_region_blocks o)).length < need src) := by
  rw [formatted_alloc_take hF, List.length_map, List.length_take]
  omega

/-- The format's invariant is kept by a change of the image that leaves the first two
blocks and the inode table alone, keeps bit 0 of the data bitmap set and leaves every
used root-directory entry sealed. -/
theorem formatted_transfer {o : options_t} {img img' : Image} (hF : Formatted o img)
    (hsz : img'.size = img.size)
    (hlow : ∀ x, x < 8192 → img'.data x = img.data x)
    (hit : ∀ x, 12288 ≤ x → x < 4096 * data_region_start o → img'.data x = img.data x)
    (hd0 : bit_set img'.data 8192 0)
    (hde : ∀ s, s < 64 → rdLE img'.data (4096 * data_region_start o + 64 * s) 4 ≠ 0 →
      dirent_sealed img'.data (4096 * data_region_start o + 64 * s)) :
    Formatted o img' := by
  have rd : ∀ a n, a + n ≤ 8192 → rdLE img'.data a n = rdLE img.data a n :=
    fun a n h => rdLE_congr (fun x h1 h2 => hlow x (by omega))
  obtain ⟨r1, r2, r3, r4⟩ := formatted_regions hF.opts_ok 0
    (by have := (parse_cli_ok_iff o).1 hF.opts_ok; omega)
  have rd2 : ∀ a n, 12288 ≤ a → a + n ≤ 12288 + 128 → rdLE img'.data a n = rdLE img.data a n :=
    fun a n h h' => rdLE_congr (fun x h1 h2 => hit x (by omega) (by omega))
  refine ⟨hF.opts_ok, hsz.trans hF.size_eq, ?_, ?_, ?_, ?_, ?_, ?_, ?_, ?_, ?_, ?_, ?_, ?_, ?_,
    hd0, ?_, hde⟩
  · rw [rd 0 4 (by norm_num)]; exact hF.magic
  · rw [rd 8 4 (by norm_num)]; exact hF.block_size
  · rw [rd 12 8 (by norm_num)]; exact hF.total
  · rw [rd 20 8 (by norm_num)]; exact hF.inode_count
  · rw [rd 28 8 (by norm_num)]; exact hF.ibm_start
  · rw [rd 44 8 (by norm_num)]; exact hF.dbm_start
  · rw [rd 60 8 (by norm_num)]; exact hF.itab_start
  · rw [rd 76 8 (by norm_num)]; exact hF.dr_start
  · rw [rd 84 8 (by norm_num)]; exact hF.dr_blocks
  · intro a h1 h2
    rw [hlow a (by omega)]; exact hF.sb_pad a h1 h2
  · rw [rd2 12288 2 (by norm_num) (by norm_num)]; exact hF.root_mode
  · rw [rd2 (12288 + 44) 4 (by norm_num) (by norm_num)]; exact hF.root_direct0
  · rw [bit_set_congr (hlow _ (by norm_num))]; exact hF.ibit0
  · intro i hi hb
    obtain ⟨q1, q2, q3, q4⟩ := formatted_regions hF.opts_ok i hi
    rw [bit_set_congr (hlow _ (by omega))] at hb
    rw [inode_sealed_congr (fun c hc => hit _ (by omega) (by omega))]
    exact hF.inodes_sealed i hi hb

theorem crowded_image_frame (x : Nat) (h : x < 4096 * 7 ∨ 4096 * 8 ≤ x) :
    crowded_image.data x = sample_image.data x := by
  show (if 4096 * 7 ≤ x ∧ x < 4096 * 7 + 4096 then dot_entry 1 ((x - 4096 * 7) % 64)
    else sample_image.data x) = _
  rw [if_neg (by omega)]

theorem crowded_image_slot (s i : Nat) (hs : s < 64) (hi : i < 64) :
    crowded_image.data (4096 * 7 + 64 * s + i) = dot_entry 1 i := by
  show (if 4096 * 7 ≤ 4096 * 7 + 64 * s + i ∧ 4096 * 7 + 64 * s + i < 4096 * 7 + 4096 then
    dot_entry 1 ((4096 * 7 + 64 * s + i - 4096 * 7) % 64)
    else sample_image.data (4096 * 7 + 64 * s + i)) = _
  rw [if_pos (by omega)]
  exact congrArg _ (by omega)

/-- The crowded image has the format's layout; every slot of its root directory is in
use and is named `.`. -/
theorem crowded_image_facts :
    Formatted ⟨180, 128⟩ crowded_image ∧
    (∀ s, s < 64 → rdLE crowded_image.data (4096 * 7 + 64 * s) 4 = 1) ∧
    (∀ s, s < 64 → dirent_name crowded_image.data (4096 * 7 + 64 * s) = [46]) ∧
    ¬ bit_set crowded_image.data 4096 1 ∧
    (∀ j, 1 ≤ j → j < 32768 → ¬ bit_set crowded_image.data 8192 j) := by
  obtain ⟨hok, -, hdrs, hdrb, hF, -⟩ := sample_image_facts
  obtain ⟨b1, b2, b3, b4⟩ := build_image_bitmaps ⟨180, 128⟩ 0 0 zeroMem hok
  obtain ⟨-, -, d3, -⟩ := build_image_rootdir ⟨180, 128⟩ 0 0 zeroMem hok
  obtain ⟨-, -, -, -, -, -, r7, -⟩ := build_image_regions ⟨180, 128⟩ 0 0 zeroMem hok
  obtain ⟨e1, -, -, e4⟩ := dot_entry_fields 1
  rw [hdrs] at d3 r7
  have slots : ∀ s, s < 64 → rdLE crowded_image.data (4096 * 7 + 64 * s) 4 = 1 := by
    intro s hs
    have := rdLE_of_shifted_upto (fun i hi => crowded_image_slot s i hs hi) 0 4 (by norm_num)
    rw [Nat.add_zero] at this
    rw [this, e1]
  refine ⟨?_, slots, ?_, ?_, ?_⟩
  · refine formatted_transfer hF rfl (fun x hx => crowded_image_frame x (Or.inl (by omega)))
      (fun x _ hx => crowded_image_frame x (Or.inl (by rw [hdrs] at hx; exact hx))) ?_ ?_
    · rw [bit_set_congr (crowded_image_frame _ (Or.inl (by norm_num)))]
      exact hF.dbit0
    · intro s hs _
      rw [hdrs]
      exact (@dirent_sealed_congr crowded_image.data (dot_entry 1) (4096 * 7 + 64 * s) 0
        (fun i hi => by rw [crowded_image_slot s i hs hi, Nat.zero_add])).2 e4
  · intro s hs
    rw [← d3]
    simp only [dirent_name]
    refine congrArg _ (rdBytes_congr (fun i hi => ?_))
    rw [show 4096 * 7 + 64 * s + 5 + i = 4096 * 7 + 64 * s + (5 + i) by omega,
      crowded_image_slot s (5 + i) hs (by omega)]
    rw [show 4096 * 7 + 64 * 0 + 5 + i = 4096 * 7 + (5 + i) by omega]
    exact (r7 (5 + i) (by omega)).symm
  · rw [bit_set_congr (crowded_image_frame _ (Or.inl (by norm_num)))]
    exact b3 1 (le_refl _) (by norm_num)
  · intro j h1 h2
    rw [bit_set_congr (crowded_image_frame _ (Or.inl (by omega)))]
    exact b4 j h1 h2

/-- Claim C16 (amended): in an image with the format's layout (its root directory is the
first block of the data region, whose data-bitmap bit is set), when image and source
file pass every earlier check and each of the 64 slots of the root directory has
`inode_no ≠ 0`, the inserter ends with `root directory full` and writes no image,
although the copy loop has run and the inode bit has been set in memory. -/
theorem C16_root_directory_full (o : options_t) (inp : Image) (src : source_file)
    (now : Nat) (hF : Formatted o inp) (hv : valid_source src)
    (hreg : src.st_mode &&& S_IFREG ≠ 0) (hfit : src.content.length ≤ 12 * 4096)
    (hname : 1 ≤ (base_name src.path).length ∧ (base_name src.path).length ≤ 58)
    (hnew : ∀ s', s' < 64 → rdLE inp.data (4096 * rdLE inp.data 76 8 + 64 * s') 4 ≠ 0 →
      dirent_name inp.data (4096 * rdLE inp.data 76 8 + 64 * s') ≠ base_name src.path)
    (hino : ∃ i, i < rdLE inp.data 20 8 ∧ ¬ bit_set inp.data 4096 i)
    (hspace : ⌈((src.content.length : ℕ) : ℚ) / 4096⌉₊ ≤
      (clear_bits inp.data 8192 (rdLE inp.data 84 8)).length)
    (hfull : ∀ s, s < 64 → rdLE inp.data (4096 * rdLE inp.data 76 8 + 64 * s) 4 ≠ 0) :
    mkfs_adder inp src now = .error .root_full ∧
    ∃ i m2, inode_scan inp.data (inode_bm_off inp.data) (rdLE inp.data 20 8) 0 = some i ∧
      copy_stage inp.data src = .ok m2 ∧ ¬ bit_set inp.data 4096 i ∧
      bit_set (inode_stage inp.data src now i m2) 4096 i := by
  rw [hF.dr_start] at hnew hfull
  rw [hF.inode_count] at hino
  rw [hF.dr_blocks, ceil_div_4096, ← need_eq src hv.2.2] at hspace
  have hneed : need src ≤ 12 := by rw [need_eq src hv.2.2]; omega
  have hblk : need src ≤ (alloc_stage inp.data src).2.length := by
    have := formatted_alloc_length hF src
    omega
  obtain ⟨o1, o2, o3, o4, o5⟩ := formatted_offsets hF
  have hvo := (parse_cli_ok_iff o).1 hF.opts_ok
  have hnz : ∀ c ∈ base_name src.path, c ≠ 0 := fun c hc => by
    have := hv.1 c (base_name_mem _ c hc); omega
  have slotc : ∀ t, 4096 * data_region_start o + t * 64 = 4096 * data_region_start o + 64 * t :=
    fun t => by omega
  obtain ⟨js, m2, c1, c2, c3, c4⟩ := formatted_copy_stage hF src hv hblk
  have hscan : ∃ i, inode_scan inp.data (inode_bm_off inp.data) (rdLE inp.data 20 8) 0 = some i := by
    cases hsc : inode_scan inp.data (inode_bm_off inp.data) (rdLE inp.data 20 8) 0 with
    | none =>
      exfalso
      obtain ⟨i, i1, i2⟩ := hino
      rw [o1, hF.inode_count] at hsc
      exact i2 ((inode_scan_none_iff _ _ _ _).1 hsc i (Nat.zero_le _) (by omega))
    | some k => exact ⟨k, rfl⟩
  obtain ⟨i, hi⟩ := hscan
  obtain ⟨⟨k1, k2, -⟩, k3, -⟩ := formatted_inode_scan hF hi
  refine ⟨?_, i, m2, hi, c1, k2, ?_⟩
  · cases hres : mkfs_adder inp src now with
    | ok out =>
      exfalso
      obtain ⟨fi, js', s, E⟩ := mkfs_adder_effect hF hv hres
      exact hfull s E.s_lt E.s_free
    | error e =>
      have H := mkfs_adder_error_elim hres
      clear hres
      rcases H with ⟨-, h⟩ | ⟨-, H⟩
      · exfalso; rw [hF.size_eq] at h; simp only [BS] at h
        have := (layout_arith o hF.opts_ok).2.2.2.2.2.2.1; omega
      rcases H with ⟨-, h⟩ | ⟨-, H⟩
      · exfalso; rw [hF.size_eq] at h; simp only [BS] at h; omega
      rcases H with ⟨-, h⟩ | ⟨-, H⟩
      · exact absurd hF.magic h
      rcases H with ⟨-, h⟩ | ⟨-, H⟩
      · exact absurd hF.block_size h
      rcases H with ⟨-, h⟩ | ⟨-, H⟩
      · exact absurd h hreg
      rcases H with ⟨-, h⟩ | ⟨-, H⟩
      · exfalso; simp only [DIRECT_MAX] at h; omega
      rcases H with ⟨-, h⟩ | ⟨-, H⟩
      · exfalso; omega
      rcases H with ⟨-, h⟩ | ⟨-, H⟩
      · exfalso; rw [o4] at h; exact h hF.root_mode
      rcases H with ⟨-, h⟩ | ⟨-, H⟩
      · exfalso
        rw [o4, hF.root_direct0] at h
        have := (layout_arith o hF.opts_ok).2.2.1; omega
      rcases H with ⟨-, h⟩ | ⟨-, H⟩
      · exfalso
        rw [o5] at h
        obtain ⟨s', s1, s2, s3, s4⟩ := (dup_scan_iff _ _ src hname.2 hnz _ _).1 h
        rw [slotc] at s3 s4
        exact hnew s' (by simp only [BS] at s2; omega) s3 s4
      rcases H with ⟨-, h⟩ | ⟨i', hi', hi0, H⟩
      · exfalso
        have := h i hi
        rw [to_int32_of_lt (by omega)] at this
        omega
      rcases H with ⟨-, h⟩ | ⟨-, h⟩ | ⟨he, -⟩
      · exfalso; omega
      · exfalso; cases c1.symm.trans h
      · rw [he]
  · rw [inode_stage, o1]
    exact (bit_set_set_bit _ _ _ _).2 (Or.inl rfl)

theorem C16_root_directory_full_witness :
    mkfs_adder crowded_image hello_src 0 = .error .root_full := by
  obtain ⟨hv, hreg, hlen, hbase⟩ := hello_src_facts
  obtain ⟨hF, c1, c2, c3, c4⟩ := crowded_image_facts
  have hdrs : rdLE crowded_image.data 76 8 = 7 := by rw [hF.dr_start]; decide
  have hdrb : rdLE crowded_image.data 84 8 = 38 := by rw [hF.dr_blocks]; decide
  have hmem : ∀ j, 1 ≤ j → j < 38 → j ∈ clear_bits crowded_image.data 8192 38 :=
    fun j h1 h2 => (clear_bits_mem _ _ _ _).2 ⟨h2, c4 j h1 (by omega)⟩
  have hsub : [1, 2] ⊆ clear_bits crowded_image.data 8192 38 := by
    intro j hj
    simp only [List.mem_cons, List.mem_singleton, List.not_mem_nil, or_false] at hj
    rcases hj with rfl | rfl
    · exact hmem 1 (by norm_num) (by norm_num)
    · exact hmem 2 (by norm_num) (by norm_num)
  have hlen2 : 2 ≤ (clear_bits crowded_image.data 8192 38).length :=
    (List.Nodup.subperm (by decide) hsub).length_le
  exact (C16_root_directory_full ⟨180, 128⟩ crowded_image hello_src 0 hF hv hreg
    (by rw [hlen]; norm_num) (by rw [hbase]; decide)
    (by
      intro s' hs' _
      rw [hdrs, c2 s' hs', hbase]
      decide)
    ⟨1, by rw [hF.inode_count]; norm_num, c3⟩
    (by rw [hdrb, ceil_div_4096, hlen]; exact hlen2)
    (by
      intro s hs
      rw [hdrs, c1 s hs]
      norm_num)).1

theorem crowded_stale_frame (x : Nat) (h : x ≠ 8192) :
    crowded_stale_image.data x = crowded_image.data x := by
  show wr8 crowded_image.data 8192 0 x = _
  rw [wr8_apply, if_neg h]

theorem crowded_stale_rd (a n : Nat) (h : a + n ≤ 8192 ∨ 8192 < a) :
    rdLE crowded_stale_image.data a n = rdLE crowded_image.data a n :=
  rdLE_congr (fun x h1 h2 => crowded_stale_frame x (by omega))

theorem crowded_stale_offsets :
    inode_bm_off crowded_stale_image.data = 4096 ∧
    data_bm_off crowded_stale_image.data = 8192 ∧
    inodes_off crowded_stale_image.data = 12288 ∧ root_off crowded_stale_image.data = 12288 ∧
    rootblk_off crowded_stale_image.data = 4096 * 7 ∧
    rdLE crowded_stale_image.data 20 8 = 128 ∧ rdLE crowded_stale_image.data 76 8 = 7 ∧
    rdLE crowded_stale_image.data 84 8 = 38 := by
  obtain ⟨hF, -⟩ := crowded_image_facts
  have hdrs : data_region_start ⟨180, 128⟩ = 7 := by decide
  have hdrb : data_region_blocks ⟨180, 128⟩ = 38 := by decide
  have h3 : inodes_off crowded_stale_image.data = 12288 := by
    simp only [inodes_off, crowded_stale_rd 60 8 (by norm_num), hF.itab_start, BS]; norm_num
  have h4 : root_off crowded_stale_image.data = 12288 := by
    simp only [root_off, h3, ROOT_INO, INODE_SIZE]
  refine ⟨?_, ?_, h3, h4, ?_, ?_, ?_, ?_⟩
  · simp only [inode_bm_off, crowded_stale_rd 28 8 (by norm_num), hF.ibm_start, BS]; norm_num
  · simp only [data_bm_off, crowded_stale_rd 44 8 (by norm_num), hF.dbm_start, BS]; norm_num
  · simp only [rootblk_off, h4, crowded_stale_rd (12288 + 44) 4 (by norm_num),
      hF.root_direct0, hdrs, BS]; norm_num
  · rw [crowded_stale_rd 20 8 (by norm_num), hF.inode_count]
  · rw [crowded_stale_rd 76 8 (by norm_num), hF.dr_start, hdrs]
  · rw [crowded_stale_rd 84 8 (by norm_num), hF.dr_blocks, hdrb]

/-- The checks of the inserter pass on the stale crowded image, and its scan finds inode
index 1. -/
theorem crowded_stale_checks :
    (crowded_stale_image.size ≠ 0 ∧ crowded_stale_image.size % BS = 0) ∧
    (rdLE crowded_stale_image.data 0 4 = MAGIC ∧ rdLE crowded_stale_image.data 8 4 = BS) ∧
    (rdLE crowded_stale_image.data (root_off crowded_stale_image.data) 2 = MODE_DIR ∧
      rdLE crowded_stale_image.data (root_off crowded_stale_image.data + 44) 4 ≠ 0) ∧
    dup_scan crowded_stale_image.data (rootblk_off crowded_stale_image.data)
      (fname hello_src) (BS / 64) 0 = false ∧
    inode_scan crowded_stale_image.data (inode_bm_off crowded_stale_image.data)
      (rdLE crowded_stale_image.data 20 8) 0 = some 1 := by
  obtain ⟨hF, c1, c2, c3, c4⟩ := crowded_image_facts
  have hdrs : data_region_start ⟨180, 128⟩ = 7 := by decide
  obtain ⟨o1, o2, o3, o4, o5, o6, o7, o8⟩ := crowded_stale_offsets
  obtain ⟨-, -, p1, -, -, p4, -⟩ := sample_insert_facts
  obtain ⟨hv, hreg, hlen, hbase⟩ := hello_src_facts
  refine ⟨p1, ⟨?_, ?_⟩, ⟨?_, ?_⟩, ?_, ?_⟩
  · rw [crowded_stale_rd 0 4 (by norm_num)]; exact hF.magic
  · rw [crowded_stale_rd 8 4 (by norm_num)]; exact hF.block_size
  · rw [o4, crowded_stale_rd 12288 2 (by norm_num)]; exact hF.root_mode
  · rw [o4, crowded_stale_rd (12288 + 44) 4 (by norm_num), hF.root_direct0, hdrs]; norm_num
  · have hnz : ∀ c ∈ base_name hello_src.path, c ≠ 0 := fun c hc => by
      have := hv.1 c (base_name_mem _ c hc); omega
    cases hd : dup_scan crowded_stale_image.data (rootblk_off crowded_stale_image.data)
      (fname hello_src) (BS / 64) 0 with
    | false => rfl
    | true =>
      exfalso
      obtain ⟨s, s1, s2, s3, s4⟩ := (dup_scan_iff _ _ hello_src p4.2 hnz _ _).1 hd
      simp only [BS] at s2
      rw [o5] at s4
      have e : dirent_name crowded_stale_image.data (4096 * 7 + s * 64) =
          dirent_name crowded_image.data (4096 * 7 + 64 * s) := by
        simp only [dirent_name]
        refine congrArg _ (rdBytes_congr (fun i hi => ?_))
        rw [crowded_stale_frame _ (by omega)]
        exact congrArg _ (by omega)
      rw [e, c2 s (by omega), hbase] at s4
      revert s4
      decide
  · rw [o1, o6, inode_scan_some_iff]
    refine ⟨by norm_num, by norm_num, ?_, ?_⟩
    · rw [bit_set_congr (crowded_stale_frame _ (by norm_num))]
      exact c3
    · intro j _ hj
      have : j = 0 := by omega
      subst this
      rw [bit_set_congr (crowded_stale_frame _ (by norm_num))]
      exact hF.ibit0

theorem hello_src_need : need hello_src = 2 ∧ fsize hello_src = 5000 := by
  obtain ⟨hv, -, hlen, -⟩ := hello_src_facts
  constructor
  · rw [need_eq hello_src hv.2.2, hlen]
  · rw [fsize, hlen]; norm_num

theorem hello_src_zero (i : Nat) : hello_src.content.getD i 0 = 0 := by
  simp only [hello_src, List.getD_eq_getElem?_getD, List.getElem?_replicate]
  split <;> rfl

/-- On the stale crowded image the allocation loop hands out the first two blocks of the
data region, the first of which holds the root directory. -/
theorem crowded_stale_alloc :
    (alloc_stage crowded_stale_image.data hello_src).2 = [7, 8] ∧
    (∀ x, x < 8192 ∨ 8197 ≤ x →
      (alloc_stage crowded_stale_image.data hello_src).1 x = crowded_stale_image.data x) := by
  obtain ⟨o1, o2, o3, o4, o5, o6, o7, o8⟩ := crowded_stale_offsets
  obtain ⟨hn, -⟩ := hello_src_need
  have hclear : ∀ j, 0 ≤ j → j < 0 + 2 → ¬ bit_set crowded_stale_image.data 8192 j := by
    intro j _ hj
    apply bit_set_of_zero
    have : j / 8 = 0 := by omega
    rw [this]
    show wr8 crowded_image.data 8192 0 (8192 + 0) = 0
    rw [wr8_apply, if_pos rfl]
  have hrun := alloc_blocks_clear_run 8192 2 7 38 (by norm_num) 2 (2 ^ 64) 0
    crowded_stale_image.data [] (by simp) (by norm_num) (by norm_num) o8 o7 hclear
  obtain ⟨js, e1, e2, e3, e4, -⟩ :=
    alloc_blocks_spec 8192 2 7 38 (by norm_num) (2 ^ 64) 0 crowded_stale_image.data []
      (by norm_num) o8 o7
  rw [alloc_stage, o2, hn]
  refine ⟨by rw [hrun]; rfl, ?_⟩
  intro x hx
  apply e4
  intro j hj
  have := (e3 j hj).2.1
  omega

/-- The copy loop then overwrites the root directory block with the first block of the
file. -/
theorem crowded_stale_copy :
    ∃ m2, copy_stage crowded_stale_image.data hello_src = .ok m2 ∧
      (∀ x, 4096 * 7 ≤ x → x < 4096 * 9 → m2 x = 0) := by
  obtain ⟨hv, -, hlen, -⟩ := hello_src_facts
  obtain ⟨hn, -⟩ := hello_src_need
  obtain ⟨a1, a2⟩ := crowded_stale_alloc
  obtain ⟨m2, g1, g2, g3⟩ := copy_blocks_sorted hello_src 7 [0, 1]
    (alloc_stage crowded_stale_image.data hello_src).1 hv.2.2 (by simp) (by rw [hn]; rfl)
    (by intro j hj; simp only [List.mem_cons, List.mem_singleton, List.not_mem_nil, or_false] at hj
        omega)
  refine ⟨m2, ?_, ?_⟩
  · rw [copy_stage, if_neg (by rw [a1, hn]; simp)]
    generalize alloc_stage crowded_stale_image.data hello_src = A at a1 g1
    obtain ⟨A1, A2⟩ := A
    simp only at a1 g1 ⊢
    subst a1
    exact g1
  · intro x h1 h2
    by_cases hx : x < 4096 * 8
    · have := g3 0 (by rw [hn]; norm_num) (x - 4096 * 7) (by omega)
      rw [hello_src_zero] at this
      rw [← this]
      exact congrArg m2 (by simp only [List.getD_cons_zero]; omega)
    · have := g3 1 (by rw [hn]; norm_num) (x - 4096 * 8) (by omega)
      rw [hello_src_zero] at this
      rw [← this]
      exact congrArg m2 (by simp only [List.getD_cons_succ, List.getD_cons_zero]; omega)

/-- Counterexample to claim C16 as stated: every slot of the root directory of the stale
crowded image has `inode_no ≠ 0`, the image and `hello.txt` pass every check, and the
insertion succeeds, because the copy loop has emptied the root directory block before
the slots are scanned. -/
theorem C16_stale_bitmap_frees_slot :
    (∀ s, s < 64 →
      rdLE crowded_stale_image.data (rootblk_off crowded_stale_image.data + 64 * s) 4 ≠ 0) ∧
    ∃ out, mkfs_adder crowded_stale_image hello_src 0 = .ok out := by
  obtain ⟨hF, c1, c2, c3, c4⟩ := crowded_image_facts
  obtain ⟨o1, o2, o3, o4, o5, o6, o7, o8⟩ := crowded_stale_offsets
  obtain ⟨k1, k2, k3, k4, k5⟩ := crowded_stale_checks
  obtain ⟨hv, hreg, hlen, hbase⟩ := hello_src_facts
  obtain ⟨hn, -⟩ := hello_src_need
  obtain ⟨m2, g1, g2⟩ := crowded_stale_copy
  constructor
  · intro s hs
    rw [o5, crowded_stale_rd _ _ (Or.inr (by omega)), c1 s hs]
    norm_num
  · have hslot : rdLE (inode_stage crowded_stale_image.data hello_src 0 1 m2)
        (rootblk_off crowded_stale_image.data + 0 * 64) 4 = 0 := by
      apply rdLE_zero
      intro x h1 h2
      rw [o5] at h1 h2
      rw [inode_stage, o1, o3, set_bit_frame _ _ _ _ (by omega),
        write_inode_frame _ _ _ _ _ _ _ (by rw [hn]; norm_num)
          (by simp only [INODE_SIZE]; omega)]
      exact g2 x (by omega) (by omega)
    have hp := (place_dirent_some_iff (rootblk_off crowded_stale_image.data)
      (new_dirent 1 (base_name hello_src.path)) (BS / 64) 0
      (inode_stage crowded_stale_image.data hello_src 0 1 m2) _).2
      ⟨0, le_refl _, by simp only [BS]; norm_num, hslot, fun s' _ h => absurd h (by omega), rfl⟩
    exact ⟨_, mkfs_adder_ok_intro k1 k2 ⟨hreg, by rw [hn]; simp only [DIRECT_MAX]; norm_num⟩
      (by rw [hbase]; decide) k3 k4 k5 (by norm_num) g1 hp⟩

/-! ## Reading a file back from an image with a stale data bitmap -/

/-- The superblock and root-inode fields of the image with 2^31 + 1 inodes. -/
theorem huge_image_fields :
    rdLE huge_image.data 0 4 = MAGIC ∧ rdLE huge_image.data 8 4 = BS ∧
    rdLE huge_image.data 20 8 = 2 ^ 31 + 1 ∧ inode_bm_off huge_image.data = 4096 ∧
    root_off huge_image.data = 4096 * 65538 ∧
    rdLE huge_image.data (4096 * 65538) 2 = MODE_DIR ∧
    rdLE huge_image.data (4096 * 65538 + 44) 4 = 65539 ∧
    rootblk_off huge_image.data = 4096 * 65539 := by
  have f1 : rdLE huge_image.data 28 8 = 1 := by
    simp (disch := omega) only [huge_image, rdLE_wrLE_disj, rdLE_wrLE_same]
    norm_num
  have f2 : rdLE huge_image.data 60 8 = 65538 := by
    simp (disch := omega) only [huge_image, rdLE_wrLE_disj, rdLE_wrLE_same]
    norm_num
  have f3 : rdLE huge_image.data (4096 * 65538 + 44) 4 = 65539 := by
    simp (disch := omega) only [huge_image, rdLE_wrLE_disj, rdLE_wrLE_same]
    norm_num
  have r : root_off huge_image.data = 4096 * 65538 := by
    simp only [root_off, inodes_off, f2, BS, ROOT_INO, INODE_SIZE]
    norm_num
  refine ⟨?_, ?_, ?_, ?_, r, ?_, f3, ?_⟩
  · simp (disch := omega) only [huge_image, rdLE_wrLE_disj, rdLE_wrLE_same]
    norm_num
  · simp (disch := omega) only [huge_image, rdLE_wrLE_disj, rdLE_wrLE_same]
    norm_num
  · simp (disch := omega) only [huge_image, rdLE_wrLE_disj, rdLE_wrLE_same]
    norm_num
  · simp only [inode_bm_off, f1, BS]
    norm_num
  · simp (disch := omega) only [huge_image, rdLE_wrLE_disj, rdLE_wrLE_same]
    norm_num
  · simp only [rootblk_off, r, f3, BS]
    norm_num

/-- The bytes of the image with 2^31 + 1 inodes from block 1 on, the root inode apart. -/
theorem huge_image_byte (x : Nat) (h1 : 4096 ≤ x)
    (h2 : x < 4096 * 65538 ∨ 4096 * 65538 + 48 ≤ x) :
    huge_image.data x = if x < 4096 + 2 ^ 28 then 255 else 0 := by
  simp only [huge_image]
  rw [wrLE_frame _ _ _ _ _ (by omega), wrLE_frame _ _ _ _ _ (by omega),
    wrLE_frame _ _ _ _ _ (by omega), wrLE_frame _ _ _ _ _ (by omega),
    wrLE_frame _ _ _ _ _ (by omega), wrLE_frame _ _ _ _ _ (by omega),
    wrLE_frame _ _ _ _ _ (by omega)]
  simp only [h1, true_and]

/-- In the image with 2^31 + 1 inodes the bits 0 to 2^31 - 1 of the inode bitmap are set
and bit 2^31 is clear, so the scan stops at index 2^31. -/
theorem huge_image_scan :
    (∀ j, j < 2 ^ 31 → bit_set huge_image.data 4096 j) ∧
    ¬ bit_set huge_image.data 4096 (2 ^ 31) ∧
    inode_scan huge_image.data 4096 (2 ^ 31 + 1) 0 = some (2 ^ 31) := by
  have hs : ∀ j, j < 2 ^ 31 → bit_set huge_image.data 4096 j := by
    intro j hj
    rw [bit_set, huge_image_byte _ (by omega) (by omega), if_pos (by omega)]
    have hr : j % 8 < 8 := Nat.mod_lt _ (by norm_num)
    generalize j % 8 = r at hr
    interval_cases r <;> rfl
  have hc : ¬ bit_set huge_image.data 4096 (2 ^ 31) := by
    rw [bit_set, huge_image_byte _ (by omega) (by omega), if_neg (by omega)]
    simp
  refine ⟨hs, hc, (inode_scan_some_iff _ _ _ _ _).2 ⟨Nat.zero_le _, by omega, hc, ?_⟩⟩
  intro j _ hj
  exact hs j hj

/-- Counterexample to claim C10 as stated: in an image that declares 2^31 + 1 inodes and
whose inode bitmap has bits 0 to 2^31 - 1 set and bit 2^31 clear, every check before the
inode allocation passes and one of the first inode_count bits is clear, yet the insertion
ends with the no-free-inode error: the index found is narrowed to `int` and is negative. -/
theorem C10_inode_index_narrowed :
    (huge_image.size ≠ 0 ∧ huge_image.size % BS = 0) ∧
    (rdLE huge_image.data 0 4 = MAGIC ∧ rdLE huge_image.data 8 4 = BS) ∧
    (hello_src.st_mode &&& S_IFREG ≠ 0 ∧ need hello_src ≤ DIRECT_MAX) ∧
    (1 ≤ (base_name hello_src.path).length ∧ (base_name hello_src.path).length ≤ 58) ∧
    (rdLE huge_image.data (root_off huge_image.data) 2 = MODE_DIR ∧
      rdLE huge_image.data (root_off huge_image.data + 44) 4 ≠ 0) ∧
    dup_scan huge_image.data (rootblk_off huge_image.data) (fname hello_src) (BS / 64) 0 =
      false ∧
    2 ^ 31 < rdLE huge_image.data 20 8 ∧
    ¬ bit_set huge_image.data (inode_bm_off huge_image.data) (2 ^ 31) ∧
    (∀ j, j < 2 ^ 31 → bit_set huge_image.data (inode_bm_off huge_image.data) j) ∧
    to_int32 (2 ^ 31) < 0 ∧
    mkfs_adder huge_image hello_src 0 = .error .no_free_inode := by
  obtain ⟨f1, f2, f3, f4, f5, f6, f7, f8⟩ := huge_image_fields
  obtain ⟨s1, s2, s3⟩ := huge_image_scan
  obtain ⟨hv, hreg, hlen, hbase⟩ := hello_src_facts
  obtain ⟨hn, -⟩ := hello_src_need
  have hsize : huge_image.size ≠ 0 ∧ huge_image.size % BS = 0 := by
    constructor <;> decide
  have hfile : hello_src.st_mode &&& S_IFREG ≠ 0 ∧ need hello_src ≤ DIRECT_MAX :=
    ⟨hreg, by rw [hn]; norm_num⟩
  have hname : 1 ≤ (base_name hello_src.path).length ∧
      (base_name hello_src.path).length ≤ 58 := by
    rw [hbase]; constructor <;> simp
  have hroot : rdLE huge_image.data (root_off huge_image.data) 2 = MODE_DIR ∧
      rdLE huge_image.data (root_off huge_image.data + 44) 4 ≠ 0 := by
    rw [f5, f6, f7]; constructor
    · rfl
    · norm_num
  have hdup : dup_scan huge_image.data (rootblk_off huge_image.data) (fname hello_src)
      (BS / 64) 0 = false := by
    have hnz : ∀ c ∈ base_name hello_src.path, c ≠ 0 := fun c hc => by
      have := hv.1 c (base_name_mem _ c hc); omega
    cases hd : dup_scan huge_image.data (rootblk_off huge_image.data)
      (fname hello_src) (BS / 64) 0 with
    | false => rfl
    | true =>
      exfalso
      obtain ⟨s, -, t2, t3, -⟩ := (dup_scan_iff _ _ hello_src hname.2 hnz _ _).1 hd
      simp only [BS] at t2
      apply t3
      rw [f8]
      apply rdLE_zero
      intro x h1 h2
      rw [huge_image_byte _ (by omega) (by omega), if_neg (by omega)]
  have hneg : to_int32 (2 ^ 31) < 0 := by
    simp only [to_int32]
    norm_num
  have hscan : inode_scan huge_image.data (inode_bm_off huge_image.data)
      (rdLE huge_image.data 20 8) 0 = some (2 ^ 31) := by
    rw [f3, f4]; exact s3
  refine ⟨hsize, ⟨f1, f2⟩, hfile, hname, hroot, hdup, by rw [f3]; omega, by rw [f4]; exact s2,
    by rw [f4]; exact s1, hneg, ?_⟩
  cases hres : mkfs_adder huge_image hello_src 0 with
  | ok out =>
    exfalso
    obtain ⟨-, -, -, -, -, -, -, -, -, -, -, i, m2, m5, e1, e2, -⟩ := mkfs_adder_ok_elim hres
    have a1 : 2 ^ 31 = i := Option.some.inj (hscan.symm.trans e1)
    subst a1
    omega
  | error e =>
    have H := mkfs_adder_error_elim hres
    clear hres
    rcases H with ⟨-, h⟩ | ⟨-, H⟩
    · exact absurd h hsize.1
    rcases H with ⟨-, h⟩ | ⟨-, H⟩
    · exact absurd hsize.2 h
    rcases H with ⟨-, h⟩ | ⟨-, H⟩
    · exact absurd f1 h
    rcases H with ⟨-, h⟩ | ⟨-, H⟩
    · exact absurd f2 h
    rcases H with ⟨-, h⟩ | ⟨-, H⟩
    · exact absurd h hfile.1
    rcases H with ⟨-, h⟩ | ⟨-, H⟩
    · omega
    rcases H with ⟨-, h⟩ | ⟨-, H⟩
    · omega
    rcases H with ⟨-, h⟩ | ⟨-, H⟩
    · exact absurd hroot.1 h
    rcases H with ⟨-, h⟩ | ⟨-, H⟩
    · exact absurd h hroot.2
    rcases H with ⟨-, h⟩ | ⟨-, H⟩
    · rw [hdup] at h; cases h
    rcases H with ⟨he, -⟩ | ⟨i, hi, hi0, -⟩
    · rw [he]
    · exfalso
      have a1 : 2 ^ 31 = i := Option.some.inj (hscan.symm.trans hi)
      subst a1
      omega

/-! ## A root directory inside the root inode -/

theorem alloc_blocks_zero (bm k i : Nat) (m : Mem) (blocks : List Nat) :
    alloc_blocks bm 0 k i m blocks = (m, blocks) := by
  cases k with
  | zero => rfl
  | succ k => rw [alloc_blocks, if_neg (fun h => Nat.not_lt_zero _ h.2)]

/-- A file that needs no block: nothing is allocated and nothing is copied. -/
theorem copy_stage_of_need_zero (img : Mem) (src : source_file) (h : need src = 0) :
    (alloc_stage img src).2 = [] ∧ copy_stage img src = .ok img := by
  have hA : alloc_stage img src = (img, []) := by
    rw [alloc_stage, h, alloc_blocks_zero]
  refine ⟨by rw [hA], ?_⟩
  rw [copy_stage, hA, h, if_neg (by simp)]
  rfl

theorem takeWhile_length_le (l : List Nat) (i : Nat) (hi : i < l.length)
    (h : l.getD i 0 = 0) : (l.takeWhile (fun b => b != 0)).length ≤ i := by
  induction l generalizing i with
  | nil => simp at hi
  | cons x xs ih =>
    cases i with
    | zero =>
      simp only [List.getD_cons_zero] at h
      subst h
      simp [List.takeWhile]
    | succ i =>
      simp only [List.getD_cons_succ] at h
      simp only [List.length_cons] at hi
      rw [List.takeWhile_cons]
      split
      · simp only [List.length_cons]
        have := ih i (by omega) h
        omega
      · simp

/-- A directory entry whose name field starts with a NUL byte has the empty name. -/
theorem dirent_name_nil (m : Mem) (de : Nat) (h : m (de + 5) = 0) : dirent_name m de = [] := by
  rw [dirent_name, rdBytes_cons, h]
  rfl

/-- A directory entry with a NUL byte at position `i` of its name field has a name of at
most `i` bytes. -/
theorem dirent_name_length_le (m : Mem) (de i : Nat) (hi : i < 58) (h : m (de + 5 + i) = 0) :
    (dirent_name m de).length ≤ i := by
  rw [dirent_name]
  apply takeWhile_length_le
  · rw [rdBytes_length]; exact hi
  · rw [rdBytes_getD _ _ _ _ hi]; exact h

theorem rdLE_four_ne_zero (m : Mem) (a : Nat) (h : rdLE m a 2 ≠ 0) : rdLE m a 4 ≠ 0 := by
  simp only [rdLE] at h ⊢
  omega

theorem root_inode_uid (o : options_t) (t : Nat) : root_inode o t 5 = 0 := by
  simp only [root_inode]
  rw [inode_crc_finalize_frame _ _ _ (by omega), wrLE_frame _ _ _ _ _ (by omega),
    wrLE_frame _ _ _ _ _ (by omega), wrLE_frame _ _ _ _ _ (by omega),
    wrLE_frame _ _ _ _ _ (by omega), wrLE_frame _ _ _ _ _ (by omega),
    wrLE_frame _ _ _ _ _ (by omega), wrLE_frame _ _ _ _ _ (by omega),
    wrLE_frame _ _ _ _ _ (by omega), wrLE_frame _ _ _ _ _ (by omega), wrLE_apply,
    if_pos (by omega)]
  simp

theorem write_inode_uid (fsz now nd : Nat) (blocks : List Nat) :
    write_inode zeroMem 0 fsz now nd blocks 5 = 0 := by
  simp only [write_inode, DIRECT_MAX, INODE_SIZE]
  rw [inode_crc_finalize_frame _ _ _ (by omega), fill_direct_frame _ _ _ _ _ (by omega),
    fill_direct_frame _ _ _ _ _ (by omega), wrLE_frame _ _ _ _ _ (by omega),
    wrLE_frame _ _ _ _ _ (by omega), wrLE_frame _ _ _ _ _ (by omega),
    wrLE_frame _ _ _ _ _ (by omega), wrLE_frame _ _ _ _ _ (by omega),
    wrLE_frame _ _ _ _ _ (by omega), memset_apply, if_pos (by omega)]

/-- The upper four bytes of the root inode's `inode_crc` field are zero after the final
updates, the checksum being a 32-bit value. -/
theorem finish_image_crc_high (m : Mem) (r now k : Nat) (hr : 116 ≤ r) (hk : k < 4) :
    finish_image m r now (r + 124 + k) = 0 := by
  simp only [finish_image]
  rw [superblock_crc_finalize_block_frame _ _ (by omega), wrLE_frame _ _ _ _ _ (by omega)]
  simp only [inode_crc_finalize]
  rw [wrLE_apply, if_pos (by omega)]
  generalize hc : crc32 _ 120 = c
  have hlt : c < 2 ^ 32 := by rw [← hc]; exact crc32_lt _ _
  have e : r + 124 + k - (r + 120) = 4 + k := by omega
  rw [e]
  have : c / 256 ^ (4 + k) = 0 := by
    apply Nat.div_eq_of_lt
    calc c < 2 ^ 32 := hlt
      _ = 256 ^ 4 := by norm_num
      _ ≤ 256 ^ (4 + k) := Nat.pow_le_pow_right (by norm_num) (by omega)
  rw [this]

theorem long_name_src_facts :
    valid_source long_name_src ∧ long_name_src.st_mode &&& S_IFREG ≠ 0 ∧
    need long_name_src = 0 ∧ base_name long_name_src.path = List.replicate 58 97 ∧
    (base_name long_name_src.path).length = 58 := by
  have hv : valid_source long_name_src := by
    refine ⟨?_, ?_, by decide⟩
    · intro b hb
      simp only [long_name_src, List.mem_replicate] at hb
      omega
    · intro b hb
      cases hb
  have hb : base_name long_name_src.path = List.replicate 58 97 := by decide
  exact ⟨hv, by decide, by rw [need_eq long_name_src hv.2.2]; rfl, hb, by rw [hb]; rfl⟩

theorem aliased_image_frame (x : Nat) (h : x < 12332 ∨ 12336 ≤ x) :
    aliased_image.data x = sample_image.data x :=
  wrLE_frame _ _ _ _ _ (by omega)

/-- The bytes of the sample image that matter for the aliased image: the inode bitmap, the
root inode and the rest of the inode table. -/
theorem sample_image_table :
    (∀ j, j < 32768 → (bit_set sample_image.data 4096 j ↔ j = 0)) ∧
    sample_image.data 12293 = 0 ∧ rdLE sample_image.data (12288 + 64) 4 = 0 ∧
    (∀ a, 12288 + 128 ≤ a → a < 4096 * 7 → sample_image.data a = 0) := by
  obtain ⟨hok, -, hdrs, -, hF, -⟩ := sample_image_facts
  obtain ⟨b1, -, b3, -⟩ := build_image_bitmaps ⟨180, 128⟩ 0 0 zeroMem hok
  obtain ⟨-, -, -, -, g5, g6, -⟩ := build_image_regions ⟨180, 128⟩ 0 0 zeroMem hok
  rw [hdrs] at g6
  refine ⟨?_, ?_, ?_, g6⟩
  · intro j hj
    constructor
    · intro h
      by_contra hne
      exact b3 j (by omega) hj h
    · rintro rfl
      exact b1
  · exact (g5 5 (by norm_num)).trans (root_inode_uid _ _)
  · have e := rdLE_of_shifted (m := (build_image ⟨180, 128⟩ 0 0 zeroMem).data) g5 64 4
      (by norm_num)
    exact e.trans ((root_inode_fields ⟨180, 128⟩ 0 hok).2.2.2.2.1 5 (by norm_num) (by norm_num))

/-- The superblock fields, offsets and root inode of the aliased image: the root
directory block is the block of the root inode. -/
theorem aliased_image_fields :
    (aliased_image.size ≠ 0 ∧ aliased_image.size % BS = 0) ∧
    (rdLE aliased_image.data 0 4 = MAGIC ∧ rdLE aliased_image.data 8 4 = BS) ∧
    rdLE aliased_image.data 20 8 = 128 ∧ inode_bm_off aliased_image.data = 4096 ∧
    inodes_off aliased_image.data = 12288 ∧ root_off aliased_image.data = 12288 ∧
    rdLE aliased_image.data 12288 2 = MODE_DIR ∧
    rdLE aliased_image.data (12288 + 44) 4 = 3 ∧
    rootblk_off aliased_image.data = 12288 := by
  obtain ⟨hok, -, hdrs, -, hF, -⟩ := sample_image_facts
  obtain ⟨-, -, p1, -⟩ := sample_insert_facts
  have rd : ∀ a n, a + n ≤ 12332 → rdLE aliased_image.data a n = rdLE sample_image.data a n :=
    fun a n h => rdLE_wrLE_disj _ _ _ _ _ _ (by omega)
  have f3 : rdLE aliased_image.data (12288 + 44) 4 = 3 := by
    show rdLE (wrLE sample_image.data (12288 + 44) 4 3) (12288 + 44) 4 = 3
    rw [rdLE_wrLE_same]
    norm_num
  have i3 : inodes_off aliased_image.data = 12288 := by
    rw [inodes_off, rd 60 8 (by norm_num), hF.itab_start]
    norm_num
  have r3 : root_off aliased_image.data = 12288 := by
    rw [root_off, i3]
    norm_num [ROOT_INO, INODE_SIZE]
  refine ⟨p1, ⟨?_, ?_⟩, ?_, ?_, i3, r3, ?_, f3, ?_⟩
  · rw [rd 0 4 (by norm_num)]; exact hF.magic
  · rw [rd 8 4 (by norm_num)]; exact hF.block_size
  · rw [rd 20 8 (by norm_num)]; exact hF.inode_count
  · rw [inode_bm_off, rd 28 8 (by norm_num), hF.ibm_start]
    norm_num
  · rw [rd 12288 2 (by norm_num)]; exact hF.root_mode
  · rw [rootblk_off, r3, f3]
    norm_num

/-- The first insertion of the long-named file into the aliased image succeeds.  The new
entry takes slot 1 of the block the root inode points to, which is bytes 64 to 127 of the
root inode itself, and the final sealing of the root inode overwrites the end of the
entry: bytes 55 to 57 of its name are zero in the output. -/
theorem aliased_first_insert :
    ∃ out, mkfs_adder aliased_image long_name_src 0 = .ok out ∧
      out.size = aliased_image.size ∧
      (∀ x, x < 12288 → x ≠ 4096 → ¬(100 ≤ x ∧ x < 116) → out.data x = sample_image.data x) ∧
      (∀ j, j < 128 → (bit_set out.data 4096 j ↔ (j = 0 ∨ j = 1))) ∧
      rdLE out.data 12288 2 = MODE_DIR ∧ rdLE out.data (12288 + 44) 4 = 3 ∧
      out.data 12293 = 0 ∧
      rdLE out.data (12288 + 64) 4 = 2 ∧ out.data (12288 + 64 + 5 + 55) = 0 ∧
      out.data (12288 + 128 + 5) = 0 ∧ rdLE out.data (12288 + 192) 4 = 0 ∧
      (∀ x, 12288 + 256 ≤ x → x < 4096 * 7 → out.data x = 0) := by
  obtain ⟨t1, t2, t3, t4⟩ := sample_image_table
  obtain ⟨hsize, hsb, hcnt, o1, o3, o4, hmode, hd0, o5⟩ := aliased_image_fields
  obtain ⟨hv, hreg, hn, hbase, hblen⟩ := long_name_src_facts
  obtain ⟨hal, hc⟩ := copy_stage_of_need_zero aliased_image.data long_name_src hn
  obtain ⟨-, -, -, -, hF, -⟩ := sample_image_facts
  have hnz : ∀ c ∈ base_name long_name_src.path, c ≠ 0 := fun c hc => by
    have := hv.1 c (base_name_mem _ c hc); omega
  -- the slots of the aliased root directory
  have s0 : rdLE aliased_image.data 12288 4 ≠ 0 :=
    rdLE_four_ne_zero _ _ (by rw [hmode]; norm_num)
  have s0n : dirent_name aliased_image.data 12288 = [] :=
    dirent_name_nil _ _ (by rw [aliased_image_frame _ (by omega)]; exact t2)
  have s1 : rdLE aliased_image.data (12288 + 64) 4 = 0 := by
    rw [← t3]
    exact rdLE_congr (fun x h1 h2 => aliased_image_frame x (by omega))
  have s2 : ∀ s, 2 ≤ s → s < 64 → rdLE aliased_image.data (12288 + s * 64) 4 = 0 := by
    intro s h1 h2
    apply rdLE_zero
    intro x h3 h4
    rw [aliased_image_frame _ (by omega)]
    exact t4 x (by omega) (by omega)
  have hdup : dup_scan aliased_image.data (rootblk_off aliased_image.data)
      (fname long_name_src) (BS / 64) 0 = false := by
    cases hd : dup_scan aliased_image.data (rootblk_off aliased_image.data)
      (fname long_name_src) (BS / 64) 0 with
    | false => rfl
    | true =>
      exfalso
      obtain ⟨s, -, u2, u3, u4⟩ :=
        (dup_scan_iff _ _ long_name_src (by rw [hblen]) hnz _ _).1 hd
      simp only [BS] at u2
      rw [o5] at u3 u4
      rcases Nat.lt_or_ge s 1 with h | h
      · have e : s = 0 := by omega
        subst e
        rw [Nat.zero_mul, Nat.add_zero, s0n] at u4
        rw [← u4] at hblen
        cases hblen
      · rcases Nat.lt_or_ge s 2 with h' | h'
        · have e : s = 1 := by omega
          subst e
          exact u3 s1
        · exact u3 (s2 s h' (by omega))
  have hscan : inode_scan aliased_image.data (inode_bm_off aliased_image.data)
      (rdLE aliased_image.data 20 8) 0 = some 1 := by
    rw [o1, hcnt]
    refine (inode_scan_some_iff _ _ _ _ _).2 ⟨by norm_num, by norm_num, ?_, ?_⟩
    · rw [bit_set_congr (aliased_image_frame _ (by norm_num)), t1 1 (by norm_num)]
      norm_num
    · intro j _ hj
      rw [bit_set_congr (aliased_image_frame _ (by omega)), t1 j (by omega)]
      omega
  -- the image after the inode record is written
  have hm3 : ∀ x, x ≠ 4096 → (x < 12288 + 128 ∨ 12288 + 256 ≤ x) →
      inode_stage aliased_image.data long_name_src 0 1 aliased_image.data x =
        aliased_image.data x := by
    intro x h1 h2
    rw [inode_stage, o1, o3, set_bit_frame _ _ _ _ (by omega),
      write_inode_frame _ _ _ _ _ _ _ (by rw [hn]; norm_num) (by simp only [INODE_SIZE]; omega)]
  have hm3i : ∀ i, i < 128 →
      inode_stage aliased_image.data long_name_src 0 1 aliased_image.data (12288 + 128 + i) =
        write_inode zeroMem 0 (fsize long_name_src) 0 (need long_name_src)
          (alloc_stage aliased_image.data long_name_src).2 i := by
    intro i hi
    rw [inode_stage, o1, o3, set_bit_frame _ _ _ _ (by omega)]
    exact write_inode_shifted _ _ _ _ _ _ i hi
  have hp : place_dirent (rootblk_off aliased_image.data)
      (new_dirent 1 (base_name long_name_src.path)) (BS / 64) 0
      (inode_stage aliased_image.data long_name_src 0 1 aliased_image.data) =
      some (memcpy (inode_stage aliased_image.data long_name_src 0 1 aliased_image.data)
        (12288 + 1 * 64) (new_dirent 1 (base_name long_name_src.path)) 0 64) := by
    rw [o5]
    refine (place_dirent_some_iff _ _ _ _ _ _).2 ⟨1, by norm_num, by norm_num, ?_, ?_, rfl⟩
    · rw [← s1]
      exact rdLE_congr (fun x h1 h2 => hm3 x (by omega) (by omega))
    · intro s' _ h
      have e : s' = 0 := by omega
      subst e
      rw [Nat.zero_mul, Nat.add_zero]
      have : rdLE (inode_stage aliased_image.data long_name_src 0 1 aliased_image.data)
          12288 4 = rdLE aliased_image.data 12288 4 :=
        rdLE_congr (fun x h1 h2 => hm3 x (by omega) (by omega))
      rw [this]
      exact s0
  have hok := mkfs_adder_ok_intro hsize hsb ⟨hreg, by rw [hn]; norm_num⟩
    ⟨by rw [hblen]; norm_num, by rw [hblen]⟩ ⟨by rw [o4]; exact hmode, by rw [o4, hd0]; norm_num⟩
    hdup hscan (by norm_num) hc hp
  rw [o4] at hok
  obtain ⟨out, hout, hsz, hdata⟩ : ∃ out, mkfs_adder aliased_image long_name_src 0 = .ok out ∧
      out.size = aliased_image.size ∧
      out.data = finish_image (memcpy
        (inode_stage aliased_image.data long_name_src 0 1 aliased_image.data) (12288 + 1 * 64)
        (new_dirent 1 (base_name long_name_src.path)) 0 64) 12288 0 := ⟨_, hok, rfl, rfl⟩
  clear hok
  refine ⟨out, hout, hsz, ?_, ?_, ?_, ?_, ?_, ?_, ?_, ?_, ?_, ?_⟩
  · intro x h1 h2 h3
    rw [hdata, finish_image_frame _ _ _ _ (by omega), memcpy_apply, if_neg (by omega),
      hm3 x h2 (by omega), aliased_image_frame _ (by omega)]
  · intro j hj
    have e : ∀ m : Mem, finish_image (memcpy m (12288 + 1 * 64)
        (new_dirent 1 (base_name long_name_src.path)) 0 64) 12288 0 (4096 + j / 8) =
        m (4096 + j / 8) := by
      intro m
      rw [finish_image_frame _ _ _ _ (by omega), memcpy_apply, if_neg (by omega)]
    rw [hdata, bit_set_congr (e _), inode_stage, o1, o3, bit_set_set_bit,
      bit_set_congr (write_inode_frame _ _ _ _ _ _ _ (by rw [hn]; norm_num)
        (by simp only [INODE_SIZE]; omega)),
      bit_set_congr (aliased_image_frame _ (by omega)), t1 j (by omega)]
    omega
  · rw [← hmode]
    apply rdLE_congr
    intro x h1 h2
    rw [hdata, finish_image_frame _ _ _ _ (by omega), memcpy_apply, if_neg (by omega),
      hm3 x (by omega) (by omega)]
  · rw [← hd0]
    apply rdLE_congr
    intro x h1 h2
    rw [hdata, finish_image_frame _ _ _ _ (by omega), memcpy_apply, if_neg (by omega),
      hm3 x (by omega) (by omega)]
  · rw [hdata, finish_image_frame _ _ _ _ (by omega)]
    rw [memcpy_apply, if_neg (by omega),
      hm3 _ (by omega) (by omega), aliased_image_frame _ (by omega)]
    exact t2
  · have e : rdLE out.data (12288 + 64 + 0) 4 =
        rdLE (new_dirent 1 (base_name long_name_src.path)) 0 4 := by
      apply rdLE_of_shifted_upto _ 0 4 (show 0 + 4 ≤ 4 by norm_num)
      intro i hi
      rw [hdata, finish_image_frame _ _ _ _ (by omega), memcpy_apply, if_pos (by omega)]
      exact congrArg _ (by omega)
    exact e.trans (new_dirent_inode_no 1 _)
  · rw [hdata]
    exact finish_image_crc_high _ 12288 0 0 (by norm_num) (by norm_num)
  · rw [hdata, finish_image_frame _ _ _ _ (by omega), memcpy_apply, if_neg (by omega),
      hm3i 5 (by norm_num)]
    exact write_inode_uid _ _ _ _
  · rw [hdata]
    have e : rdLE (finish_image (memcpy
        (inode_stage aliased_image.data long_name_src 0 1 aliased_image.data) (12288 + 1 * 64)
        (new_dirent 1 (base_name long_name_src.path)) 0 64) 12288 0) (12288 + 128 + 64) 4 =
        rdLE (write_inode zeroMem 0 (fsize long_name_src) 0 (need long_name_src)
          (alloc_stage aliased_image.data long_name_src).2) 64 4 := by
      apply rdLE_of_shifted _ 64 4 (by norm_num)
      intro i hi
      rw [finish_image_frame _ _ _ _ (by omega), memcpy_apply, if_neg (by omega)]
      exact hm3i i hi
    exact e.trans ((write_inode_fields _ 0 _ _ (by rw [hn]; norm_num)).2.2.2.2 5
      (by rw [hn]; norm_num) (by norm_num))
  · intro x h1 h2
    rw [hdata, finish_image_frame _ _ _ _ (by omega), memcpy_apply, if_neg (by omega),
      hm3 x (by omega) (by omega), aliased_image_frame _ (by omega)]
    exact t4 x (by omega) h2

/-- Counterexample to the last part of claim C9 as stated: the aliased image passes the
superblock and root-inode checks and the long-named empty file passes the size and
name-length checks, yet inserting the file twice in sequence succeeds both times.  The
root inode points to its own block, so the entry written by the first insertion lies
inside the root inode and its name is cut short when the root inode is sealed. -/
theorem C9_same_file_inserted_twice :
    (aliased_image.size ≠ 0 ∧ aliased_image.size % BS = 0) ∧
    (rdLE aliased_image.data 0 4 = MAGIC ∧ rdLE aliased_image.data 8 4 = BS) ∧
    (rdLE aliased_image.data (root_off aliased_image.data) 2 = MODE_DIR ∧
      rdLE aliased_image.data (root_off aliased_image.data + 44) 4 ≠ 0) ∧
    valid_source long_name_src ∧
    (long_name_src.st_mode &&& S_IFREG ≠ 0 ∧ need long_name_src ≤ DIRECT_MAX) ∧
    (1 ≤ (base_name long_name_src.path).length ∧
      (base_name long_name_src.path).length ≤ 58) ∧
    ∃ out1 out2, mkfs_adder aliased_image long_name_src 0 = .ok out1 ∧
      mkfs_adder out1 long_name_src 0 = .ok out2 := by
  obtain ⟨hsize, hsb, hcnt, o1, o3, o4, hmode, hd0, o5⟩ := aliased_image_fields
  obtain ⟨hv, hreg, hn, hbase, hblen⟩ := long_name_src_facts
  obtain ⟨-, -, -, -, hF, -⟩ := sample_image_facts
  obtain ⟨out, hout, hsz, f1, f2, f3, f4, f5, f6, f7, f8, f9, f10⟩ := aliased_first_insert
  have hfile : long_name_src.st_mode &&& S_IFREG ≠ 0 ∧ need long_name_src ≤ DIRECT_MAX :=
    ⟨hreg, by rw [hn]; norm_num⟩
  have hname : 1 ≤ (base_name long_name_src.path).length ∧
      (base_name long_name_src.path).length ≤ 58 := ⟨by rw [hblen]; norm_num, by rw [hblen]⟩
  refine ⟨hsize, hsb, ⟨by rw [o4]; exact hmode, by rw [o4, hd0]; norm_num⟩, hv, hfile, hname,
    out, ?_⟩
  obtain ⟨-, hc⟩ := copy_stage_of_need_zero out.data long_name_src hn
  have hnz : ∀ c ∈ base_name long_name_src.path, c ≠ 0 := fun c hc => by
    have := hv.1 c (base_name_mem _ c hc); omega
  -- the superblock of the output of the first insertion
  have rd : ∀ a n, a + n ≤ 100 → rdLE out.data a n = rdLE sample_image.data a n :=
    fun a n h => rdLE_congr (fun x h1 h2 => f1 x (by omega) (by omega) (by omega))
  have p1 : inode_bm_off out.data = 4096 := by
    rw [inode_bm_off, rd 28 8 (by norm_num), hF.ibm_start]
    norm_num
  have p3 : inodes_off out.data = 12288 := by
    rw [inodes_off, rd 60 8 (by norm_num), hF.itab_start]
    norm_num
  have p4 : root_off out.data = 12288 := by
    rw [root_off, p3]
    norm_num [ROOT_INO, INODE_SIZE]
  have p5 : rootblk_off out.data = 12288 := by
    rw [rootblk_off, p4, f4]
    norm_num
  have hdup : dup_scan out.data (rootblk_off out.data) (fname long_name_src) (BS / 64) 0 =
      false := by
    cases hd : dup_scan out.data (rootblk_off out.data) (fname long_name_src) (BS / 64) 0 with
    | false => rfl
    | true =>
      exfalso
      obtain ⟨s, -, u2, u3, u4⟩ :=
        (dup_scan_iff _ _ long_name_src (by rw [hblen]) hnz _ _).1 hd
      simp only [BS] at u2
      rw [p5] at u3 u4
      have hlen := congrArg List.length u4
      rw [hblen] at hlen
      rcases Nat.lt_or_ge s 4 with h | h
      · have hs : s = 0 ∨ s = 1 ∨ s = 2 ∨ s = 3 := by omega
        rcases hs with rfl | rfl | rfl | rfl
        · rw [dirent_name_nil _ _ f5] at hlen
          cases hlen
        · have := dirent_name_length_le out.data (12288 + 1 * 64) 55 (by norm_num) f7
          omega
        · rw [dirent_name_nil _ _ f8] at hlen
          cases hlen
        · exact u3 f9
      · apply u3
        apply rdLE_zero
        intro x h1 h2
        exact f10 x (by omega) (by omega)
  have hscan : inode_scan out.data (inode_bm_off out.data) (rdLE out.data 20 8) 0 =
      some 2 := by
    rw [p1, rd 20 8 (by norm_num), hF.inode_count]
    refine (inode_scan_some_iff _ _ _ _ _).2 ⟨by norm_num, by norm_num, ?_, ?_⟩
    · rw [f2 2 (by norm_num)]
      norm_num
    · intro j _ hj
      rw [f2 j (by omega)]
      omega
  have hfree : rdLE (inode_stage out.data long_name_src 0 2 out.data) (12288 + 3 * 64) 4 =
      0 := by
    rw [← f9]
    apply rdLE_congr
    intro x h1 h2
    rw [inode_stage, p1, p3, set_bit_frame _ _ _ _ (by omega),
      write_inode_frame _ _ _ _ _ _ _ (by rw [hn]; norm_num) (by simp only [INODE_SIZE]; omega)]
  cases hp : place_dirent (rootblk_off out.data) (new_dirent 2 (base_name long_name_src.path))
      (BS / 64) 0 (inode_stage out.data long_name_src 0 2 out.data) with
  | none =>
    exfalso
    rw [p5] at hp
    exact (place_dirent_none_iff _ _ _ _ _).1 hp 3 (by norm_num) (by norm_num) hfree
  | some m5 =>
    exact ⟨_, hout, mkfs_adder_ok_intro ⟨by rw [hsz]; exact hsize.1, by rw [hsz]; exact hsize.2⟩
      ⟨by rw [rd 0 4 (by norm_num)]; exact hF.magic,
        by rw [rd 8 4 (by norm_num)]; exact hF.block_size⟩
      hfile hname ⟨by rw [p4]; exact f3, by rw [p4, f4]; norm_num⟩ hdup hscan (by norm_num)
      hc hp⟩

end MiniVSFS
